import Mathlib

/-!
# twitris: a shallow embedding of `src/lib/block.js`, `src/lib/util.js` and `src/lib/game.js`

JavaScript values are embedded as follows.

* numbers that the program uses as coordinates, rotations and counters are `Int`
  (array lengths and board dimensions are `Nat`). JavaScript numbers are doubles: sums of
  coordinates are exact below `2 ^ 53` in absolute value, the range the coordinates are
  taken in; a result that is not bound to that range is rounded as the machine rounds it
  (`roundDouble`): the changed rotation of a tilt, the difference
  `this.width - coords[0].length` and the product with `Math.random()`;
* a cell of a shape or of the board is a `Cell`: `undefined`, `null` or a string;
* arrays are lists; an array read outside its range yields `undefined`, a property read
  on `undefined` throws `TypeError`;
* a method that can throw returns `Except JSError _`; a method that mutates the game
  returns an `Outcome`: the game as it is left behind, and the exception if one was thrown
  (mutations made before a throw stay, as in JavaScript);
* `Math.random()` is a double in `[0, 1)`, given by its digits: `mantissa / 2 ^ exponent`;
* the replies fetched from Twitter (`src/lib/twitter.js`, not part of the sources here)
  are an input of `update`.
-/

namespace Twitris

/-! ## Values -/

/-- Exceptions the embedded code can throw, and the exhaustion of the recursion budget of
`start`/`addBlock` (which is not a JavaScript exception). -/
inductive JSError where
  | referenceError
  | typeError
  | outOfFuel
  deriving DecidableEq, Repr

deriving instance DecidableEq for Except

/-- A cell value: `undefined`, `null` or a string. -/
inductive Cell where
  | undefined
  | null
  | str (s : String)
  deriving DecidableEq, Repr

/-- The constant `background` of `game.js`. -/
def background : Cell := .str "⬛"

/-- JavaScript truthiness of a cell value (`cell && ...`). -/
def Cell.truthy : Cell → Bool
  | .str s => decide (s ≠ "")
  | _ => false

/-- The test `v == null` (loose equality): true of `null` and `undefined`. -/
def Cell.looseNull : Cell → Bool
  | .str _ => false
  | _ => true

/-- The test `v != background`. -/
def Cell.notBackground (c : Cell) : Bool := decide (c ≠ background)

/-- Typedef `ShapeLike`. -/
abbrev Shape := List (List Cell)

/-- One entry `[y, x, cell]` of a `BlockLike`. -/
structure Pixel where
  y : Int
  x : Int
  cell : Cell
  deriving DecidableEq, Repr

/-- Typedef `BlockLike`. -/
abbrev BlockLike := List (List Pixel)

/-- Array read `a[i]` for a number `i`: `none` stands for `undefined`. -/
def arrayGet {α : Type} (a : List α) (i : Int) : Option α :=
  if 0 ≤ i then a[i.toNat]? else none

/-- Read `grid[r][c]` where `grid[r]` is known to exist: `undefined` outside the row. -/
def cellAt (row : List Cell) (c : Nat) : Cell := row.getD c .undefined

/-! ## Numbers -/

/-- The number of binary digits of `x`; `fuel` bounds the recursion, and `x` itself is
enough. -/
def binaryDigits : Nat → Nat → Nat
  | 0, _ => 0
  | fuel + 1, x => if x = 0 then 0 else binaryDigits fuel (x / 2) + 1

/-- The double nearest to a natural number: the number itself below `2 ^ 53`; otherwise its
53 leading binary digits `q`, followed by `s` zeros, or the next such number, whichever is
nearer, and on a tie the one with `q` even (IEEE 754 round to nearest, ties to even). -/
def roundNat (x : Nat) : Nat :=
  if x < 2 ^ 53 then x
  else
    let s := binaryDigits x x - 53
    let q := x / 2 ^ s
    let r := x % 2 ^ s
    (if 2 ^ s < 2 * r ∨ (2 * r = 2 ^ s ∧ q % 2 = 1) then q + 1 else q) * 2 ^ s

/-- The double that an arithmetic operation returns when its exact result is the integer `x`.
The results rounded here stay below the largest double: they are no larger in absolute value
than an operand, or than an operand plus 4. -/
def roundDouble (x : Int) : Int := x.sign * (roundNat x.natAbs : Int)

/-! ## `block.js` -/

/-- Class `Block`. -/
structure Block where
  shape : Shape
  position : Int × Int
  rotation : Int
  fixed : Bool
  deriving DecidableEq, Repr

/-- The constructor's defaults: `new Block(shape)`. -/
def Block.new (shape : Shape) : Block :=
  { shape := shape, position := (-1, 0), rotation := 0, fixed := false }

/-- The value `Math.abs(this.rotation) % 4`. -/
def Block.normRotation (b : Block) : Nat := b.rotation.natAbs % 4

/-- Method `translate` of `Block`. For rotations 1 and 3 the result array is allocated from
`this.shape[0].length`, which throws on an empty shape. -/
def Block.translate (b : Block) : Except JSError BlockLike :=
  let rotation := b.normRotation
  if rotation = 0 then
    .ok (b.shape.enum.map fun (rowPos, row) =>
      row.enum.map fun (colPos, cell) =>
        { y := b.position.1 + rowPos, x := b.position.2 + colPos, cell := cell })
  else if rotation = 3 then
    match b.shape with
    | [] => .error .typeError
    | row0 :: _ =>
      .ok ((List.range row0.length).map fun (colPos : Nat) =>
        (List.range b.shape.length).map fun (rowPos : Nat) =>
          { y := b.position.1 + colPos, x := b.position.2 + rowPos,
            cell := cellAt (b.shape.reverse.getD rowPos []) colPos })
  else if rotation = 2 then
    .ok (b.shape.reverse.enum.map fun (rowPos, row) =>
      row.reverse.enum.map fun (colPos, cell) =>
        { y := b.position.1 + rowPos, x := b.position.2 + colPos, cell := cell })
  else if rotation = 1 then
    match b.shape with
    | [] => .error .typeError
    | row0 :: _ =>
      .ok ((List.range row0.length).map fun (colPos : Nat) =>
        (List.range b.shape.length).map fun (rowPos : Nat) =>
          { y := b.position.1 + colPos, x := b.position.2 + rowPos,
            cell := cellAt ((b.shape.getD rowPos []).reverse) colPos })
  else .ok []

/-- The object returned by `toJSON` of `Block`. -/
structure BlockJSON where
  shape : Shape
  position : Int × Int
  rotation : Int
  fixed : Bool
  deriving DecidableEq, Repr

/-- Method `toJSON` of `Block`. -/
def Block.toJSON (b : Block) : BlockJSON :=
  { shape := b.shape, position := b.position, rotation := b.rotation, fixed := b.fixed }

/-- Static method `Block.fromJSON`. -/
def Block.fromJSON (json : BlockJSON) : Block :=
  { shape := json.shape, position := json.position, rotation := json.rotation,
    fixed := json.fixed }

/-! ## `util.js` -/

/-- Function `uniq`: `[...new Set(values)]`, the values in order of first occurrence. -/
def uniq {α : Type} [DecidableEq α] (values : List α) : List α :=
  values.foldl (fun seen v => if v ∈ seen then seen else seen ++ [v]) []

/-! ## `game.js`: constants -/

/-- The constant `shapes`. -/
def shapes : List Shape :=
  [ [ [.str "🟦", .null, .null],
      [.str "🟦", .str "🟦", .str "🟦"] ],
    [ [.str "🟥", .str "🟥", .str "🟥"],
      [.str "🟥", .null, .null] ],
    [ [.str "🟨", .str "🟨"],
      [.str "🟨", .str "🟨"] ],
    [ [.str "🟧", .str "🟧", .str "🟧", .str "🟧"] ],
    [ [.str "🟪", .str "🟪", .str "🟪"],
      [.null, .str "🟪", .null] ],
    [ [.str "🟩", .str "🟩", .null],
      [.null, .str "🟩", .str "🟩"] ],
    [ [.null, .str "🟫", .str "🟫"],
      [.str "🟫", .str "🟫", .null] ] ]

/-! ## `game.js`: state -/

/-- Class `Game`. -/
structure Game where
  interval : Nat
  paused : Bool
  width : Nat
  height : Nat
  blocks : List Block
  rows : List (List Cell)
  deriving DecidableEq, Repr

/-- What a mutating method leaves behind: the game, and the exception if it threw. -/
structure Outcome where
  thrown : Option JSError
  game : Game
  deriving DecidableEq, Repr

/-- Sequencing of statements: what follows a throw is not run. -/
def Outcome.andThen (o : Outcome) (k : Game → Outcome) : Outcome :=
  match o.thrown with
  | none => k o.game
  | some _ => o

/-- Array method `some` with a callback that may throw. -/
def anyE {α : Type} (p : α → Except JSError Bool) : List α → Except JSError Bool
  | [] => .ok false
  | a :: as =>
    match p a with
    | .error e => .error e
    | .ok true => .ok true
    | .ok false => anyE p as

/-- Array method `filter` with a callback that may throw. -/
def filterE {α : Type} (p : α → Except JSError Bool) : List α → Except JSError (List α)
  | [] => .ok []
  | a :: as =>
    match p a with
    | .error e => .error e
    | .ok keep =>
      match filterE p as with
      | .error e => .error e
      | .ok rest => .ok (if keep then a :: rest else rest)

/-- Method `withinBounds`. -/
def Game.withinBounds (g : Game) (y x : Int) : Bool :=
  decide (y ≥ 0) && decide (x ≥ 0) && decide (y < g.height) && decide (x < g.width)

/-- Read `this.rows[y][x]`: `TypeError` when `this.rows[y]` is `undefined`. -/
def Game.readCell (g : Game) (y x : Int) : Except JSError Cell :=
  match arrayGet g.rows y with
  | none => .error .typeError
  | some row => .ok ((arrayGet row x).getD .undefined)

/-- Array write `a[i] = v` for a number `i`: inside the array the element is replaced, past
its end the array grows (the gap reads as `undefined`), a negative `i` is no element. -/
def arraySet (a : List Cell) (i : Int) (v : Cell) : List Cell :=
  if i < 0 then a
  else if i.toNat < a.length then a.set i.toNat v
  else a ++ List.replicate (i.toNat - a.length) .undefined ++ [v]

/-- Write `this.rows[y][x] = v`: `TypeError` when `this.rows[y]` is `undefined`. -/
def Game.writeCell (g : Game) (y x : Int) (v : Cell) : Outcome :=
  match arrayGet g.rows y with
  | none => ⟨some .typeError, g⟩
  | some row => ⟨none, { g with rows := g.rows.set y.toNat (arraySet row x v) }⟩

/-- The loop `cells.forEach(([y, x, cell]) => (this.rows[y][x] = value(cell)))`. -/
def Game.writeCells (value : Pixel → Cell) : List Pixel → Game → Outcome
  | [], g => ⟨none, g⟩
  | p :: ps, g => (g.writeCell p.y p.x (value p)).andThen (Game.writeCells value ps)

/-! ## `game.js`: geometry -/

/-- Method `shouldFix`. -/
def Game.shouldFix (g : Game) (block : Block) : Except JSError Bool :=
  match block.translate with
  | .error e => .error e
  | .ok rows =>
    if rows.flatten.any (fun p => decide (p.y ≥ (g.height : Int) - 1)) then .ok true
    else
      anyE (fun (rowPos, row) =>
        anyE (fun (colPos, p) =>
          if p.cell.truthy then
            match (if rowPos + 1 ≥ rows.length then Except.ok true
                   else match (rows.getD (rowPos + 1) [])[colPos]? with
                     | none => Except.error JSError.typeError
                     | some q => Except.ok q.cell.looseNull) with
            | .error e => .error e
            | .ok false => .ok false
            | .ok true =>
              if g.withinBounds (p.y + 1) p.x then
                match g.readCell (p.y + 1) p.x with
                | .error e => .error e
                | .ok c => .ok c.notBackground
              else .ok false
          else .ok false) row.enum) rows.enum

/-- Method `clearBlock`. -/
def Game.clearBlock (g : Game) (block : Block) : Outcome :=
  match block.translate with
  | .error e => ⟨some e, g⟩
  | .ok rows =>
    Game.writeCells (fun _ => background)
      (rows.flatten.filter fun p => g.withinBounds p.y p.x && p.cell.truthy) g

/-- Method `drawBlock`. -/
def Game.drawBlock (g : Game) (block : Block) : Outcome :=
  match block.translate with
  | .error e => ⟨some e, g⟩
  | .ok rows =>
    Game.writeCells (fun p => p.cell)
      (rows.flatten.filter fun p => g.withinBounds p.y p.x && p.cell.truthy) g

/-- The identifier `rows` inside `checkCollision`: the method declares no such variable and
the module has no such binding, so evaluating it throws `ReferenceError`. -/
def checkCollision.rows : Except JSError BlockLike := .error .referenceError

/-- The last disjunction of the filter of `checkCollision`, for a given value of `rows`:
`rowPos + y >= rows.length || rowPos + y < 0 || colPos + x >= rows[0].length ||
colPos + x < 0 || rows[rowPos + y][colPos + x][2] == null`. -/
def checkCollision.outsideOwn (rows : BlockLike) (rowPos colPos : Nat) (y x : Int) :
    Except JSError Bool :=
  if (rowPos : Int) + y ≥ rows.length ∨ (rowPos : Int) + y < 0 then .ok true
  else
    match rows.head? with
    | none => .error .typeError
    | some row0 =>
      if (colPos : Int) + x ≥ row0.length ∨ (colPos : Int) + x < 0 then .ok true
      else
        match arrayGet rows (rowPos + y) with
        | none => .error .typeError
        | some row =>
          match arrayGet row (colPos + x) with
          | none => .error .typeError
          | some q => .ok q.cell.looseNull

/-- The filter callback of `checkCollision`. An argument that was left out is `undefined`,
the sum with it is `NaN`, and `withinBounds` is false of `NaN`. -/
def checkCollision.keep (g : Game) (y x : Option Int) (rowPos : Nat) :
    Nat × Pixel → Except JSError Bool
  | (colPos, cell) =>
    match y, x with
    | some y, some x =>
      if cell.cell.truthy && g.withinBounds (cell.y + y) (cell.x + x) then
        match checkCollision.rows with
        | .error e => .error e
        | .ok rows => checkCollision.outsideOwn rows rowPos colPos y x
      else .ok false
    | _, _ => .ok false

/-- The callback of the inner `some` of `checkCollision`:
`this.rows[cell[0] + y][cell[1] + x] != background`. -/
def checkCollision.hit (g : Game) (y x : Option Int) : Nat × Pixel → Except JSError Bool
  | (_, cell) =>
    match y, x with
    | some y, some x =>
      match g.readCell (cell.y + y) (cell.x + x) with
      | .error e => .error e
      | .ok c => .ok c.notBackground
    | _, _ => .error .typeError

/-- Method `checkCollision`; `none` is an argument that was left out. -/
def Game.checkCollision (g : Game) (block : Block) (y x : Option Int) : Except JSError Bool :=
  match block.translate with
  | .error e => .error e
  | .ok proj =>
    anyE (fun (rowPos, row) =>
      match filterE (checkCollision.keep g y x rowPos) row.enum with
      | .error e => .error e
      | .ok kept => anyE (checkCollision.hit g y x) kept) proj.enum

/-- Replace the block stored at index `i`. -/
def Game.setBlock (g : Game) (i : Nat) (b : Block) : Game :=
  { g with blocks := g.blocks.set i b }

/-- Method `move`; the block is named by its index in `this.blocks`. -/
def Game.move (g : Game) (i : Nat) (y x : Int) : Outcome :=
  match g.blocks[i]? with
  | none => ⟨some .typeError, g⟩
  | some block =>
    match g.checkCollision block (some y) (some x) with
    | .error e => ⟨some e, g⟩
    | .ok true => ⟨none, g⟩
    | .ok false =>
      (g.clearBlock block).andThen fun g1 =>
        let moved : Block :=
          { block with
            position := (if block.fixed then block.position.1 else block.position.1 + y,
                         block.position.2 + x) }
        (g1.setBlock i moved).drawBlock moved

/-- Method `rowsToClear`. -/
def Game.rowsToClear (g : Game) (block : Block) : Except JSError (List Int) :=
  match block.translate with
  | .error e => .error e
  | .ok rows =>
    filterE (fun y =>
        match arrayGet g.rows y with
        | none => .error .typeError
        | some row => .ok (row.all Cell.notBackground))
      ((uniq (rows.flatten.map fun p => p.y)).filter fun y => decide (y > 0) && decide (y < g.height))

/-- The innermost loop of `clearRows`: `this.rows[cur][i] = this.rows[above][i]` for
`i = from, ..., this.width - 1`; `n` is the number of iterations left. -/
def Game.copyRow (cur above : Int) : Nat → Nat → Game → Outcome
  | 0, _, g => ⟨none, g⟩
  | n + 1, i, g =>
    match g.readCell above i with
    | .error e => ⟨some e, g⟩
    | .ok v => (g.writeCell cur i v).andThen (Game.copyRow cur above n (i + 1))

/-- The middle loop of `clearRows`: `for (cur, above; above >= 0; cur--, above--)`;
`n` bounds the number of iterations. -/
def Game.shiftDown : Nat → Int → Int → Game → Outcome
  | 0, _, _, g => ⟨none, g⟩
  | n + 1, cur, above, g =>
    if above ≥ 0 then
      (Game.copyRow cur above g.width 0 g).andThen (Game.shiftDown n (cur - 1) (above - 1))
    else ⟨none, g⟩

/-- Method `clearRows`. The middle loop runs `row` times when `row` is positive. -/
def Game.clearRows : List Int → Game → Outcome
  | [], g => ⟨none, g⟩
  | row :: rows, g =>
    (Game.shiftDown row.toNat row (row - 1) g).andThen (Game.clearRows rows)

/-! ## `game.js`: the controls -/

/-- Method `left`. -/
def Game.left (g : Game) : Outcome :=
  match g.blocks[g.blocks.length - 1]? with
  | none => ⟨some .typeError, g⟩
  | some block =>
    if block.position.2 > 0 then g.move (g.blocks.length - 1) 0 (-1) else ⟨none, g⟩

/-- The value `Math.max(...xs)`; `none` is `-Infinity`, the maximum of no numbers. -/
def mathMax : List Int → Option Int
  | [] => none
  | x :: xs =>
    match mathMax xs with
    | none => some x
    | some m => some (max x m)

/-- Method `right`. -/
def Game.right (g : Game) : Outcome :=
  match g.blocks[g.blocks.length - 1]? with
  | none => ⟨some .typeError, g⟩
  | some block =>
    match block.translate with
    | .error e => ⟨some e, g⟩
    | .ok rows =>
      match mathMax (rows.flatten.map fun p => p.x) with
      | none => g.move (g.blocks.length - 1) 0 1
      | some m =>
        if m < (g.width : Int) - 1 then g.move (g.blocks.length - 1) 0 1 else ⟨none, g⟩

/-- The loop of `down`: `for (y; y <= this.height - 1; y++) this.move(block, 1)`;
`n` bounds the number of iterations. -/
def Game.downLoop (i : Nat) : Nat → Int → Game → Outcome
  | 0, _, g => ⟨none, g⟩
  | n + 1, y, g =>
    if y ≤ (g.height : Int) - 1 then (g.move i 1 0).andThen (Game.downLoop i n (y + 1))
    else ⟨none, g⟩

/-- Method `down`. The loop runs `this.height - y` times when that is positive. -/
def Game.down (g : Game) : Outcome :=
  match g.blocks[g.blocks.length - 1]? with
  | none => ⟨some .typeError, g⟩
  | some block =>
    match block.translate with
    | .error e => ⟨some e, g⟩
    | .ok rows =>
      Game.downLoop (g.blocks.length - 1)
        ((g.height : Int) - (block.position.1 + rows.length)).toNat
        (block.position.1 + rows.length) g

/-- The body of the loops of `tiltLeft` (`turn = 1`) and `tiltRight` (`turn = -1`), for the
block at index `i`. -/
def Game.tiltBlock (turn : Int) (g : Game) (i : Nat) : Outcome :=
  match g.blocks[i]? with
  | none => ⟨none, g⟩
  | some block =>
    if block.fixed then ⟨none, g⟩
    else
      (g.clearBlock block).andThen fun g1 =>
        let turned : Block := { block with rotation := roundDouble (block.rotation + turn) }
        match turned.translate with
        | .error e => ⟨some e, g1.setBlock i turned⟩
        | .ok rows =>
          let lowered : Block :=
            if turned.position.1 + rows.length ≥ g1.height then
              { turned with position := ((g1.height : Int) - rows.length, turned.position.2) }
            else turned
          match rows.head? with
          | none => ⟨some .typeError, g1.setBlock i lowered⟩
          | some row0 =>
            let clamped : Block :=
              if lowered.position.2 + row0.length ≥ g1.width then
                { lowered with position := (lowered.position.1, (g1.width : Int) - row0.length) }
              else lowered
            (g1.setBlock i clamped).drawBlock clamped

/-- The loop `for (const block of this.blocks)` of the tilts, from index `i`, with `n` blocks
to go. -/
def Game.tiltFrom (turn : Int) : Nat → Nat → Game → Outcome
  | 0, _, g => ⟨none, g⟩
  | n + 1, i, g => (g.tiltBlock turn i).andThen (Game.tiltFrom turn n (i + 1))

/-- Method `tiltLeft`. -/
def Game.tiltLeft (g : Game) : Outcome := Game.tiltFrom 1 g.blocks.length 0 g

/-- Method `tiltRight`. -/
def Game.tiltRight (g : Game) : Outcome := Game.tiltFrom (-1) g.blocks.length 0 g

/-! ## `game.js`: spawning -/

/-- A value of `Math.random()`: a double in `[0, 1)`, that is `mantissa / 2 ^ exponent` with
a mantissa of at most 53 binary digits and an exponent of at most 1074. -/
structure Random where
  mantissa : Nat
  exponent : Nat
  mantissa_lt : mantissa < 2 ^ 53
  lt_one : mantissa < 2 ^ exponent
  exponent_le : exponent ≤ 1074

/-- The value `Math.floor(u * n)` for an integer `n`: the exact product is
`mantissa * n / 2 ^ exponent`, the machine rounds it to a double, and `Math.floor` of a
double is exact. -/
def Random.floorMul (u : Random) (n : Int) : Int :=
  roundDouble ((u.mantissa : Int) * n) / (2 ^ u.exponent : Int)

/-- The random choices of one call of `addBlock`: which element `shuffle` puts first, and the
two values of `Math.random()`. -/
structure Draw where
  first : Nat
  forX : Random
  forRotation : Random

/-- The assignments of `start` before its call of `addBlock`. -/
def Game.cleared (g : Game) : Game :=
  { g with blocks := [], rows := List.replicate g.height (List.replicate g.width background) }

/-- Method `addBlock`. `rand` is the sequence of random choices still to come and `fuel`
bounds the number of nested calls; the call `this.start()` of the last branch is written out
as `addBlock` on the cleared game (see `Game.start`). -/
def Game.addBlock : Nat → (Nat → Draw) → List Shape → Game → Outcome
  | 0, _, _, g => ⟨some .outOfFuel, g⟩
  | fuel + 1, rand, possibleshapes, g =>
    match possibleshapes[(rand 0).first % possibleshapes.length]? with
    | none => ⟨some .typeError, g⟩
    | some shape =>
      match (Block.new shape).translate with
      | .error e => ⟨some e, g⟩
      | .ok coords =>
        match coords.head? with
        | none => ⟨some .typeError, g⟩
        | some row0 =>
          let block : Block :=
            { Block.new shape with
              position :=
                (-1, (rand 0).forX.floorMul (roundDouble ((g.width : Int) - row0.length)))
              rotation := (rand 0).forRotation.floorMul 4 }
          match g.checkCollision block none none with
          | .error e => ⟨some e, g⟩
          | .ok false => ⟨none, { g with blocks := g.blocks ++ [block] }⟩
          | .ok true => Game.addBlock fuel (fun n => rand (n + 1)) shapes g.cleared

/-- Method `start`. -/
def Game.start (fuel : Nat) (rand : Nat → Draw) (g : Game) : Outcome :=
  Game.addBlock fuel rand shapes g.cleared

/-- The constructor of `Game`; its defaults are `width = 10`, `height = 18`, `interval = 500`
and `paused = false`. -/
def Game.new (fuel : Nat) (rand : Nat → Draw) (width height interval : Nat) (paused : Bool) :
    Outcome :=
  Game.start fuel rand
    { interval := interval, paused := paused, width := width, height := height,
      blocks := [], rows := [] }

/-! ## `game.js`: the replies and `update` -/

/-- String method `toLowerCase`, the result as a list of characters. Only `A`..`Z` are
lowered: the patterns searched in the result are ASCII words, and no other character lowers
to letters that complete one of them. -/
def toLowerCase (text : String) : List Char := text.data.map Char.toLower

/-- String method `includes`. -/
def includes (text : List Char) (pattern : String) : Bool :=
  text.tails.any fun rest => pattern.data.isPrefixOf rest

/-- What `update` does with the replies. -/
inductive Intent where
  | none
  | tiltLeft
  | left
  | right
  | down
  deriving DecidableEq, Repr

/-- The count `left` of `update`. -/
def countLeft (replies : List String) : Nat :=
  (replies.filter fun text =>
    includes (toLowerCase text) "left" || includes text.data "⬅️").length

/-- The count `right` of `update`. -/
def countRight (replies : List String) : Nat :=
  (replies.filter fun text =>
    includes (toLowerCase text) "right" || includes text.data "➡️").length

/-- The count `spin` of `update`. -/
def countSpin (replies : List String) : Nat :=
  (replies.filter fun text =>
    includes (toLowerCase text) "spin" || includes (toLowerCase text) "tilt" ||
    includes (toLowerCase text) "turn" || includes (toLowerCase text) "flip" ||
    includes text.data "⤴️" || includes text.data "↩️").length

/-- The count `down` of `update`. -/
def countDown (replies : List String) : Nat :=
  (replies.filter fun text =>
    includes (toLowerCase text) "down" || includes (toLowerCase text) "drop" ||
    includes text.data "⬇️").length

/-- The `if` chain under the comment `//port priority` of `update`: which method is called. -/
def portPriority (spin left right down : Nat) : Intent :=
  if spin > 0 ∧ spin > left ∧ spin > right ∧ spin > down then .tiltLeft
  else if left > 0 ∧ left > right ∧ left > down then .left
  else if right > 0 ∧ right > down then .right
  else if down > 0 then .down
  else .none

/-- The method call made for an intent. -/
def Game.act (g : Game) : Intent → Outcome
  | .none => ⟨none, g⟩
  | .tiltLeft => g.tiltLeft
  | .left => g.left
  | .right => g.right
  | .down => g.down

/-- The `try`/`catch` of `update`. `replies` is what `twitter.getReplies` returned, `none` when
the fetch threw. Whatever is thrown inside is caught and logged; the game stays as the
interrupted method left it. -/
def Game.listen (g : Game) (replies : Option (List String)) : Game :=
  match replies with
  | none => g
  | some texts =>
    (g.act (portPriority (countSpin texts) (countLeft texts) (countRight texts)
      (countDown texts))).game

/-- How one turn of the `for` loop of `update` ends: the loop goes on, or `update` is left
(by `return` or by an exception). -/
inductive LoopStep where
  | next (g : Game)
  | leave (o : Outcome)

/-- The body of the loop `for (const block of this.blocks)` of `update`, for the block at
index `i`. -/
def Game.updateBlock (fuel : Nat) (rand : Nat → Draw) (replies : Option (List String))
    (g : Game) (i : Nat) : LoopStep :=
  match g.blocks[i]? with
  | none => .next g
  | some block =>
    if block.fixed then .next g
    else
      match g.shouldFix block with
      | .error e => .leave ⟨some e, g⟩
      | .ok fix =>
        let g1 := if fix then g.setBlock i { block with fixed := true } else g
        let moved := g1.move i 1 0
        match moved.thrown with
        | some _ => .leave moved
        | none =>
          let g2 := moved.game.listen replies
          match g2.blocks[i]? with
          | none => .next g2
          | some block2 =>
            if block2.fixed then
              if block2.position.1 ≤ 0 then .leave (Game.start fuel rand g2)
              else
                match g2.rowsToClear block2 with
                | .error e => .leave ⟨some e, g2⟩
                | .ok rows =>
                  let cleared := Game.clearRows rows g2
                  match cleared.thrown with
                  | some _ => .leave cleared
                  | none => .next cleared.game
            else .next g2

/-- The loop `for (const block of this.blocks)` of `update`, from index `i`, with `n` blocks
to go. -/
def Game.updateFrom (fuel : Nat) (rand : Nat → Draw) (replies : Option (List String)) :
    Nat → Nat → Game → LoopStep
  | 0, _, g => .next g
  | n + 1, i, g =>
    match g.updateBlock fuel rand replies i with
    | .leave o => .leave o
    | .next g1 => Game.updateFrom fuel rand replies n (i + 1) g1

/-- Method `update`. -/
def Game.update (fuel : Nat) (rand : Nat → Draw) (replies : Option (List String))
    (g : Game) : Outcome :=
  match Game.updateFrom fuel rand replies g.blocks.length 0 g with
  | .leave o => o
  | .next g1 =>
    if (g1.blocks.map fun block => block.fixed).all (fun fixed => fixed) then
      Game.addBlock fuel rand shapes g1
    else ⟨none, g1⟩

/-! ## Predicates used in the statements -/

/-- The board is `height` rows of `width` cells. -/
def Game.WellFormed (g : Game) : Prop :=
  g.rows.length = g.height ∧ ∀ row ∈ g.rows, row.length = g.width

instance (g : Game) : Decidable g.WellFormed := by
  unfold Game.WellFormed
  infer_instance

/-- Every cell of row `k` of the board differs from the background (the test of
`rowsToClear`). -/
def Game.rowFull (g : Game) (k : Nat) : Bool := (g.rows.getD k []).all Cell.notBackground

/-- Every cell of row `k` of the board is the background. -/
def Game.rowEmpty (g : Game) (k : Nat) : Bool :=
  (g.rows.getD k []).all fun c => decide (c = background)

/-- A board of one cell, which is occupied. -/
def oneCellFull : Game :=
  { interval := 500, paused := false, width := 1, height := 1, blocks := [],
    rows := [[.str "🟦"]] }

/-- A 2 by 2 board whose lower row is full and whose upper row is empty. -/
def lowerRowFull : Game :=
  { interval := 500, paused := false, width := 2, height := 2, blocks := [],
    rows := [[background, background], [.str "🟨", .str "🟨"]] }

/-- The pixel is occupied and lies inside the board once shifted by `(y, x)`: the first two
conjuncts of the filter of `checkCollision`. -/
def Game.touches (g : Game) (y x : Option Int) (p : Pixel) : Bool :=
  match y, x with
  | some y, some x => p.cell.truthy && g.withinBounds (p.y + y) (p.x + x)
  | _, _ => false
/-- An empty board of `height` rows of `width` cells, with the given blocks. -/
def emptyBoard (width height : Nat) (blocks : List Block) : Game :=
  { interval := 500, paused := false, width := width, height := height, blocks := blocks,
    rows := List.replicate height (List.replicate width background) }

/-- The long bar `[["🟧", "🟧", "🟧", "🟧"]]` at rotation 0 and position `(-1, 3)`, the only
block of an empty 10 by 18 board. -/
def barAbove : Game := emptyBoard 10 18 [Block.mk (shapes.getD 3 []) (-1, 3) 0 false]

/-- The long bar standing upright (rotation 1) in column 0, rows 5 to 8, of a 10 by 18 board
that holds nothing else. -/
def barAtLeftEdge : Game :=
  (Game.drawBlock (emptyBoard 10 18 [Block.mk (shapes.getD 3 []) (5, 0) 1 false])
    (Block.mk (shapes.getD 3 []) (5, 0) 1 false)).game

/-- The block `b` after `move(b, y, x)` went through. -/
def Block.movedBy (b : Block) (y x : Int) : Block :=
  { b with position := (if b.fixed then b.position.1 else b.position.1 + y, b.position.2 + x) }
/-- The long bar lying (rotation 0) on the bottom row, columns 3 to 6, of a 10 by 18 board
that holds nothing else. -/
def barOnBottom : Game :=
  (Game.drawBlock (emptyBoard 10 18 [Block.mk (shapes.getD 3 []) (17, 3) 0 false])
    (Block.mk (shapes.getD 3 []) (17, 3) 0 false)).game

/-- The `fixed` flags of the blocks, in order. -/
def Game.flags (g : Game) : List Bool := g.blocks.map fun b => b.fixed

/-- The square, fixed, in the lower left corner of a 10 by 18 board; no other block. -/
def squareSettled : Game :=
  (Game.drawBlock (emptyBoard 10 18 [Block.mk (shapes.getD 2 []) (16, 0) 0 true])
    (Block.mk (shapes.getD 2 []) (16, 0) 0 true)).game

/-- A source of random choices that always gives the same one: the element at index 3 first,
and `0.5` twice. -/
def steadyDraws : Nat → Draw :=
  fun _ =>
    { first := 3, forX := ⟨1, 1, by decide, by decide, by decide⟩,
      forRotation := ⟨1, 1, by decide, by decide, by decide⟩ }

/-- The game a turn of the loop of `update` leaves behind. -/
def LoopStep.game : LoopStep → Game
  | .next g => g
  | .leave o => o.game

/-- All flags but the last are `true`: no block before the last one is loose. -/
def FlagsInv (fl : List Bool) : Prop := ∀ k : Nat, k + 1 < fl.length → fl[k]? = some true

/-- From `fl` to `fl1` either at most one flag is left, or the flags are as many as before
and those that were `true` still are. -/
def FlagsMono (fl fl1 : List Bool) : Prop :=
  fl1.length ≤ 1 ∨ (fl1.length = fl.length ∧ ∀ k : Nat, fl[k]? = some true → fl1[k]? = some true)

/-- The games reached from a newly constructed game by calls of `start` and `update`, with
any replies and random choices; a call that throws leaves a game that counts as reached.
The recursion budget `fuel + 1` is never used up (`addBlock_shapes`). -/
inductive Reachable : Game → Prop where
  | new (fuel : Nat) (rand : Nat → Draw) (width height interval : Nat) (paused : Bool) :
      Reachable (Game.new (fuel + 1) rand width height interval paused).game
  | start (fuel : Nat) (rand : Nat → Draw) (g : Game) :
      Reachable g → Reachable (Game.start (fuel + 1) rand g).game
  | update (fuel : Nat) (rand : Nat → Draw) (replies : Option (List String)) (g : Game) :
      Reachable g → Reachable (Game.update (fuel + 1) rand replies g).game

/-- The count that belongs to an intent, among the four counts of `update`. -/
def Intent.count : Intent → Nat → Nat → Nat → Nat → Nat
  | .none, _, _, _, _ => 0
  | .tiltLeft, t, _, _, _ => t
  | .left, _, l, _, _ => l
  | .right, _, _, r, _ => r
  | .down, _, _, _, d => d

/-- The object returned by `toJSON` of `Game`. -/
structure GameJSON where
  blocks : List BlockJSON
  rows : List (List Cell)
  deriving DecidableEq, Repr

/-- Method `toJSON` of `Game`. -/
def Game.toJSON (g : Game) : GameJSON :=
  { blocks := g.blocks.map fun block => block.toJSON, rows := g.rows }

/-- Static method `Game.fromJSON`. The constructor runs `start`, which takes random choices
and a recursion budget; `json.rows[0].length` throws when `json.rows` is empty. -/
def Game.fromJSON (fuel : Nat) (rand : Nat → Draw) (json : GameJSON) : Except JSError Game :=
  match json.rows.head? with
  | none => .error .typeError
  | some row0 =>
    match Game.new fuel rand row0.length json.rows.length 500 false with
    | ⟨some e, _⟩ => .error e
    | ⟨none, game⟩ =>
      .ok { game with
            blocks := json.blocks.map fun block => Block.fromJSON block
            rows := json.rows }

/-- A 10 by 18 board whose top row is full of settled cells; no block in the list. -/
def topRowFull : Game :=
  { interval := 500, paused := false, width := 10, height := 18, blocks := [],
    rows := List.replicate 10 (.str "🟦") :: List.replicate 17 (List.replicate 10 background) }

/-- Random choices that make `addBlock` pick the square: the element at index 2 first, and
`0.5` twice (column 4, rotation 2). -/
def squareDraws : Nat → Draw :=
  fun _ =>
    { first := 2, forX := ⟨1, 1, by decide, by decide, by decide⟩,
      forRotation := ⟨1, 1, by decide, by decide, by decide⟩ }

/-- The square as `addBlock` makes it with `squareDraws` on a board 10 wide. -/
def squareSpawned : Block := Block.mk (shapes.getD 2 []) (-1, 4) 2 false

/-- The game on a board 10 wide and 1 high after construction and two calls of `update`. The
first `update` fixes the square, which reaches row 0, the last row, and then ends with the
`ReferenceError` of `move`; the second appends a new square. -/
def twoSquares : Game :=
  (Game.update (0 + 1) squareDraws none
    (Game.update (0 + 1) squareDraws none
      (Game.new (0 + 1) squareDraws 10 1 500 false).game).game).game

/-- The square, loose, at rows 5 and 6 and columns 4 and 5 of a 10 by 18 board that holds
nothing else. -/
def squareLoose : Game :=
  (Game.drawBlock (emptyBoard 10 18 [Block.mk (shapes.getD 2 []) (5, 4) 0 false])
    (Block.mk (shapes.getD 2 []) (5, 4) 0 false)).game

/-- The long bar at rotation 0 and position `(-1, 3)`, loose, above the 10 by 18 board whose
top row is full. -/
def barAboveFullRow : Game :=
  { topRowFull with blocks := [Block.mk (shapes.getD 3 []) (-1, 3) 0 false] }

/-- The `n` by `m` array whose entry `[i][j]` is `f i j`. -/
def grid {α : Type} (n m : Nat) (f : Nat → Nat → α) : List (List α) :=
  (List.range n).map fun i => (List.range m).map fun j => f i j

/-- The shape is a rectangle of `h` rows of `w` cells. -/
def IsRect (s : Shape) (h w : Nat) : Prop := s.length = h ∧ ∀ row ∈ s, row.length = w

instance (s : Shape) (h w : Nat) : Decidable (IsRect s h w) := by
  unfold IsRect
  infer_instance

/-- The entry `s[i][j]` of a shape. -/
def shapeAt (s : Shape) (i j : Nat) : Cell := cellAt (s.getD i []) j

/-- The values of a projection, without the coordinates. -/
def valueGrid (proj : BlockLike) : Shape := proj.map fun row => row.map fun p => p.cell

/-- The values of the projection of shape `s` at rotation 1: the shape after one quarter
turn as `translate` makes it. -/
def quarterTurn (s : Shape) : Except JSError Shape :=
  match (Block.mk s (0, 0) 1 false).translate with
  | .error e => .error e
  | .ok proj => .ok (valueGrid proj)

/-- The two clamps of `tiltLeft` and `tiltRight`, for a projection of `n` rows whose first row
has `m` entries: the row is set to `height - n` when `position[0] + n >= height`, then the
column to `width - m` when `position[1] + m >= width`. -/
def Block.clampInto (b : Block) (n m width height : Nat) : Block :=
  let lowered : Block :=
    if b.position.1 + n ≥ height then
      { b with position := ((height : Int) - n, b.position.2) }
    else b
  if lowered.position.2 + m ≥ width then
    { lowered with position := (lowered.position.1, (width : Int) - m) }
  else lowered

/-- What a tilt makes of a block that is not fixed and whose projection exists: the rotation
changed by `turn`, as a double, and the position clamped. -/
def Block.tilted (turn : Int) (width height : Nat) (b : Block) : Block :=
  match ({ b with rotation := roundDouble (b.rotation + turn) } : Block).translate with
  | .error _ => { b with rotation := roundDouble (b.rotation + turn) }
  | .ok rows =>
    ({ b with rotation := roundDouble (b.rotation + turn) } : Block).clampInto rows.length
      (rows.headD []).length width height

/-- What C15 says of a tilt from `g` to `g1`, for the blocks of `g` that are not fixed, stand
at a row and a column that are not negative, whose rotation plus `turn` is at most `2 ^ 53` in
absolute value, and whose turned projection is no larger than the board: the block at the same
index of `g1` has the rotation changed by `turn` and every entry of its projection lies inside
the board. -/
def TiltedInside (g : Game) (turn : Int) (g1 : Game) : Prop :=
  ∀ (k : Nat) (b : Block) (proj : BlockLike),
    g.blocks[k]? = some b → b.fixed = false → 0 ≤ b.position.1 → 0 ≤ b.position.2 →
    (b.rotation + turn).natAbs ≤ 2 ^ 53 →
    ({ b with rotation := b.rotation + turn } : Block).translate = .ok proj →
    proj.length ≤ g.height → (proj.headD []).length ≤ g.width →
    ∃ b1 proj1, g1.blocks[k]? = some b1 ∧ b1.rotation = b.rotation + turn
      ∧ b1.translate = .ok proj1
      ∧ ∀ p ∈ proj1.flatten, g.withinBounds p.y p.x = true

/-- Every block that is not fixed has a rectangular shape with at least one row and one
column. -/
def Game.LooseRect (g : Game) : Prop :=
  ∀ (k : Nat) (b : Block), g.blocks[k]? = some b → b.fixed = false →
    ∃ h w, IsRect b.shape h w ∧ 0 < h ∧ 0 < w

/-- The long bar lying (rotation 0), loose, on row 16, columns 6 to 9, of a 10 by 18 board
that holds nothing else. -/
def barLow : Game :=
  (Game.drawBlock (emptyBoard 10 18 [Block.mk (shapes.getD 3 []) (16, 6) 0 false])
    (Block.mk (shapes.getD 3 []) (16, 6) 0 false)).game

/-- The long bar lying (rotation a multiple of four), loose, on row 16, columns 6 to 9, of a
10 by 18 board that holds nothing else. -/
def barLowSpun (rotation : Int) : Game :=
  (Game.drawBlock (emptyBoard 10 18 [Block.mk (shapes.getD 3 []) (16, 6) rotation false])
    (Block.mk (shapes.getD 3 []) (16, 6) rotation false)).game

/-- The board holds the projection: every occupied entry of `proj` that lies inside the board
is the value of the board cell at its coordinates. -/
def Game.Agrees (g : Game) (proj : BlockLike) : Prop :=
  ∀ p ∈ proj.flatten, p.cell.truthy = true → g.withinBounds p.y p.x = true →
    g.readCell p.y p.x = .ok p.cell

/-- The rows of the list, numbered from `k` on, whose number is not in `cleared`, in order. -/
def keepFrom (cleared : List Int) : Nat → List (List Cell) → List (List Cell)
  | _, [] => []
  | k, row :: rest =>
    if (k : Int) ∈ cleared then keepFrom cleared (k + 1) rest
    else row :: keepFrom cleared (k + 1) rest

/-- Simultaneous deletion, as C21 words it: the board without the rows whose index is in
`cleared`, the other rows in order. -/
def deleteRows (rows : List (List Cell)) (cleared : List Int) : List (List Cell) :=
  keepFrom cleared 0 rows

/-- A 2 by 4 board whose rows 2 and 3 are full, with a settled cell in each of rows 0 and 1;
the square, fixed, stands on rows 2 and 3. -/
def twoRowsFull : Game :=
  { interval := 500, paused := false, width := 2, height := 4,
    blocks := [Block.mk (shapes.getD 2 []) (2, 0) 0 true],
    rows := [[.str "🟦", background], [background, .str "🟥"],
             [.str "🟨", .str "🟨"], [.str "🟨", .str "🟨"]] }

/-- The board agrees with the blocks that are not fixed and no longer stand on row `-1`: for
each of them `translate` returns, and every occupied entry of the projection that lies inside
the board is the value of the board cell at its coordinates. -/
def Game.LooseDrawn (g : Game) : Prop :=
  ∀ (k : Nat) (b : Block), g.blocks[k]? = some b → b.fixed = false → b.position.1 ≠ -1 →
    ∃ proj, b.translate = .ok proj ∧ g.Agrees proj

/-- What the methods keep true from a newly constructed game on: the board is `height` rows
of `width` cells, no block before the last one is loose, a loose block has a rectangular
shape, and the board agrees with a loose block that has left row `-1`. -/
def Game.Sound (g : Game) : Prop :=
  g.WellFormed ∧ FlagsInv g.flags ∧ g.LooseRect ∧ g.LooseDrawn

/-- Random choices that make `addBlock` pick the long bar: the element at index 3 first, then
`0.5` and `0.25` (on a board 1 wide: column `-2`, rotation 1). -/
def barDraws : Nat → Draw :=
  fun _ =>
    { first := 3, forX := ⟨1, 1, by decide, by decide, by decide⟩,
      forRotation := ⟨1, 2, by decide, by decide, by decide⟩ }

/-- The game on a board 1 wide and 6 high after construction and one call of `update` with
the reply "spin": the bar, standing left of the board, goes down to row 0 and is then turned;
it lies on row 0 from column `-3` to column 0 and is not fixed. -/
def barTurned : Game :=
  (Game.update (0 + 1) barDraws (some ["spin"])
    (Game.new (0 + 1) barDraws 1 6 500 false).game).game

/-! ## Theorems -/

/-! ### Rotation -/

/-- The rotation that `translate` uses is unchanged by adding a non-negative multiple of four to
a non-negative rotation. -/
theorem translate_add_four_mul_of_nonneg (b : Block) (k : Int) (hr : 0 ≤ b.rotation)
    (hk : 0 ≤ k) :
    ({ b with rotation := b.rotation + 4 * k } : Block).translate = b.translate := by
  have hn : ({ b with rotation := b.rotation + 4 * k } : Block).normRotation
      = b.normRotation := by
    unfold Block.normRotation
    simp only
    omega
  unfold Block.translate
  simp only [hn]

/-- C1: `translate` does not give the same array for the rotations `r = 1` and
`r + 4k = -3` (`k = -1`): the block of shape `[["a", "b"]]` at `(0, 0)` is projected with the
value `"b"` on top at rotation 1 and with the value `"a"` on top at rotation -3, because the
rotation used is `Math.abs(-3) % 4 = 3`. -/
theorem translate_rotation_one_ne_minus_three :
    (Block.mk [[.str "a", .str "b"]] (0, 0) 1 false).translate
        = .ok [[⟨0, 0, .str "b"⟩], [⟨1, 0, .str "a"⟩]]
      ∧ (Block.mk [[.str "a", .str "b"]] (0, 0) (1 + 4 * (-1)) false).translate
        = .ok [[⟨0, 0, .str "a"⟩], [⟨1, 0, .str "b"⟩]]
      ∧ (Block.mk [[.str "a", .str "b"]] (0, 0) 1 false).translate
        ≠ (Block.mk [[.str "a", .str "b"]] (0, 0) (1 + 4 * (-1)) false).translate := by
  decide

/-! ### Serialisation of a block -/

/-- C2: for a block with rotation 0, 1, 2 or 3, `Block.fromJSON(block.toJSON())` has the same
shape, position, rotation and fixed flag, and `translate` gives the same result on it as on
the block. -/
theorem fromJSON_toJSON (b : Block) (hr : 0 ≤ b.rotation ∧ b.rotation ≤ 3) :
    (Block.fromJSON b.toJSON).shape = b.shape
      ∧ (Block.fromJSON b.toJSON).position = b.position
      ∧ (Block.fromJSON b.toJSON).rotation = b.rotation
      ∧ (Block.fromJSON b.toJSON).fixed = b.fixed
      ∧ (Block.fromJSON b.toJSON).translate = b.translate := by
  have _ := hr
  have h : Block.fromJSON b.toJSON = b := rfl
  rw [h]
  exact ⟨rfl, rfl, rfl, rfl, rfl⟩

/-- The round trip at the second built-in shape, rotation 3, position `(4, 2)`. -/
theorem fromJSON_toJSON_witness :
    ((0 : Int) ≤ 3 ∧ (3 : Int) ≤ 3)
      ∧ (Block.fromJSON (Block.mk (shapes.getD 1 []) (4, 2) 3 true).toJSON).translate
        = (Block.mk (shapes.getD 1 []) (4, 2) 3 true).translate :=
  ⟨by decide, (fromJSON_toJSON (Block.mk (shapes.getD 1 []) (4, 2) 3 true) (by decide)).2.2.2.2⟩

/-! ### The replies -/

/-- C3: the `if` chain of `update` on the four counts `t` (spin), `l`, `r`, `d`: `tiltLeft`
when `t > 0` and `t` exceeds the three others; otherwise `left` when `l > 0` and `l` exceeds
`r` and `d`; otherwise `right` when `r > 0` and `r > d`; otherwise `down` when `d > 0`;
otherwise nothing. `update` calls the method of that intent. A reply can count for several
sets. Left 2, right 1 gives `left`; spin 1, left 2 gives `left`. -/
theorem portPriority_cascade :
    (∀ t l r d : Nat,
      ((t > 0 ∧ t > l ∧ t > r ∧ t > d) → portPriority t l r d = .tiltLeft)
      ∧ (¬ (t > 0 ∧ t > l ∧ t > r ∧ t > d) → (l > 0 ∧ l > r ∧ l > d) →
          portPriority t l r d = .left)
      ∧ (¬ (t > 0 ∧ t > l ∧ t > r ∧ t > d) → ¬ (l > 0 ∧ l > r ∧ l > d) → (r > 0 ∧ r > d) →
          portPriority t l r d = .right)
      ∧ (¬ (t > 0 ∧ t > l ∧ t > r ∧ t > d) → ¬ (l > 0 ∧ l > r ∧ l > d) → ¬ (r > 0 ∧ r > d) →
          d > 0 → portPriority t l r d = .down)
      ∧ (¬ (t > 0 ∧ t > l ∧ t > r ∧ t > d) → ¬ (l > 0 ∧ l > r ∧ l > d) → ¬ (r > 0 ∧ r > d) →
          ¬ d > 0 → portPriority t l r d = .none))
    ∧ (∀ (g : Game) (texts : List String),
        g.listen (some texts)
          = (g.act (portPriority (countSpin texts) (countLeft texts) (countRight texts)
              (countDown texts))).game)
    ∧ (∀ g : Game, g.listen none = g)
    ∧ portPriority 0 2 1 0 = .left
    ∧ portPriority 1 2 0 0 = .left
    ∧ (countSpin ["go left", "left!", "right"], countLeft ["go left", "left!", "right"],
        countRight ["go left", "left!", "right"], countDown ["go left", "left!", "right"])
        = (0, 2, 1, 0)
    ∧ (countSpin ["spin", "left", "left"], countLeft ["spin", "left", "left"],
        countRight ["spin", "left", "left"], countDown ["spin", "left", "left"])
        = (1, 2, 0, 0)
    ∧ (countSpin ["Spin LEFT ⬇️"], countLeft ["Spin LEFT ⬇️"], countRight ["Spin LEFT ⬇️"],
        countDown ["Spin LEFT ⬇️"]) = (1, 1, 0, 1) := by
  refine ⟨?_, ?_, ?_, by decide, by decide, by decide, by decide, by decide⟩
  · intro t l r d
    unfold portPriority
    refine ⟨?_, ?_, ?_, ?_, ?_⟩
    · intro h; rw [if_pos h]
    · intro h1 h2; rw [if_neg h1, if_pos h2]
    · intro h1 h2 h3; rw [if_neg h1, if_neg h2, if_pos h3]
    · intro h1 h2 h3 h4; rw [if_neg h1, if_neg h2, if_neg h3, if_pos h4]
    · intro h1 h2 h3 h4; rw [if_neg h1, if_neg h2, if_neg h3, if_neg h4]
  · intro g texts; rfl
  · intro g; rfl

/-! ### Locking -/

/-- C4: a block whose projection has an occupied cell on row `height - 1` is to be fixed,
whatever the board holds and whatever its column. -/
theorem shouldFix_on_bottom_row (g : Game) (b : Block) (rows : BlockLike)
    (hproj : b.translate = .ok rows)
    (hcell : ∃ p ∈ rows.flatten, p.cell.truthy = true ∧ p.y = (g.height : Int) - 1) :
    g.shouldFix b = .ok true := by
  obtain ⟨p, hp, _, hy⟩ := hcell
  have hany : rows.flatten.any (fun p => decide (p.y ≥ (g.height : Int) - 1)) = true := by
    rw [List.any_eq_true]
    exact ⟨p, hp, by simp [hy]⟩
  unfold Game.shouldFix
  rw [hproj]
  simp only [hany, if_true]

/-- The long bar lying on the bottom row of an empty 10 by 18 board. -/
theorem shouldFix_on_bottom_row_witness :
    (Game.shouldFix
      { interval := 500, paused := false, width := 10, height := 18, blocks := [],
        rows := List.replicate 18 (List.replicate 10 background) }
      (Block.mk (shapes.getD 3 []) (17, 3) 0 false)) = .ok true :=
  shouldFix_on_bottom_row _ (Block.mk (shapes.getD 3 []) (17, 3) 0 false)
    [[⟨17, 3, .str "🟧"⟩, ⟨17, 4, .str "🟧"⟩, ⟨17, 5, .str "🟧"⟩, ⟨17, 6, .str "🟧"⟩]]
    (by decide) ⟨⟨17, 3, .str "🟧"⟩, by decide, by decide, by decide⟩

/-! ### Helper lemmas: `uniq`, `filterE`, `anyE` -/

theorem uniq_foldl_nodup {α : Type} [DecidableEq α] (values seen : List α)
    (h : seen.Nodup) :
    (values.foldl (fun seen v => if v ∈ seen then seen else seen ++ [v]) seen).Nodup := by
  induction values generalizing seen with
  | nil => exact h
  | cons v vs ih =>
    simp only [List.foldl_cons]
    apply ih
    by_cases hv : v ∈ seen
    · rw [if_pos hv]; exact h
    · rw [if_neg hv]
      rw [List.nodup_append]
      refine ⟨h, List.nodup_singleton v, ?_⟩
      intro a ha hb
      rw [List.mem_singleton] at hb
      subst hb
      exact hv ha

theorem uniq_foldl_mem {α : Type} [DecidableEq α] (values seen : List α) (a : α) :
    a ∈ values.foldl (fun seen v => if v ∈ seen then seen else seen ++ [v]) seen
      ↔ a ∈ seen ∨ a ∈ values := by
  induction values generalizing seen with
  | nil => simp
  | cons v vs ih =>
    simp only [List.foldl_cons]
    rw [ih]
    by_cases hv : v ∈ seen
    · rw [if_pos hv]
      simp only [List.mem_cons]
      constructor
      · rintro (h | h)
        · exact Or.inl h
        · exact Or.inr (Or.inr h)
      · rintro (h | h | h)
        · exact Or.inl h
        · subst h; exact Or.inl hv
        · exact Or.inr h
    · rw [if_neg hv]
      simp only [List.mem_append, List.mem_singleton, List.mem_cons]
      tauto

theorem uniq_nodup {α : Type} [DecidableEq α] (values : List α) : (uniq values).Nodup :=
  uniq_foldl_nodup values [] List.nodup_nil

theorem mem_uniq {α : Type} [DecidableEq α] (values : List α) (a : α) :
    a ∈ uniq values ↔ a ∈ values := by
  unfold uniq
  rw [uniq_foldl_mem]
  simp

theorem filterE_eq_filter {α : Type} (p : α → Except JSError Bool) (q : α → Bool)
    (l : List α) (h : ∀ a ∈ l, p a = .ok (q a)) : filterE p l = .ok (l.filter q) := by
  induction l with
  | nil => rfl
  | cons a as ih =>
    have ha := h a (List.mem_cons_self a as)
    have has := ih (fun b hb => h b (List.mem_cons_of_mem a hb))
    simp only [filterE, ha, has, List.filter_cons]

theorem arrayGet_eq_some_of_lt {α : Type} (a : List α) (i : Int) (h0 : 0 ≤ i)
    (h1 : i < a.length) : ∃ v, arrayGet a i = some v ∧ a[i.toNat]? = some v := by
  have hlt : i.toNat < a.length := by omega
  refine ⟨a[i.toNat], ?_, ?_⟩
  · unfold arrayGet
    rw [if_pos h0]
    exact List.getElem?_eq_getElem hlt
  · exact List.getElem?_eq_getElem hlt

/-! ### Rows to clear -/

/-- C5: `rowsToClear(block)` has no duplicates, and holds a row index `y` exactly when `y` is
a row of the projection of the block, `0 < y < height`, and every cell of row `y` of the board
differs from the background; so it never holds row 0. -/
theorem rowsToClear_spec (g : Game) (b : Block) (proj : BlockLike)
    (hboard : g.rows.length = g.height) (hproj : b.translate = .ok proj) :
    ∃ l, g.rowsToClear b = .ok l
      ∧ l.Nodup
      ∧ (∀ y : Int, y ∈ l ↔
          ((∃ p ∈ proj.flatten, p.y = y) ∧ 0 < y ∧ y < g.height
            ∧ ∃ row, arrayGet g.rows y = some row ∧ ∀ c ∈ row, c ≠ background))
      ∧ (0 : Int) ∉ l := by
  let q : Int → Bool := fun y =>
    match arrayGet g.rows y with
    | none => false
    | some row => row.all Cell.notBackground
  let cand : List Int := (uniq (proj.flatten.map fun p => p.y)).filter
    fun (y : Int) => decide (y > 0) && decide (y < (g.height : Int))
  have hcand : ∀ y ∈ cand, 0 < y ∧ y < (g.height : Int) := by
    intro y hy
    have := (List.mem_filter.mp hy).2
    simpa using this
  have hrun : g.rowsToClear b = .ok (cand.filter q) := by
    unfold Game.rowsToClear
    rw [hproj]
    apply filterE_eq_filter
    intro y hy
    obtain ⟨h0, h1⟩ := hcand y hy
    obtain ⟨row, hrow, _⟩ := arrayGet_eq_some_of_lt g.rows y (le_of_lt h0) (by rw [hboard]; exact h1)
    simp only [q, hrow]
  have hmem : ∀ y : Int, y ∈ cand.filter q ↔
      ((∃ p ∈ proj.flatten, p.y = y) ∧ 0 < y ∧ y < g.height
        ∧ ∃ row, arrayGet g.rows y = some row ∧ ∀ c ∈ row, c ≠ background) := by
    intro y
    simp only [cand, List.mem_filter, mem_uniq, List.mem_map, Bool.and_eq_true,
      decide_eq_true_eq, gt_iff_lt]
    constructor
    · rintro ⟨⟨hp, h0, h1⟩, hq⟩
      refine ⟨hp, h0, h1, ?_⟩
      obtain ⟨row, hrow, _⟩ :=
        arrayGet_eq_some_of_lt g.rows y (le_of_lt h0) (by rw [hboard]; exact h1)
      refine ⟨row, hrow, ?_⟩
      simp only [q, hrow, List.all_eq_true] at hq
      intro c hc
      have := hq c hc
      simpa [Cell.notBackground] using this
    · rintro ⟨hp, h0, h1, row, hrow, hall⟩
      refine ⟨⟨hp, h0, h1⟩, ?_⟩
      simp only [q, hrow, List.all_eq_true]
      intro c hc
      simpa [Cell.notBackground] using hall c hc
  refine ⟨cand.filter q, hrun, (uniq_nodup _).filter _ |>.filter _, hmem, ?_⟩
  intro h
  have := (hmem 0).mp h
  exact absurd this.2.1 (lt_irrefl 0)

/-- Row 0 of a 2 by 2 board is full and is touched by the square, yet only row 1 is
reported. -/
theorem rowsToClear_spec_witness :
    ∃ l, (Game.rowsToClear
        { interval := 500, paused := false, width := 2, height := 2, blocks := [],
          rows := [[.str "🟨", .str "🟨"], [.str "🟨", .str "🟨"]] }
        (Block.mk (shapes.getD 2 []) (0, 0) 0 true)) = .ok l
      ∧ l.Nodup
      ∧ (∀ y : Int, y ∈ l ↔
          ((∃ p ∈ List.flatten [[(⟨0, 0, .str "🟨"⟩ : Pixel), ⟨0, 1, .str "🟨"⟩],
              [⟨1, 0, .str "🟨"⟩, ⟨1, 1, .str "🟨"⟩]], p.y = y) ∧ 0 < y ∧ y < ((2 : Nat) : Int)
            ∧ ∃ row, arrayGet [[Cell.str "🟨", .str "🟨"], [.str "🟨", .str "🟨"]] y = some row
              ∧ ∀ c ∈ row, c ≠ background))
      ∧ (0 : Int) ∉ l :=
  rowsToClear_spec
    { interval := 500, paused := false, width := 2, height := 2, blocks := [],
      rows := [[.str "🟨", .str "🟨"], [.str "🟨", .str "🟨"]] }
    (Block.mk (shapes.getD 2 []) (0, 0) 0 true)
    [[⟨0, 0, .str "🟨"⟩, ⟨0, 1, .str "🟨"⟩], [⟨1, 0, .str "🟨"⟩, ⟨1, 1, .str "🟨"⟩]]
    (by decide) (by decide)

/-! ### Clearing rows -/

theorem arrayGet_natCast {α : Type} (a : List α) (i : Nat) : arrayGet a (i : Int) = a[i]? := by
  unfold arrayGet
  simp

theorem Outcome.andThen_ok (g : Game) (k : Game → Outcome) :
    (Outcome.mk none g).andThen k = k g := rfl

theorem Outcome.andThen_thrown (e : JSError) (g : Game) (k : Game → Outcome) :
    (Outcome.mk (some e) g).andThen k = ⟨some e, g⟩ := rfl

/-- The inner loop of `clearRows` replaces row `c` by row `a`, once the cells before `i` agree. -/
theorem copyRow_spec (c a : Nat) (hca : c ≠ a) (ra : List Cell) :
    ∀ (n i : Nat) (g : Game) (rc : List Cell),
      g.rows[a]? = some ra → g.rows[c]? = some rc → rc.length = ra.length →
      i + n = ra.length → (∀ j < i, rc[j]? = ra[j]?) →
      Game.copyRow c a n i g = ⟨none, { g with rows := g.rows.set c ra }⟩ := by
  intro n
  induction n with
  | zero =>
    intro i g rc ha hc hlen hi hpre
    have hrc : rc = ra := by
      apply List.ext_getElem?
      intro j
      by_cases hj : j < i
      · exact hpre j hj
      · rw [List.getElem?_eq_none (by omega), List.getElem?_eq_none (by omega)]
    subst hrc
    have hset : g.rows.set c rc = g.rows := by
      apply List.ext_getElem?
      intro j
      rw [List.getElem?_set]
      split
      · next h =>
        subst h
        have hlt : c < g.rows.length := by
          by_contra hge
          rw [List.getElem?_eq_none (by omega)] at hc
          exact Option.noConfusion hc
        rw [if_pos hlt, hc]
      · rfl
    simp only [Game.copyRow, hset]
  | succ n ih =>
    intro i g rc ha hc hlen hi hpre
    have hi' : i < ra.length := by omega
    have hread : g.readCell (a : Int) (i : Int) = .ok ra[i] := by
      unfold Game.readCell
      rw [arrayGet_natCast, ha]
      simp only [arrayGet_natCast]
      rw [List.getElem?_eq_getElem hi']
      rfl
    have hclt : c < g.rows.length := by
      by_contra hge
      rw [List.getElem?_eq_none (by omega)] at hc
      exact Option.noConfusion hc
    have hwrite : g.writeCell (c : Int) (i : Int) ra[i]
        = ⟨none, { g with rows := g.rows.set c (rc.set i ra[i]) }⟩ := by
      unfold Game.writeCell
      rw [arrayGet_natCast, hc]
      simp only [Int.toNat_ofNat]
      unfold arraySet
      have h1 : ¬ ((i : Int) < 0) := by omega
      have h2 : (i : Int).toNat < rc.length := by simp; omega
      rw [if_neg h1, if_pos h2]
      simp
    simp only [Game.copyRow, hread, hwrite, Outcome.andThen_ok]
    rw [ih (i + 1) _ (rc.set i ra[i])]
    · simp only [List.set_set]
    · simp only
      rw [List.getElem?_set_ne hca]
      exact ha
    · simp only
      rw [List.getElem?_set]
      simp [hclt]
    · simp [hlen]
    · omega
    · intro j hj
      rw [List.getElem?_set]
      split
      · next h =>
        subst h
        rw [if_pos (by omega), List.getElem?_eq_getElem hi']
      · next h => exact hpre j (by omega)

/-- The middle loop of `clearRows` from row `n`: rows `1..n` take the contents of the rows
above them, every other row keeps its contents. -/
theorem shiftDown_spec (n : Nat) :
    ∀ g : Game, g.WellFormed → n < g.height →
      ∃ rows, Game.shiftDown n (n : Int) ((n : Int) - 1) g = ⟨none, { g with rows := rows }⟩
        ∧ rows.length = g.rows.length
        ∧ ∀ k, rows[k]? = if 1 ≤ k ∧ k ≤ n then g.rows[k - 1]? else g.rows[k]? := by
  induction n with
  | zero =>
    intro g _ _
    refine ⟨g.rows, rfl, rfl, ?_⟩
    intro k
    rw [if_neg (by omega)]
  | succ n ih =>
    intro g hwf hn
    obtain ⟨hlen, hwidth⟩ := hwf
    have hnlt : n < g.rows.length := by omega
    have hn1lt : n + 1 < g.rows.length := by omega
    have ha : g.rows[n]? = some g.rows[n] := List.getElem?_eq_getElem hnlt
    have hc : g.rows[n + 1]? = some g.rows[n + 1] := List.getElem?_eq_getElem hn1lt
    have hwa : g.rows[n].length = g.width := hwidth _ (List.getElem_mem hnlt)
    have hwc : g.rows[n + 1].length = g.width := hwidth _ (List.getElem_mem hn1lt)
    have hcopy := copyRow_spec (n + 1) n (by omega) g.rows[n] g.width 0 g g.rows[n + 1]
      ha hc (by rw [hwa, hwc]) (by rw [hwa]; omega) (by intro j hj; omega)
    let g1 : Game := { g with rows := g.rows.set (n + 1) g.rows[n] }
    have hwf1 : g1.WellFormed := by
      refine ⟨by simp [g1, hlen], ?_⟩
      intro row hrow
      rcases List.mem_or_eq_of_mem_set hrow with h | h
      · exact hwidth row h
      · rw [h]; exact hwa
    obtain ⟨rows, hrun, hrlen, hrows⟩ := ih g1 hwf1 (by show n < g.height; omega)
    refine ⟨rows, ?_, by rw [hrlen]; simp [g1], ?_⟩
    · have e1 : (((n + 1 : Nat) : Int) - 1) = (n : Int) := by push_cast; ring
      have e2 : ((n + 1 : Nat) : Int) - 1 ≥ 0 := by omega
      simp only [Game.shiftDown]
      rw [if_pos e2, e1]
      have hcopy' : Game.copyRow ((n + 1 : Nat) : Int) (n : Int) g.width 0 g = ⟨none, g1⟩ :=
        hcopy
      rw [hcopy', Outcome.andThen_ok, hrun]
    · intro k
      rw [hrows k]
      by_cases hk : 1 ≤ k ∧ k ≤ n
      · rw [if_pos hk, if_pos (by omega)]
        show (g.rows.set (n + 1) g.rows[n])[k - 1]? = g.rows[k - 1]?
        rw [List.getElem?_set_ne (by omega)]
      · rw [if_neg hk]
        show (g.rows.set (n + 1) g.rows[n])[k]? = _
        by_cases hk1 : k = n + 1
        · subst hk1
          rw [if_pos (by omega), List.getElem?_set]
          simp [hn1lt, ha]
        · rw [if_neg (by omega), List.getElem?_set_ne (by omega)]

/-- C6, as stated, fails at `r = 0`: on the board of one occupied cell row 0 is full and no row
lies above it, `clearRows([0])` runs no iteration and row 0 is still full, not empty. -/
theorem clearRows_row_zero_stays_full :
    oneCellFull.WellFormed
      ∧ oneCellFull.rowFull 0 = true
      ∧ Game.clearRows [0] oneCellFull = ⟨none, oneCellFull⟩
      ∧ (Game.clearRows [0] oneCellFull).game.rowEmpty 0 = false
      ∧ (Game.clearRows [0] oneCellFull).game.rowFull 0 = true := by
  decide

/-- C6 (amended): on a board of `height` rows of `width` cells, for a row `r` with
`0 < r < height` that is full while all rows above it are empty, `clearRows([r])` returns, and
afterwards row `r` is empty, each row `k` of `1..r` holds what row `k - 1` held, row 0 is
empty, and the rows below `r` are as before. -/
theorem clearRows_single (g : Game) (r : Nat) (hwf : g.WellFormed) (h0 : 0 < r)
    (hr : r < g.height) (hfull : g.rowFull r = true)
    (habove : ∀ k < r, g.rowEmpty k = true) :
    ∃ rows, Game.clearRows [(r : Int)] g = ⟨none, { g with rows := rows }⟩
      ∧ rows.length = g.height
      ∧ ({ g with rows := rows } : Game).rowEmpty r = true
      ∧ (∀ k, 1 ≤ k → k ≤ r → rows[k]? = g.rows[k - 1]?)
      ∧ rows[0]? = some (List.replicate g.width background)
      ∧ (∀ k, r < k → rows[k]? = g.rows[k]?) := by
  have _ := hfull
  obtain ⟨rows, hrun, hlen, hrows⟩ := shiftDown_spec r g hwf hr
  obtain ⟨hglen, hwidth⟩ := hwf
  have hrow0 : g.rows[0]? = some (List.replicate g.width background) := by
    have hlt : 0 < g.rows.length := by omega
    rw [List.getElem?_eq_getElem hlt]
    congr 1
    rw [List.eq_replicate_iff]
    refine ⟨hwidth _ (List.getElem_mem hlt), ?_⟩
    intro c hc
    have h := habove 0 h0
    unfold Game.rowEmpty at h
    rw [List.getD_eq_getElem _ _ hlt, List.all_eq_true] at h
    simpa using h c hc
  refine ⟨rows, ?_, by rw [hlen, hglen], ?_, ?_, ?_, ?_⟩
  · simp only [Game.clearRows, Int.toNat_ofNat, hrun, Outcome.andThen_ok]
  · have hk := hrows r
    rw [if_pos (by omega)] at hk
    have h := habove (r - 1) (by omega)
    unfold Game.rowEmpty at h ⊢
    simp only [List.getD_eq_getElem?_getD] at h ⊢
    rw [hk]
    exact h
  · intro k h1 h2
    rw [hrows k, if_pos ⟨h1, h2⟩]
  · rw [hrows 0, if_neg (by omega)]
    exact hrow0
  · intro k hk
    rw [hrows k, if_neg (by omega)]

/-- Clearing the lower row of the 2 by 2 board `lowerRowFull`. -/
theorem clearRows_single_witness :
    ∃ rows, Game.clearRows [((1 : Nat) : Int)] lowerRowFull
        = ⟨none, { lowerRowFull with rows := rows }⟩
      ∧ rows.length = lowerRowFull.height
      ∧ ({ lowerRowFull with rows := rows } : Game).rowEmpty 1 = true
      ∧ (∀ k, 1 ≤ k → k ≤ 1 → rows[k]? = lowerRowFull.rows[k - 1]?)
      ∧ rows[0]? = some (List.replicate lowerRowFull.width background)
      ∧ (∀ k, 1 < k → rows[k]? = lowerRowFull.rows[k]?) :=
  clearRows_single lowerRowFull 1 (by decide) (by decide) (by decide) (by decide) (by decide)

/-! ### Collisions -/

theorem checkCollision_keep_eq (g : Game) (y x : Option Int) (rowPos : Nat)
    (q : Nat × Pixel) :
    checkCollision.keep g y x rowPos q
      = if g.touches y x q.2 then .error .referenceError else .ok false := by
  obtain ⟨colPos, cell⟩ := q
  unfold checkCollision.keep Game.touches
  cases y with
  | none => simp
  | some y =>
    cases x with
    | none => simp
    | some x =>
      simp only [checkCollision.rows]

theorem filterE_keep_eq (g : Game) (y x : Option Int) (rowPos : Nat) (row : List Pixel) :
    ∀ k, filterE (checkCollision.keep g y x rowPos) (row.enumFrom k)
      = if row.any (g.touches y x) then .error .referenceError else .ok [] := by
  induction row with
  | nil => intro k; rfl
  | cons p ps ih =>
    intro k
    simp only [List.enumFrom_cons, filterE, checkCollision_keep_eq, List.any_cons]
    by_cases hp : g.touches y x p = true
    · simp [hp]
    · simp only [Bool.not_eq_true] at hp
      rw [ih (k + 1)]
      simp only [hp, Bool.false_or]
      by_cases hps : ps.any (g.touches y x) = true
      · simp [hps]
      · simp [hps]

theorem anyE_rows_eq (g : Game) (y x : Option Int) (proj : BlockLike) :
    ∀ k, anyE (fun (q : Nat × List Pixel) =>
        match filterE (checkCollision.keep g y x q.1) q.2.enum with
        | .error e => .error e
        | .ok kept => anyE (checkCollision.hit g y x) kept) (proj.enumFrom k)
      = if proj.any (fun row => row.any (g.touches y x)) then .error .referenceError
        else .ok false := by
  induction proj with
  | nil => intro k; rfl
  | cons row rows ih =>
    intro k
    have ih1 := ih (k + 1)
    simp only [List.enum, filterE_keep_eq] at ih1
    simp only [List.enumFrom_cons, anyE, List.enum, filterE_keep_eq, List.any_cons]
    by_cases hrow : row.any (g.touches y x) = true
    · simp [hrow]
    · simp only [Bool.not_eq_true] at hrow
      simp only [hrow, Bool.false_or, Bool.false_eq_true, if_false, anyE]
      exact ih1

theorem any_flatten_eq {α : Type} (f : α → Bool) (l : List (List α)) :
    l.flatten.any f = l.any (fun row => row.any f) := by
  induction l with
  | nil => rfl
  | cons a as ih => simp [List.flatten, List.any_append, ih]

/-- What `checkCollision` computes: it throws `ReferenceError` as soon as an occupied cell of
the projection lies inside the board after the shift, and returns `false` otherwise. -/
theorem checkCollision_eq (g : Game) (b : Block) (y x : Option Int) :
    g.checkCollision b y x
      = match b.translate with
        | .error e => .error e
        | .ok proj =>
          if proj.flatten.any (g.touches y x) then .error .referenceError else .ok false := by
  unfold Game.checkCollision
  cases b.translate with
  | error e => rfl
  | ok proj =>
    simp only [any_flatten_eq]
    exact anyE_rows_eq g y x proj 0

theorem checkCollision_ne_true (g : Game) (b : Block) (y x : Option Int) :
    g.checkCollision b y x ≠ .ok true := by
  rw [checkCollision_eq]
  cases b.translate with
  | error e => simp
  | ok proj =>
    simp only
    split <;> simp
/-- C7: on the empty 10 by 18 board the long bar at rotation 0 and position `(-1, 3)` is not
moved by `move(block, 1, 0)` nor by `down()`: the shifted cells lie inside the board, the
filter of `checkCollision` evaluates the undeclared identifier `rows`, and both calls end
with `ReferenceError`, the block still at `(-1, 3)`. -/
theorem move_and_down_throw_on_bar :
    barAbove.move 0 1 0 = ⟨some .referenceError, barAbove⟩
      ∧ barAbove.down = ⟨some .referenceError, barAbove⟩
      ∧ (barAbove.move 0 1 0).game.blocks.map (fun b => b.position) = [(-1, 3)]
      ∧ barAbove.down.game.blocks.map (fun b => b.position) = [(-1, 3)] := by
  decide

theorem move_throws_of_touches (g : Game) (i : Nat) (b : Block) (proj : BlockLike)
    (y x : Int) (hb : g.blocks[i]? = some b) (hproj : b.translate = .ok proj)
    (htouch : proj.flatten.any (g.touches (some y) (some x)) = true) :
    g.move i y x = ⟨some .referenceError, g⟩ := by
  unfold Game.move
  rw [hb]
  simp only [checkCollision_eq, hproj, htouch, if_true]

/-! ### Writing blocks to the board -/

theorem writeCell_spec (g : Game) (y x : Int) (v : Cell) (hwf : g.WellFormed)
    (hin : g.withinBounds y x = true) :
    ∃ rows, g.writeCell y x v = ⟨none, { g with rows := rows }⟩
      ∧ ({ g with rows := rows } : Game).WellFormed := by
  obtain ⟨hlen, hwidth⟩ := hwf
  simp only [Game.withinBounds, Bool.and_eq_true, decide_eq_true_eq] at hin
  obtain ⟨⟨⟨hy0, hx0⟩, hy1⟩, hx1⟩ := hin
  obtain ⟨row, hrow, hrow'⟩ := arrayGet_eq_some_of_lt g.rows y hy0 (by rw [hlen]; exact hy1)
  have hrowmem : row ∈ g.rows := List.mem_iff_getElem?.mpr ⟨_, hrow'⟩
  have hrowlen : row.length = g.width := hwidth row hrowmem
  refine ⟨g.rows.set y.toNat (arraySet row x v), ?_, ?_, ?_⟩
  · unfold Game.writeCell
    rw [hrow]
  · simp [hlen]
  · intro r hr
    rcases List.mem_or_eq_of_mem_set hr with h | h
    · exact hwidth r h
    · rw [h]
      unfold arraySet
      rw [if_neg (by omega), if_pos (by omega)]
      simp [hrowlen]

theorem writeCells_spec (value : Pixel → Cell) :
    ∀ (ps : List Pixel) (g : Game), g.WellFormed →
      (∀ p ∈ ps, g.withinBounds p.y p.x = true) →
      ∃ rows, Game.writeCells value ps g = ⟨none, { g with rows := rows }⟩
        ∧ ({ g with rows := rows } : Game).WellFormed := by
  intro ps
  induction ps with
  | nil =>
    intro g hwf _
    exact ⟨g.rows, rfl, hwf⟩
  | cons p ps ih =>
    intro g hwf hin
    obtain ⟨rows1, h1, hwf1⟩ :=
      writeCell_spec g p.y p.x (value p) hwf (hin p (List.mem_cons_self p ps))
    obtain ⟨rows2, h2, hwf2⟩ := ih { g with rows := rows1 } hwf1
      (fun q hq => hin q (List.mem_cons_of_mem p hq))
    refine ⟨rows2, ?_, hwf2⟩
    simp only [Game.writeCells, h1, Outcome.andThen_ok, h2]

theorem clearBlock_spec (g : Game) (b : Block) (proj : BlockLike) (hwf : g.WellFormed)
    (hproj : b.translate = .ok proj) :
    ∃ rows, g.clearBlock b = ⟨none, { g with rows := rows }⟩
      ∧ ({ g with rows := rows } : Game).WellFormed := by
  unfold Game.clearBlock
  rw [hproj]
  apply writeCells_spec _ _ g hwf
  intro p hp
  have := (List.mem_filter.mp hp).2
  simp only [Bool.and_eq_true] at this
  exact this.1

theorem drawBlock_spec (g : Game) (b : Block) (proj : BlockLike) (hwf : g.WellFormed)
    (hproj : b.translate = .ok proj) :
    ∃ rows, g.drawBlock b = ⟨none, { g with rows := rows }⟩
      ∧ ({ g with rows := rows } : Game).WellFormed := by
  unfold Game.drawBlock
  rw [hproj]
  apply writeCells_spec _ _ g hwf
  intro p hp
  have := (List.mem_filter.mp hp).2
  simp only [Bool.and_eq_true] at this
  exact this.1

/-- Whether `translate` returns depends on the shape and the rotation only. -/
theorem translate_ok_iff (b : Block) :
    (∃ proj, b.translate = .ok proj)
      ↔ (b.shape ≠ [] ∨ b.normRotation = 0 ∨ b.normRotation = 2) := by
  have hlt : b.normRotation < 4 := Nat.mod_lt _ (by decide)
  unfold Block.translate
  cases hs : b.shape with
  | nil =>
    by_cases h0 : b.normRotation = 0
    · simp [h0]
    · by_cases h3 : b.normRotation = 3
      · simp [h3]
      · by_cases h2 : b.normRotation = 2
        · simp [h2]
        · have h1 : b.normRotation = 1 := by omega
          simp [h1]
  | cons row0 rest =>
    simp only [ne_eq, reduceCtorEq, not_false_eq_true, true_or, iff_true]
    split
    · exact ⟨_, rfl⟩
    · split
      · exact ⟨_, rfl⟩
      · split
        · exact ⟨_, rfl⟩
        · split
          · exact ⟨_, rfl⟩
          · exact ⟨_, rfl⟩

theorem movedBy_translate_ok (b : Block) (y x : Int) (proj : BlockLike)
    (hproj : b.translate = .ok proj) : ∃ proj1, (b.movedBy y x).translate = .ok proj1 := by
  rw [translate_ok_iff]
  exact (translate_ok_iff b).mp ⟨proj, hproj⟩
theorem move_of_no_touch (g : Game) (i : Nat) (b : Block) (proj : BlockLike) (y x : Int)
    (hwf : g.WellFormed) (hb : g.blocks[i]? = some b) (hproj : b.translate = .ok proj)
    (hout : proj.flatten.any (g.touches (some y) (some x)) = false) :
    ∃ rows, g.move i y x
        = ⟨none, { g with blocks := g.blocks.set i (b.movedBy y x), rows := rows }⟩
      ∧ ({ g with blocks := g.blocks.set i (b.movedBy y x), rows := rows } : Game).WellFormed := by
  obtain ⟨rows1, hclear, hwf1⟩ := clearBlock_spec g b proj hwf hproj
  obtain ⟨proj1, hproj1⟩ := movedBy_translate_ok b y x proj hproj
  have hwf1' : (({ g with rows := rows1 } : Game).setBlock i (b.movedBy y x)).WellFormed := hwf1
  obtain ⟨rows2, hdraw, hwf2⟩ := drawBlock_spec _ (b.movedBy y x) proj1 hwf1' hproj1
  refine ⟨rows2, ?_, hwf2⟩
  unfold Game.move
  rw [hb]
  simp only [checkCollision_eq, hproj, hout, Bool.false_eq_true, if_false, hclear,
    Outcome.andThen_ok]
  exact hdraw

/-- C10, as stated, fails. The upright bar in column 0 shifted by `(0, -1)` has all its cells
at column `-1`, off the left side: `checkCollision` returns `false` and `move` puts the block
at column `-1`, off the board. The lying bar on the bottom row shifted by `(1, 0)` has all its
cells on row 18, off the bottom: `checkCollision` returns `false` and `move` puts the block on
row 18. -/
theorem checkCollision_false_off_side_and_bottom :
    (Block.mk (shapes.getD 3 []) (5, 0) 1 false).translate
        = .ok [[⟨5, 0, .str "🟧"⟩], [⟨6, 0, .str "🟧"⟩], [⟨7, 0, .str "🟧"⟩],
            [⟨8, 0, .str "🟧"⟩]]
      ∧ barAtLeftEdge.checkCollision (Block.mk (shapes.getD 3 []) (5, 0) 1 false)
          (some 0) (some (-1)) = .ok false
      ∧ barAtLeftEdge.move 0 0 (-1)
          = ⟨none, emptyBoard 10 18 [Block.mk (shapes.getD 3 []) (5, -1) 1 false]⟩
      ∧ barOnBottom.checkCollision (Block.mk (shapes.getD 3 []) (17, 3) 0 false)
          (some 1) (some 0) = .ok false
      ∧ barOnBottom.move 0 1 0
          = ⟨none, emptyBoard 10 18 [Block.mk (shapes.getD 3 []) (18, 3) 0 false]⟩ := by
  decide

/-- C10 (amended): cells that the shift takes outside the board, on whichever side, are left
out by `checkCollision`. On a board of `height` rows of `width` cells, when every occupied
cell of the projection lies outside the board after the shift by `(y, x)`, `checkCollision`
returns `false` and `move` returns with the block shifted by `x` columns and, unless it is
fixed, by `y` rows. -/
theorem move_ignores_cells_outside (g : Game) (i : Nat) (b : Block) (proj : BlockLike)
    (y x : Int) (hwf : g.WellFormed) (hb : g.blocks[i]? = some b)
    (hproj : b.translate = .ok proj)
    (hout : ∀ p ∈ proj.flatten, p.cell.truthy = true →
      g.withinBounds (p.y + y) (p.x + x) = false) :
    g.checkCollision b (some y) (some x) = .ok false
      ∧ ∃ rows, g.move i y x
          = ⟨none, { g with blocks := g.blocks.set i (b.movedBy y x), rows := rows }⟩ := by
  have hany : proj.flatten.any (g.touches (some y) (some x)) = false := by
    rw [List.any_eq_false]
    intro p hp
    unfold Game.touches
    simp only [Bool.and_eq_true, not_and, Bool.not_eq_true]
    exact hout p hp
  constructor
  · rw [checkCollision_eq, hproj]
    simp only [hany, Bool.false_eq_true, if_false]
  · obtain ⟨rows, hmove, _⟩ := move_of_no_touch g i b proj y x hwf hb hproj hany
    exact ⟨rows, hmove⟩

/-- The upright bar in column 0 pushed one column to the left. -/
theorem move_ignores_cells_outside_witness :
    barAtLeftEdge.checkCollision (Block.mk (shapes.getD 3 []) (5, 0) 1 false)
        (some 0) (some (-1)) = .ok false
      ∧ ∃ rows, barAtLeftEdge.move 0 0 (-1)
          = ⟨none, { barAtLeftEdge with
              blocks := barAtLeftEdge.blocks.set 0
                ((Block.mk (shapes.getD 3 []) (5, 0) 1 false).movedBy 0 (-1)),
              rows := rows }⟩ :=
  move_ignores_cells_outside barAtLeftEdge 0 (Block.mk (shapes.getD 3 []) (5, 0) 1 false)
    [[⟨5, 0, .str "🟧"⟩], [⟨6, 0, .str "🟧"⟩], [⟨7, 0, .str "🟧"⟩], [⟨8, 0, .str "🟧"⟩]]
    0 (-1) (by decide) (by decide) (by decide) (by decide)

/-! ### Spawning -/

theorem checkCollision_no_arguments (g : Game) (b : Block) (proj : BlockLike)
    (hproj : b.translate = .ok proj) : g.checkCollision b none none = .ok false := by
  rw [checkCollision_eq, hproj]
  have h : proj.flatten.any (g.touches none none) = false := by
    rw [List.any_eq_false]
    intro p _
    simp [Game.touches]
  simp only [h, Bool.false_eq_true, if_false]

theorem shapes_nonempty : ∀ shape ∈ shapes, shape ≠ [] := by decide

theorem shapes_pick (n : Nat) : ∃ shape, shapes[n % shapes.length]? = some shape
    ∧ shape ∈ shapes := by
  have hlt : n % shapes.length < shapes.length := Nat.mod_lt _ (by decide)
  exact ⟨shapes[n % shapes.length], List.getElem?_eq_getElem hlt, List.getElem_mem hlt⟩

theorem translate_new_head (shape : Shape) (h : shape ≠ []) :
    ∃ coords row0, (Block.new shape).translate = .ok coords ∧ coords.head? = some row0 := by
  cases shape with
  | nil => exact absurd rfl h
  | cons row rest =>
    exact ⟨_, _, rfl, rfl⟩

/-- With the built-in shapes `addBlock` returns and appends one block that is not fixed,
whatever the board, the blocks and the random choices are. -/
theorem addBlock_shapes (fuel : Nat) (rand : Nat → Draw) (g : Game) :
    ∃ b, b.fixed = false
      ∧ Game.addBlock (fuel + 1) rand shapes g = ⟨none, { g with blocks := g.blocks ++ [b] }⟩ := by
  obtain ⟨shape, hpick, hmem⟩ := shapes_pick (rand 0).first
  have hne := shapes_nonempty shape hmem
  obtain ⟨coords, row0, hcoords, hhead⟩ := translate_new_head shape hne
  let block : Block :=
    { Block.new shape with
      position := (-1, (rand 0).forX.floorMul (roundDouble ((g.width : Int) - row0.length)))
      rotation := (rand 0).forRotation.floorMul 4 }
  obtain ⟨proj, hproj⟩ : ∃ proj, block.translate = .ok proj :=
    (translate_ok_iff block).mpr (Or.inl hne)
  have hcheck := checkCollision_no_arguments g block proj hproj
  refine ⟨block, rfl, ?_⟩
  simp only [Game.addBlock, hpick, hcoords, hhead]
  rw [hcheck]

theorem updateFrom_all_fixed (fuel : Nat) (rand : Nat → Draw)
    (replies : Option (List String)) (g : Game) (hfixed : ∀ b ∈ g.blocks, b.fixed = true) :
    ∀ n i, Game.updateFrom fuel rand replies n i g = .next g := by
  intro n
  induction n with
  | zero => intro i; rfl
  | succ n ih =>
    intro i
    have hstep : g.updateBlock fuel rand replies i = .next g := by
      unfold Game.updateBlock
      cases hb : g.blocks[i]? with
      | none => rfl
      | some block =>
        have hf : block.fixed = true := hfixed block (List.mem_iff_getElem?.mpr ⟨i, hb⟩)
        simp only [hf, if_true]
    simp only [Game.updateFrom, hstep]
    exact ih (i + 1)

/-- C8: when every block of the game is fixed, `update` returns with the same board, the same
blocks in place, and exactly one more block at the end, which is not fixed; this for any
replies and random choices. -/
theorem update_all_fixed_appends_one (fuel : Nat) (rand : Nat → Draw)
    (replies : Option (List String)) (g : Game) (hfixed : ∀ b ∈ g.blocks, b.fixed = true) :
    ∃ b, b.fixed = false
      ∧ Game.update (fuel + 1) rand replies g
        = ⟨none, { g with blocks := g.blocks ++ [b] }⟩ := by
  obtain ⟨b, hb, hadd⟩ := addBlock_shapes fuel rand g
  refine ⟨b, hb, ?_⟩
  have hall : (g.blocks.map fun block => block.fixed).all (fun fixed => fixed) = true := by
    rw [List.all_eq_true]
    intro f hf
    obtain ⟨blk, hblk, rfl⟩ := List.mem_map.mp hf
    exact hfixed blk hblk
  unfold Game.update
  rw [updateFrom_all_fixed (fuel + 1) rand replies g hfixed]
  simp only [hall, if_true]
  exact hadd

/-- One `update` of the board on which only the fixed square stands. -/
theorem update_all_fixed_appends_one_witness :
    ∃ b, b.fixed = false
      ∧ Game.update (0 + 1) steadyDraws (some ["left"]) squareSettled
        = ⟨none, { squareSettled with blocks := squareSettled.blocks ++ [b] }⟩ :=
  update_all_fixed_appends_one 0 steadyDraws (some ["left"]) squareSettled (by decide)

/-! ### The blocks and their flags through the methods -/

theorem Outcome.andThen_blocks (o : Outcome) (k : Game → Outcome) (bl : List Block)
    (h1 : o.game.blocks = bl) (h2 : (k o.game).game.blocks = bl) :
    (o.andThen k).game.blocks = bl := by
  unfold Outcome.andThen
  split
  · exact h2
  · exact h1

theorem Outcome.andThen_flags (o : Outcome) (k : Game → Outcome) (fl : List Bool)
    (h1 : o.game.flags = fl) (h2 : (k o.game).game.flags = fl) :
    (o.andThen k).game.flags = fl := by
  unfold Outcome.andThen
  split
  · exact h2
  · exact h1

theorem writeCell_blocks (g : Game) (y x : Int) (v : Cell) :
    (g.writeCell y x v).game.blocks = g.blocks := by
  unfold Game.writeCell
  split <;> rfl

theorem writeCells_blocks (value : Pixel → Cell) :
    ∀ (ps : List Pixel) (g : Game), (Game.writeCells value ps g).game.blocks = g.blocks := by
  intro ps
  induction ps with
  | nil => intro g; rfl
  | cons p ps ih =>
    intro g
    simp only [Game.writeCells]
    apply Outcome.andThen_blocks
    · exact writeCell_blocks g p.y p.x (value p)
    · rw [ih, writeCell_blocks]

theorem clearBlock_blocks (g : Game) (b : Block) : (g.clearBlock b).game.blocks = g.blocks := by
  unfold Game.clearBlock
  split
  · rfl
  · exact writeCells_blocks _ _ g

theorem drawBlock_blocks (g : Game) (b : Block) : (g.drawBlock b).game.blocks = g.blocks := by
  unfold Game.drawBlock
  split
  · rfl
  · exact writeCells_blocks _ _ g

theorem copyRow_blocks (cur above : Int) :
    ∀ (n i : Nat) (g : Game), (Game.copyRow cur above n i g).game.blocks = g.blocks := by
  intro n
  induction n with
  | zero => intro i g; rfl
  | succ n ih =>
    intro i g
    simp only [Game.copyRow]
    split
    · rfl
    · apply Outcome.andThen_blocks
      · exact writeCell_blocks g _ _ _
      · rw [ih, writeCell_blocks]

theorem shiftDown_blocks :
    ∀ (n : Nat) (cur above : Int) (g : Game),
      (Game.shiftDown n cur above g).game.blocks = g.blocks := by
  intro n
  induction n with
  | zero => intro cur above g; rfl
  | succ n ih =>
    intro cur above g
    simp only [Game.shiftDown]
    split
    · apply Outcome.andThen_blocks
      · exact copyRow_blocks _ _ _ _ g
      · rw [ih, copyRow_blocks]
    · rfl

theorem clearRows_blocks :
    ∀ (rows : List Int) (g : Game), (Game.clearRows rows g).game.blocks = g.blocks := by
  intro rows
  induction rows with
  | nil => intro g; rfl
  | cons row rows ih =>
    intro g
    simp only [Game.clearRows]
    apply Outcome.andThen_blocks
    · exact shiftDown_blocks _ _ _ g
    · rw [ih, shiftDown_blocks]

theorem list_set_self {α : Type} (l : List α) (i : Nat) (a : α) (h : l[i]? = some a) :
    l.set i a = l := by
  apply List.ext_getElem?
  intro j
  rw [List.getElem?_set]
  split
  · next hij =>
    subst hij
    have hlt : i < l.length := by
      by_contra hge
      rw [List.getElem?_eq_none (by omega)] at h
      exact Option.noConfusion h
    rw [if_pos hlt, h]
  · rfl

theorem setBlock_flags (g : Game) (i : Nat) (b b1 : Block) (hb : g.blocks[i]? = some b)
    (hfixed : b1.fixed = b.fixed) : (g.setBlock i b1).flags = g.flags := by
  unfold Game.setBlock Game.flags
  simp only [List.map_set, hfixed]
  apply list_set_self
  rw [List.getElem?_map, hb]
  rfl

theorem flags_of_blocks (g g1 : Game) (h : g1.blocks = g.blocks) : g1.flags = g.flags := by
  unfold Game.flags
  rw [h]

theorem move_flags (g : Game) (i : Nat) (y x : Int) : (g.move i y x).game.flags = g.flags := by
  unfold Game.move
  split
  · rfl
  · next block hb =>
    split
    · rfl
    · rfl
    · apply Outcome.andThen_flags
      · exact flags_of_blocks _ _ (clearBlock_blocks g block)
      · show (Game.drawBlock _ _).game.flags = g.flags
        rw [flags_of_blocks _ _ (drawBlock_blocks _ _)]
        refine (setBlock_flags _ i block _ ?_ ?_).trans ?_
        · rw [clearBlock_blocks]; exact hb
        · rfl
        · exact flags_of_blocks _ _ (clearBlock_blocks g block)

theorem left_flags (g : Game) : g.left.game.flags = g.flags := by
  unfold Game.left
  split
  · rfl
  · split
    · exact move_flags g _ _ _
    · rfl

theorem right_flags (g : Game) : g.right.game.flags = g.flags := by
  unfold Game.right
  split
  · rfl
  · split
    · rfl
    · split
      · exact move_flags g _ _ _
      · split
        · exact move_flags g _ _ _
        · rfl

theorem downLoop_flags (i : Nat) :
    ∀ (n : Nat) (y : Int) (g : Game), (Game.downLoop i n y g).game.flags = g.flags := by
  intro n
  induction n with
  | zero => intro y g; rfl
  | succ n ih =>
    intro y g
    simp only [Game.downLoop]
    split
    · apply Outcome.andThen_flags
      · exact move_flags g _ _ _
      · rw [ih, move_flags]
    · rfl

theorem down_flags (g : Game) : g.down.game.flags = g.flags := by
  unfold Game.down
  split
  · rfl
  · split
    · rfl
    · exact downLoop_flags _ _ _ g

theorem tiltBlock_flags (turn : Int) (g : Game) (i : Nat) :
    (g.tiltBlock turn i).game.flags = g.flags := by
  unfold Game.tiltBlock
  split
  · rfl
  · next block hb =>
    split
    · rfl
    · have hg1 : (g.clearBlock block).game.flags = g.flags :=
        flags_of_blocks _ _ (clearBlock_blocks g block)
      have hb1 : (g.clearBlock block).game.blocks[i]? = some block := by
        rw [clearBlock_blocks]; exact hb
      apply Outcome.andThen_flags
      · exact hg1
      · simp only
        split
        · rw [← hg1]
          exact setBlock_flags _ i block _ hb1 rfl
        · split
          · rw [← hg1]
            apply setBlock_flags _ i block _ hb1
            split <;> rfl
          · rw [flags_of_blocks _ _ (drawBlock_blocks _ _), ← hg1]
            apply setBlock_flags _ i block _ hb1
            split <;> (split <;> rfl)

theorem tiltFrom_flags (turn : Int) :
    ∀ (n i : Nat) (g : Game), (Game.tiltFrom turn n i g).game.flags = g.flags := by
  intro n
  induction n with
  | zero => intro i g; rfl
  | succ n ih =>
    intro i g
    simp only [Game.tiltFrom]
    apply Outcome.andThen_flags
    · exact tiltBlock_flags turn g i
    · rw [ih, tiltBlock_flags]

theorem act_flags (g : Game) (intent : Intent) : (g.act intent).game.flags = g.flags := by
  cases intent with
  | none => rfl
  | tiltLeft => exact tiltFrom_flags 1 _ _ g
  | left => exact left_flags g
  | right => exact right_flags g
  | down => exact down_flags g

theorem listen_flags (g : Game) (replies : Option (List String)) :
    (g.listen replies).flags = g.flags := by
  cases replies with
  | none => rfl
  | some texts => exact act_flags g _
/-! ### At most one loose block, the last one -/

theorem addBlock_blocks (fuel : Nat) (rand : Nat → Draw) (possibleshapes : List Shape)
    (g : Game) :
    (Game.addBlock fuel rand possibleshapes g).game.blocks = g.blocks
      ∨ ∃ b, b.fixed = false
          ∧ (Game.addBlock fuel rand possibleshapes g).game.blocks = g.blocks ++ [b] := by
  cases fuel with
  | zero => exact Or.inl rfl
  | succ fuel =>
    simp only [Game.addBlock]
    split
    · exact Or.inl rfl
    · split
      · exact Or.inl rfl
      · split
        · exact Or.inl rfl
        · split
          · exact Or.inl rfl
          · exact Or.inr ⟨_, rfl, rfl⟩
          · next h => exact absurd h (checkCollision_ne_true _ _ _ _)

theorem start_flags_length (fuel : Nat) (rand : Nat → Draw) (g : Game) :
    (Game.start fuel rand g).game.flags.length ≤ 1 := by
  unfold Game.start Game.flags
  rcases addBlock_blocks fuel rand shapes g.cleared with h | ⟨b, _, h⟩
  · rw [h]; simp [Game.cleared]
  · rw [h]; simp [Game.cleared]

theorem FlagsMono.refl (fl : List Bool) : FlagsMono fl fl :=
  Or.inr ⟨rfl, fun _ h => h⟩

theorem FlagsMono.trans {a b c : List Bool} (h1 : FlagsMono a b) (h2 : FlagsMono b c) :
    FlagsMono a c := by
  rcases h2 with h2 | ⟨hlen2, h2⟩
  · exact Or.inl h2
  · rcases h1 with h1 | ⟨hlen1, h1⟩
    · exact Or.inl (by omega)
    · exact Or.inr ⟨by omega, fun k hk => h2 k (h1 k hk)⟩

theorem FlagsMono.inv {a b : List Bool} (h : FlagsMono a b) (ha : FlagsInv a) : FlagsInv b := by
  rcases h with h | ⟨hlen, h⟩
  · intro k hk
    omega
  · intro k hk
    exact h k (ha k (by omega))

theorem setBlock_fixed_mono (g : Game) (i : Nat) (block : Block) :
    FlagsMono g.flags (g.setBlock i { block with fixed := true }).flags := by
  refine Or.inr ⟨by simp [Game.setBlock, Game.flags], ?_⟩
  intro k hk
  simp only [Game.setBlock, Game.flags, List.map_set]
  rw [List.getElem?_set]
  split
  · next hik =>
    subst hik
    have hlt : i < (g.flags).length := by
      by_contra hge
      rw [List.getElem?_eq_none (by omega)] at hk
      exact Option.noConfusion hk
    simp only [Game.flags] at hlt
    rw [if_pos hlt]
  · exact hk

theorem updateBlock_mono (fuel : Nat) (rand : Nat → Draw) (replies : Option (List String))
    (g : Game) (i : Nat) :
    FlagsMono g.flags (g.updateBlock fuel rand replies i).game.flags := by
  unfold Game.updateBlock
  split
  · exact FlagsMono.refl _
  · next block hb =>
    split
    · exact FlagsMono.refl _
    · split
      · exact FlagsMono.refl _
      · next fix hfix =>
        have h1 : FlagsMono g.flags
            (if fix = true then g.setBlock i { block with fixed := true } else g).flags := by
          split
          · exact setBlock_fixed_mono g i block
          · exact FlagsMono.refl _
        have hmove := move_flags
          (if fix = true then g.setBlock i { block with fixed := true } else g) i 1 0
        have hlisten := listen_flags
          ((if fix = true then g.setBlock i { block with fixed := true } else g).move i 1 0).game
          replies
        simp only
        split
        · show FlagsMono g.flags (Game.move _ i 1 0).game.flags
          rw [hmove]
          exact h1
        · split
          · show FlagsMono g.flags (Game.listen _ replies).flags
            rw [hlisten, hmove]
            exact h1
          · split
            · split
              · exact Or.inl (start_flags_length _ _ _)
              · split
                · show FlagsMono g.flags (Game.listen _ replies).flags
                  rw [hlisten, hmove]
                  exact h1
                · split
                  · show FlagsMono g.flags (Game.clearRows _ _).game.flags
                    rw [flags_of_blocks _ _ (clearRows_blocks _ _), hlisten, hmove]
                    exact h1
                  · show FlagsMono g.flags (Game.clearRows _ _).game.flags
                    rw [flags_of_blocks _ _ (clearRows_blocks _ _), hlisten, hmove]
                    exact h1
            · show FlagsMono g.flags (Game.listen _ replies).flags
              rw [hlisten, hmove]
              exact h1

theorem updateFrom_mono (fuel : Nat) (rand : Nat → Draw) (replies : Option (List String)) :
    ∀ (n i : Nat) (g : Game),
      FlagsMono g.flags (Game.updateFrom fuel rand replies n i g).game.flags := by
  intro n
  induction n with
  | zero => intro i g; exact FlagsMono.refl _
  | succ n ih =>
    intro i g
    have hstep := updateBlock_mono fuel rand replies g i
    simp only [Game.updateFrom]
    split
    · next o ho =>
      rw [ho] at hstep
      exact hstep
    · next g1 hg1 =>
      rw [hg1] at hstep
      exact FlagsMono.trans hstep (ih (i + 1) g1)

theorem update_inv (fuel : Nat) (rand : Nat → Draw) (replies : Option (List String))
    (g : Game) (hinv : FlagsInv g.flags) :
    FlagsInv (Game.update fuel rand replies g).game.flags := by
  have hloop := updateFrom_mono fuel rand replies g.blocks.length 0 g
  unfold Game.update
  split
  · next o ho =>
    rw [ho] at hloop
    exact hloop.inv hinv
  · next g1 hg1 =>
    rw [hg1] at hloop
    have hinv1 : FlagsInv g1.flags := hloop.inv hinv
    split
    · next hall =>
      rcases addBlock_blocks fuel rand shapes g1 with h | ⟨b, hb, h⟩
      · rw [flags_of_blocks _ _ h]
        exact hinv1
      · intro k hk
        simp only [Game.flags, h, List.map_append, List.map_cons, List.map_nil,
          List.length_append, List.length_map, List.length_singleton] at hk ⊢
        have hk1 : k < (g1.blocks.map fun block => block.fixed).length := by
          simp only [List.length_map]; omega
        rw [List.getElem?_append_left hk1, List.getElem?_eq_getElem hk1]
        congr 1
        rw [List.all_eq_true] at hall
        exact hall _ (List.getElem_mem hk1)
    · exact hinv1

theorem reachable_inv (g : Game) (h : Reachable g) : FlagsInv g.flags := by
  induction h with
  | new fuel rand width height interval paused =>
    intro k hk
    have := start_flags_length (fuel + 1) rand
      { interval := interval, paused := paused, width := width, height := height,
        blocks := [], rows := [] }
    unfold Game.new at hk
    omega
  | start fuel rand g _ _ =>
    intro k hk
    have := start_flags_length (fuel + 1) rand g
    omega
  | update fuel rand replies g _ ih => exact update_inv (fuel + 1) rand replies g ih

theorem filter_loose_length (blocks : List Block)
    (h : FlagsInv (blocks.map fun b => b.fixed)) :
    (blocks.filter fun b => !b.fixed).length ≤ 1 := by
  induction blocks with
  | nil => simp
  | cons b bs ih =>
    cases bs with
    | nil =>
      simp only [List.filter_cons, List.filter_nil]
      split <;> simp
    | cons c cs =>
      have hb : b.fixed = true := by
        have := h 0 (by simp)
        simpa using this
      have hrest : FlagsInv ((c :: cs).map fun b => b.fixed) := by
        intro k hk
        have := h (k + 1) (by simp at hk ⊢; omega)
        simpa using this
      have := ih hrest
      simp only [List.filter_cons, hb, Bool.not_true, Bool.false_eq_true, if_false]
      simpa [List.filter_cons] using this

/-- C9: in every game reached from a newly constructed one by calls of `start` and `update`
(with any replies and random choices, and also when a call throws), at most one block has
`fixed = false`, and every block with a block after it in the list is fixed. -/
theorem reachable_one_loose_block (g : Game) (h : Reachable g) :
    (g.blocks.filter fun b => !b.fixed).length ≤ 1
      ∧ ∀ (k : Nat) (b : Block), k + 1 < g.blocks.length → g.blocks[k]? = some b →
          b.fixed = true := by
  have hinv := reachable_inv g h
  refine ⟨filter_loose_length g.blocks hinv, ?_⟩
  intro k b hk hb
  have := hinv k (by simp [Game.flags]; exact hk)
  simp only [Game.flags, List.getElem?_map, hb, Option.map_some', Option.some.injEq] at this
  exact this

/-- The game after construction and two calls of `update` on a board 10 wide and 1 high: it
holds two squares, the first fixed and the second not. -/
theorem reachable_one_loose_block_witness :
    ((twoSquares.blocks.filter fun b => !b.fixed).length ≤ 1
      ∧ ∀ (k : Nat) (b : Block), k + 1 < twoSquares.blocks.length →
          twoSquares.blocks[k]? = some b → b.fixed = true)
    ∧ twoSquares.blocks
      = [Block.mk (shapes.getD 2 []) (-1, 4) 2 true, Block.mk (shapes.getD 2 []) (-1, 4) 2 false]
    ∧ (Game.update (0 + 1) squareDraws none
        (Game.new (0 + 1) squareDraws 10 1 500 false).game).thrown = some .referenceError :=
  ⟨reachable_one_loose_block twoSquares
      (Reachable.update 0 squareDraws none _
        (Reachable.update 0 squareDraws none _ (Reachable.new 0 squareDraws 10 1 500 false))),
    by decide, by decide⟩

/-! ### The cascade picks the latest maximum -/

/-- C20: the intent chosen by the `if` chain of `update` has a count equal to the maximum of
the four counts; every option after the chosen one in the order tilt, left, right, down has a
strictly smaller count, so among options that tie for the maximum the latest is chosen; and
nothing is chosen exactly when the four counts are zero. -/
theorem portPriority_latest_maximum (t l r d : Nat) :
    (portPriority t l r d).count t l r d = max (max t l) (max r d)
      ∧ (portPriority t l r d = .tiltLeft → l < t ∧ r < t ∧ d < t)
      ∧ (portPriority t l r d = .left → r < l ∧ d < l)
      ∧ (portPriority t l r d = .right → d < r)
      ∧ (portPriority t l r d = .none ↔ t = 0 ∧ l = 0 ∧ r = 0 ∧ d = 0) := by
  unfold portPriority
  split_ifs with h1 h2 h3 h4
  · simp only [Intent.count, reduceCtorEq, false_iff, false_implies, true_implies,
      true_and, and_true]
    omega
  · simp only [Intent.count, reduceCtorEq, false_iff, false_implies, true_implies,
      true_and, and_true]
    omega
  · simp only [Intent.count, reduceCtorEq, false_iff, false_implies, true_implies,
      true_and, and_true]
    omega
  · simp only [Intent.count, reduceCtorEq, false_iff, false_implies, true_implies,
      true_and, and_true]
    omega
  · simp only [Intent.count, reduceCtorEq, false_implies, true_iff, true_and]
    omega

/-! ### Spawning onto settled cells -/

/-- C13: on the board whose top row is full, `addBlock` with the square at column 4 and
rotation 2 puts the occupied cell `(0, 4)` of the new block on the settled cell `(0, 4)`, and
yet it appends the block and leaves the board as it is: `checkCollision(block)` is called
without `y` and `x` and returns `false`. -/
theorem addBlock_appends_on_overlap :
    squareSpawned.translate
        = .ok [[⟨-1, 4, .str "🟨"⟩, ⟨-1, 5, .str "🟨"⟩], [⟨0, 4, .str "🟨"⟩, ⟨0, 5, .str "🟨"⟩]]
      ∧ topRowFull.readCell 0 4 = .ok (.str "🟦")
      ∧ topRowFull.checkCollision squareSpawned none none = .ok false
      ∧ Game.addBlock 1 squareDraws shapes topRowFull
        = ⟨none, { topRowFull with blocks := [squareSpawned] }⟩
      ∧ (Game.addBlock 1 squareDraws shapes topRowFull).game.rows = topRowFull.rows
      ∧ (Game.addBlock 1 squareDraws shapes topRowFull).game.rowFull 0 = true := by
  decide

/-- C14: on the empty 10 by 18 board `addBlock` appends the square at `(-1, 4)`; right after,
`checkCollision(block, 0, 0)` does not return `false`, it throws `ReferenceError`, because the
lower cells of the square lie inside the board. -/
theorem checkCollision_throws_after_addBlock :
    Game.addBlock 1 squareDraws shapes (emptyBoard 10 18 [])
        = ⟨none, emptyBoard 10 18 [squareSpawned]⟩
      ∧ (emptyBoard 10 18 [squareSpawned]).checkCollision squareSpawned (some 0) (some 0)
        = .error .referenceError
      ∧ (emptyBoard 10 18 [squareSpawned]).checkCollision squareSpawned (some 0) (some 0)
        ≠ .ok false := by
  decide

/-! ### Serialisation of a game -/

theorem new_eq (fuel : Nat) (rand : Nat → Draw) (width height interval : Nat)
    (paused : Bool) :
    ∃ b, b.fixed = false
      ∧ Game.new (fuel + 1) rand width height interval paused
        = ⟨none, { interval := interval, paused := paused, width := width, height := height,
                   blocks := [b],
                   rows := List.replicate height (List.replicate width background) }⟩ := by
  unfold Game.new Game.start
  exact addBlock_shapes fuel rand _

theorem map_fromJSON_toJSON (blocks : List Block) :
    (blocks.map fun block => block.toJSON).map (fun block => Block.fromJSON block) = blocks := by
  induction blocks with
  | nil => rfl
  | cons b bs ih =>
    simp only [List.map_cons, List.cons.injEq]
    exact ⟨rfl, ih⟩

/-- C19: for a game whose board is `height` rows of `width` cells, with `height ≥ 1` and
`width ≥ 1`, `Game.fromJSON(game.toJSON())` returns a game with the same board and the same
blocks in the same order, whose width and height are `rows[0].length` and `rows.length`, which
are the width and the height of the game; the block that the constructor spawned is gone. The
interval and the pause flag are the constructor's defaults. -/
theorem fromJSON_toJSON_game (fuel : Nat) (rand : Nat → Draw) (g : Game)
    (hwf : g.WellFormed) (hh : 1 ≤ g.height) (hw : 1 ≤ g.width) :
    ∃ g1, Game.fromJSON (fuel + 1) rand g.toJSON = .ok g1
      ∧ g1.rows = g.rows
      ∧ g1.blocks = g.blocks
      ∧ g1.width = (g.rows.headD []).length
      ∧ g1.height = g.rows.length
      ∧ g1 = { g with interval := 500, paused := false } := by
  have _ := hw
  obtain ⟨hlen, hwidth⟩ := hwf
  obtain ⟨row0, rest, hrows⟩ : ∃ row0 rest, g.rows = row0 :: rest := by
    cases hr : g.rows with
    | nil => rw [hr] at hlen; simp at hlen; omega
    | cons row0 rest => exact ⟨row0, rest, rfl⟩
  have hrow0 : row0.length = g.width := hwidth row0 (by rw [hrows]; exact List.mem_cons_self _ _)
  obtain ⟨b, _, hgame⟩ := new_eq fuel rand row0.length g.rows.length 500 false
  refine ⟨{ g with interval := 500, paused := false }, ?_, rfl, rfl, ?_, ?_, rfl⟩
  · unfold Game.fromJSON
    simp only [Game.toJSON, hrows, List.head?_cons]
    rw [← hrows, hgame]
    simp only [map_fromJSON_toJSON, hrow0, hlen]
  · simp only [hrows, List.headD_cons, hrow0]
  · exact hlen.symm

/-- The round trip of the board on which only the fixed square stands. -/
theorem fromJSON_toJSON_game_witness :
    ∃ g1, Game.fromJSON (0 + 1) steadyDraws squareSettled.toJSON = .ok g1
      ∧ g1.rows = squareSettled.rows
      ∧ g1.blocks = squareSettled.blocks
      ∧ g1.width = (squareSettled.rows.headD []).length
      ∧ g1.height = squareSettled.rows.length
      ∧ g1 = { squareSettled with interval := 500, paused := false } :=
  fromJSON_toJSON_game 0 steadyDraws squareSettled (by decide) (by decide) (by decide)

/-! ### `left` and `right` -/

theorem mathMax_none (xs : List Int) : mathMax xs = none ↔ xs = [] := by
  cases xs with
  | nil => simp [mathMax]
  | cons x xs =>
    simp only [mathMax, reduceCtorEq, iff_false]
    split <;> simp

theorem mathMax_some (xs : List Int) (m : Int) (h : mathMax xs = some m) :
    m ∈ xs ∧ ∀ x ∈ xs, x ≤ m := by
  induction xs generalizing m with
  | nil => simp [mathMax] at h
  | cons x xs ih =>
    simp only [mathMax] at h
    split at h
    · next hnone =>
      have hxs := (mathMax_none xs).mp hnone
      subst hxs
      simp only [Option.some.injEq] at h
      subst h
      simp
    · next m1 hsome =>
      obtain ⟨hm1, hle⟩ := ih m1 hsome
      simp only [Option.some.injEq] at h
      subst h
      constructor
      · rcases le_total x m1 with hx | hx
        · rw [max_eq_right hx]; exact List.mem_cons_of_mem _ hm1
        · rw [max_eq_left hx]; exact List.mem_cons_self _ _
      · intro y hy
        rcases List.mem_cons.mp hy with rfl | hy
        · exact le_max_left _ _
        · exact le_trans (hle y hy) (le_max_right _ _)

theorem any_touches_false (g : Game) (proj : BlockLike) (y x : Int)
    (hout : ∀ p ∈ proj.flatten, p.cell.truthy = true →
      g.withinBounds (p.y + y) (p.x + x) = false) :
    proj.flatten.any (g.touches (some y) (some x)) = false := by
  rw [List.any_eq_false]
  intro p hp
  unfold Game.touches
  simp only [Bool.and_eq_true, not_and, Bool.not_eq_true]
  exact hout p hp

/-- C11: the loose square at rows 5 and 6, columns 4 and 5 of an otherwise empty 10 by 18
board has `position.col = 4 > 0` and its rightmost column is `5 < 9`, yet `left()` does not
lower its column by one and `right()` does not raise it: both end with the `ReferenceError`
that `checkCollision` throws when it evaluates the undeclared identifier `rows`, and the
square stays at column 4. -/
theorem left_right_throw_inside_board :
    squareLoose.blocks.map (fun b => b.position) = [(5, 4)]
      ∧ squareLoose.left = ⟨some .referenceError, squareLoose⟩
      ∧ squareLoose.right = ⟨some .referenceError, squareLoose⟩
      ∧ squareLoose.left.game.blocks.map (fun b => b.position) = [(5, 4)]
      ∧ squareLoose.right.game.blocks.map (fun b => b.position) = [(5, 4)] := by
  decide

/-- What `left` and `right` are made of: a test of the bounds, then a call of `move`, which
calls `checkCollision`. For the last block `b`: `left()` is `move(b, 0, -1)` when
`b.position[1] > 0` and does nothing otherwise; `right()` is `move(b, 0, 1)` when every column
of the projection is below `width - 1` and does nothing otherwise. On a board of `height`
rows of `width` cells, when every occupied cell of the block lies outside the board after the
shift, `left()` lowers the column by exactly one and `right()` raises it by exactly one,
whatever the board holds. -/
theorem left_right_are_moves (g : Game) (b : Block) (proj : BlockLike) (hwf : g.WellFormed)
    (hlast : g.blocks[g.blocks.length - 1]? = some b) (hproj : b.translate = .ok proj) :
    (b.position.2 > 0 → g.left = g.move (g.blocks.length - 1) 0 (-1))
      ∧ (¬ b.position.2 > 0 → g.left = ⟨none, g⟩)
      ∧ ((∀ p ∈ proj.flatten, p.x < (g.width : Int) - 1) →
          g.right = g.move (g.blocks.length - 1) 0 1)
      ∧ ((∃ p ∈ proj.flatten, p.x ≥ (g.width : Int) - 1) → g.right = ⟨none, g⟩)
      ∧ (b.position.2 > 0 →
          (∀ p ∈ proj.flatten, p.cell.truthy = true →
            g.withinBounds (p.y + 0) (p.x + -1) = false) →
          ∃ rows, g.left = ⟨none, { g with
            blocks := g.blocks.set (g.blocks.length - 1) (b.movedBy 0 (-1)), rows := rows }⟩)
      ∧ ((∀ p ∈ proj.flatten, p.x < (g.width : Int) - 1) →
          (∀ p ∈ proj.flatten, p.cell.truthy = true →
            g.withinBounds (p.y + 0) (p.x + 1) = false) →
          ∃ rows, g.right = ⟨none, { g with
            blocks := g.blocks.set (g.blocks.length - 1) (b.movedBy 0 1), rows := rows }⟩) := by
  have hleft : b.position.2 > 0 → g.left = g.move (g.blocks.length - 1) 0 (-1) := by
    intro h
    unfold Game.left
    rw [hlast]
    simp only [h, if_true]
  have hright : (∀ p ∈ proj.flatten, p.x < (g.width : Int) - 1) →
      g.right = g.move (g.blocks.length - 1) 0 1 := by
    intro h
    unfold Game.right
    rw [hlast]
    simp only [hproj]
    split
    · rfl
    · next m hm =>
      obtain ⟨hmem, _⟩ := mathMax_some _ m hm
      obtain ⟨p, hp, rfl⟩ := List.mem_map.mp hmem
      rw [if_pos (h p hp)]
  refine ⟨hleft, ?_, hright, ?_, ?_, ?_⟩
  · intro h
    unfold Game.left
    rw [hlast]
    simp only [h, if_false]
  · rintro ⟨p, hp, hpx⟩
    unfold Game.right
    rw [hlast]
    simp only [hproj]
    split
    · next hnone =>
      have := (mathMax_none _).mp hnone
      rw [List.map_eq_nil_iff] at this
      rw [this] at hp
      exact absurd hp (List.not_mem_nil p)
    · next m hm =>
      obtain ⟨_, hle⟩ := mathMax_some _ m hm
      have := hle p.x (List.mem_map.mpr ⟨p, hp, rfl⟩)
      rw [if_neg (by omega)]
  · intro h hout
    rw [hleft h]
    obtain ⟨rows, hmove, _⟩ := move_of_no_touch g _ b proj 0 (-1) hwf hlast hproj
      (any_touches_false g proj 0 (-1) hout)
    exact ⟨rows, hmove⟩
  · intro h hout
    rw [hright h]
    obtain ⟨rows, hmove, _⟩ := move_of_no_touch g _ b proj 0 1 hwf hlast hproj
      (any_touches_false g proj 0 1 hout)
    exact ⟨rows, hmove⟩

/-- The bar above the board whose top row is full: `left()` takes it from column 3 to
column 2, `right()` to column 4. -/
theorem left_right_are_moves_witness :
    (∃ rows, barAboveFullRow.left = ⟨none, { barAboveFullRow with
        blocks := barAboveFullRow.blocks.set (barAboveFullRow.blocks.length - 1)
          ((Block.mk (shapes.getD 3 []) (-1, 3) 0 false).movedBy 0 (-1)),
        rows := rows }⟩)
      ∧ barAboveFullRow.left.game.blocks.map (fun b => b.position) = [(-1, 2)]
      ∧ barAboveFullRow.right.game.blocks.map (fun b => b.position) = [(-1, 4)] :=
  ⟨(left_right_are_moves barAboveFullRow (Block.mk (shapes.getD 3 []) (-1, 3) 0 false)
      [[⟨-1, 3, .str "🟧"⟩, ⟨-1, 4, .str "🟧"⟩, ⟨-1, 5, .str "🟧"⟩, ⟨-1, 6, .str "🟧"⟩]]
      (by decide) (by decide) (by decide)).2.2.2.2.1 (by decide) (by decide),
    by decide, by decide⟩

/-! ### The projection of a rectangular shape, entry by entry -/

theorem map_range_congr {α : Type} (n : Nat) (f g : Nat → α) (h : ∀ i < n, f i = g i) :
    (List.range n).map f = (List.range n).map g :=
  List.map_congr_left fun i hi => h i (List.mem_range.mp hi)

theorem grid_congr {α : Type} (n m : Nat) (f g : Nat → Nat → α)
    (h : ∀ i < n, ∀ j < m, f i j = g i j) : grid n m f = grid n m g :=
  map_range_congr n _ _ fun i hi => map_range_congr m _ _ fun j hj => h i hi j hj

theorem enum_map_eq {α β : Type} (l : List α) (d : α) (f : Nat × α → β) :
    l.enum.map f = (List.range l.length).map fun i => f (i, l.getD i d) := by
  apply List.ext_getElem?
  intro i
  simp only [List.getElem?_map, List.getElem?_enum, Option.map_map]
  by_cases hi : i < l.length
  · rw [List.getElem?_eq_getElem hi, List.getElem?_range hi]
    simp only [Option.map_some', Function.comp_apply, List.getD_eq_getElem?_getD,
      List.getElem?_eq_getElem hi, Option.getD_some]
  · rw [List.getElem?_eq_none (by omega), List.getElem?_eq_none (by simp; omega)]
    rfl

theorem rect_getD_length (s : Shape) (h w : Nat) (hrect : IsRect s h w) (i : Nat)
    (hi : i < h) : (s.getD i []).length = w := by
  obtain ⟨hlen, hrow⟩ := hrect
  have hlt : i < s.length := by omega
  rw [List.getD_eq_getElem _ _ hlt]
  exact hrow _ (List.getElem_mem hlt)

theorem rect_eq_grid (s : Shape) (h w : Nat) (hrect : IsRect s h w) :
    s = grid h w (shapeAt s) := by
  have hlen := hrect.1
  apply List.ext_getElem?
  intro i
  unfold grid
  rw [List.getElem?_map]
  by_cases hi : i < h
  · have hlt : i < s.length := by omega
    rw [List.getElem?_range hi, List.getElem?_eq_getElem hlt]
    simp only [Option.map_some', Option.some.injEq]
    have hw := rect_getD_length s h w hrect i hi
    rw [List.getD_eq_getElem _ _ hlt] at hw
    apply List.ext_getElem?
    intro j
    rw [List.getElem?_map]
    by_cases hj : j < w
    · rw [List.getElem?_range hj, List.getElem?_eq_getElem (by omega)]
      simp only [Option.map_some', Option.some.injEq, shapeAt, cellAt,
        List.getD_eq_getElem?_getD, List.getElem?_eq_getElem hlt, Option.getD_some]
      rw [List.getElem?_eq_getElem (by omega)]
      rfl
    · rw [List.getElem?_eq_none (by omega), List.getElem?_eq_none (by simp; omega)]
      rfl
  · rw [List.getElem?_eq_none (by omega), List.getElem?_eq_none (by simp; omega)]
    rfl

theorem mem_flatten_grid {α : Type} (n m : Nat) (f : Nat → Nat → α) (a : α) :
    a ∈ (grid n m f).flatten ↔ ∃ i, i < n ∧ ∃ j, j < m ∧ a = f i j := by
  unfold grid
  simp only [List.mem_flatten, List.mem_map, List.mem_range]
  constructor
  · rintro ⟨row, ⟨i, hi, rfl⟩, ha⟩
    obtain ⟨j, hj, rfl⟩ := List.mem_map.mp ha
    exact ⟨i, hi, j, List.mem_range.mp hj, rfl⟩
  · rintro ⟨i, hi, j, hj, rfl⟩
    exact ⟨_, ⟨i, hi, rfl⟩, List.mem_map.mpr ⟨j, List.mem_range.mpr hj, rfl⟩⟩

theorem shapeAt_reverse_row (s : Shape) (h w : Nat) (hrect : IsRect s h w) (i j : Nat)
    (hi : i < h) (hj : j < w) :
    cellAt ((s.getD i []).reverse) j = shapeAt s i (w - 1 - j) := by
  have hw := rect_getD_length s h w hrect i hi
  unfold shapeAt cellAt
  generalize s.getD i [] = row at hw
  rw [List.getD_eq_getElem?_getD, List.getD_eq_getElem?_getD,
    List.getElem?_reverse (by omega), hw]

theorem shapeAt_reverse_rows (s : Shape) (h w : Nat) (hrect : IsRect s h w) (i j : Nat)
    (hi : i < h) : cellAt (s.reverse.getD i []) j = shapeAt s (h - 1 - i) j := by
  unfold shapeAt
  rw [List.getD_eq_getElem?_getD, List.getD_eq_getElem?_getD,
    List.getElem?_reverse (by rw [hrect.1]; exact hi), hrect.1]

theorem translate_zero (b : Block) (hr : b.normRotation = 0) :
    b.translate = .ok (b.shape.enum.map fun (rowPos, row) =>
      row.enum.map fun (colPos, cell) =>
        { y := b.position.1 + rowPos, x := b.position.2 + colPos, cell := cell }) := by
  unfold Block.translate
  simp only [hr]
  rfl

theorem translate_two (b : Block) (hr : b.normRotation = 2) :
    b.translate = .ok (b.shape.reverse.enum.map fun (rowPos, row) =>
      row.reverse.enum.map fun (colPos, cell) =>
        { y := b.position.1 + rowPos, x := b.position.2 + colPos, cell := cell }) := by
  unfold Block.translate
  simp only [hr]
  rfl

theorem translate_one (b : Block) (row0 : List Cell) (rest : List (List Cell))
    (hs : b.shape = row0 :: rest) (hr : b.normRotation = 1) :
    b.translate = .ok ((List.range row0.length).map fun (colPos : Nat) =>
      (List.range b.shape.length).map fun (rowPos : Nat) =>
        { y := b.position.1 + colPos, x := b.position.2 + rowPos,
          cell := cellAt ((b.shape.getD rowPos []).reverse) colPos }) := by
  unfold Block.translate
  simp only [hr]
  rw [if_pos trivial]
  simp only [hs]
  rfl

theorem translate_three (b : Block) (row0 : List Cell) (rest : List (List Cell))
    (hs : b.shape = row0 :: rest) (hr : b.normRotation = 3) :
    b.translate = .ok ((List.range row0.length).map fun (colPos : Nat) =>
      (List.range b.shape.length).map fun (rowPos : Nat) =>
        { y := b.position.1 + colPos, x := b.position.2 + rowPos,
          cell := cellAt (b.shape.reverse.getD rowPos []) colPos }) := by
  unfold Block.translate
  simp only [hr]
  rw [if_pos trivial]
  simp only [hs]
  rfl

theorem rect_cons (s : Shape) (h w : Nat) (hrect : IsRect s h w) (hh : 0 < h) :
    ∃ row0 rest, s = row0 :: rest ∧ row0.length = w := by
  cases hs : s with
  | nil => rw [hs] at hrect; have := hrect.1; simp at this; omega
  | cons row0 rest =>
    exact ⟨row0, rest, rfl, hrect.2 row0 (by rw [hs]; exact List.mem_cons_self _ _)⟩

theorem translate_rect_zero (b : Block) (h w : Nat) (hrect : IsRect b.shape h w)
    (hr : b.normRotation = 0) :
    b.translate = .ok (grid h w fun i j =>
      ⟨b.position.1 + i, b.position.2 + j, shapeAt b.shape i j⟩) := by
  rw [translate_zero b hr]
  congr 1
  rw [enum_map_eq b.shape [], hrect.1]
  apply map_range_congr
  intro i hi
  simp only
  rw [enum_map_eq _ Cell.undefined, rect_getD_length b.shape h w hrect i hi]
  rfl

theorem translate_rect_two (b : Block) (h w : Nat) (hrect : IsRect b.shape h w)
    (hr : b.normRotation = 2) :
    b.translate = .ok (grid h w fun i j =>
      ⟨b.position.1 + i, b.position.2 + j, shapeAt b.shape (h - 1 - i) (w - 1 - j)⟩) := by
  rw [translate_two b hr]
  congr 1
  rw [enum_map_eq b.shape.reverse [], List.length_reverse, hrect.1]
  apply map_range_congr
  intro i hi
  have hrow : (b.shape.reverse.getD i []) = b.shape.getD (h - 1 - i) [] := by
    rw [List.getD_eq_getElem?_getD, List.getD_eq_getElem?_getD,
      List.getElem?_reverse (by rw [hrect.1]; exact hi), hrect.1]
  simp only
  rw [enum_map_eq _ Cell.undefined, List.length_reverse, hrow,
    rect_getD_length b.shape h w hrect (h - 1 - i) (by omega)]
  apply map_range_congr
  intro j hj
  simp only [Pixel.mk.injEq, true_and]
  exact shapeAt_reverse_row b.shape h w hrect (h - 1 - i) j (by omega) hj

theorem translate_rect_one (b : Block) (h w : Nat) (hrect : IsRect b.shape h w) (hh : 0 < h)
    (hr : b.normRotation = 1) :
    b.translate = .ok (grid w h fun i j =>
      ⟨b.position.1 + i, b.position.2 + j, shapeAt b.shape j (w - 1 - i)⟩) := by
  obtain ⟨row0, rest, hs, hrow0⟩ := rect_cons b.shape h w hrect hh
  rw [translate_one b row0 rest hs hr, hrow0, hrect.1]
  congr 1
  apply grid_congr
  intro i hi j hj
  simp only [Pixel.mk.injEq, true_and]
  exact shapeAt_reverse_row b.shape h w hrect j i hj hi

theorem translate_rect_three (b : Block) (h w : Nat) (hrect : IsRect b.shape h w)
    (hh : 0 < h) (hr : b.normRotation = 3) :
    b.translate = .ok (grid w h fun i j =>
      ⟨b.position.1 + i, b.position.2 + j, shapeAt b.shape (h - 1 - j) i⟩) := by
  obtain ⟨row0, rest, hs, hrow0⟩ := rect_cons b.shape h w hrect hh
  rw [translate_three b row0 rest hs hr, hrow0, hrect.1]
  congr 1
  apply grid_congr
  intro i hi j hj
  simp only [Pixel.mk.injEq, true_and]
  exact shapeAt_reverse_rows b.shape h w hrect j i hj

/-! ### Quarter turns -/

theorem valueGrid_grid (n m : Nat) (y x : Nat → Nat → Int) (v : Nat → Nat → Cell) :
    valueGrid (grid n m fun i j => ⟨y i j, x i j, v i j⟩) = grid n m v := by
  unfold valueGrid grid
  rw [List.map_map]
  apply map_range_congr
  intro i _
  simp only [Function.comp_apply, List.map_map]
  rfl

theorem isRect_grid (n m : Nat) (v : Nat → Nat → Cell) : IsRect (grid n m v) n m := by
  unfold IsRect grid
  refine ⟨by simp, ?_⟩
  intro row hrow
  obtain ⟨i, _, rfl⟩ := List.mem_map.mp hrow
  simp

theorem shapeAt_grid (n m : Nat) (v : Nat → Nat → Cell) (i j : Nat) (hi : i < n)
    (hj : j < m) : shapeAt (grid n m v) i j = v i j := by
  unfold shapeAt cellAt grid
  rw [List.getD_eq_getElem?_getD, List.getD_eq_getElem?_getD, List.getElem?_map,
    List.getElem?_range hi]
  simp only [Option.map_some', Option.getD_some]
  rw [List.getElem?_map, List.getElem?_range hj]
  rfl

theorem quarterTurn_grid (n m : Nat) (v : Nat → Nat → Cell) (hn : 0 < n) :
    quarterTurn (grid n m v) = .ok (grid m n fun i j => v j (m - 1 - i)) := by
  unfold quarterTurn
  rw [translate_rect_one (Block.mk (grid n m v) (0, 0) 1 false) n m (isRect_grid n m v) hn rfl]
  simp only
  rw [valueGrid_grid]
  congr 1
  apply grid_congr
  intro i hi j hj
  exact shapeAt_grid n m v j (m - 1 - i) hj (by omega)

/-- C17: with `R(S)` the values of the projection of `S` at rotation 1, for every rectangular
shape `S` of `h ≥ 1` rows and `w ≥ 1` columns the four turns `R(S)`, `R(R(S))`, `R(R(R(S)))`
and `R(R(R(R(S))))` exist, the values of the projection at rotation 2 are `R(R(S))`, those at
rotation 3 are `R(R(R(S)))`, and `R(R(R(R(S)))) = S`. -/
theorem rotations_are_quarter_turns (s : Shape) (h w : Nat) (position : Int × Int)
    (fixed : Bool) (hrect : IsRect s h w) (hh : 0 < h) (hw : 0 < w) :
    ∃ s1 s2 s3 proj2 proj3,
      quarterTurn s = .ok s1 ∧ quarterTurn s1 = .ok s2 ∧ quarterTurn s2 = .ok s3
        ∧ quarterTurn s3 = .ok s
        ∧ (Block.mk s position 2 fixed).translate = .ok proj2 ∧ valueGrid proj2 = s2
        ∧ (Block.mk s position 3 fixed).translate = .ok proj3 ∧ valueGrid proj3 = s3 := by
  have hs : s = grid h w (shapeAt s) := rect_eq_grid s h w hrect
  have h1 : quarterTurn s = .ok (grid w h fun i j => shapeAt s j (w - 1 - i)) := by
    conv_lhs => rw [hs]
    exact quarterTurn_grid h w (shapeAt s) hh
  have h2 : quarterTurn (grid w h fun i j => shapeAt s j (w - 1 - i))
      = .ok (grid h w fun i j => shapeAt s (h - 1 - i) (w - 1 - j)) := by
    rw [quarterTurn_grid w h _ hw]
  have h3 : quarterTurn (grid h w fun i j => shapeAt s (h - 1 - i) (w - 1 - j))
      = .ok (grid w h fun i j => shapeAt s (h - 1 - j) i) := by
    rw [quarterTurn_grid h w _ hh]
    congr 1
    apply grid_congr
    intro i hi j hj
    have e : w - 1 - (w - 1 - i) = i := by omega
    rw [e]
  have h4 : quarterTurn (grid w h fun i j => shapeAt s (h - 1 - j) i) = .ok s := by
    rw [quarterTurn_grid w h _ hw]
    congr 1
    conv_rhs => rw [hs]
    apply grid_congr
    intro i hi j hj
    have e : h - 1 - (h - 1 - i) = i := by omega
    rw [e]
  refine ⟨_, _, _, _, _, h1, h2, h3, h4,
    translate_rect_two (Block.mk s position 2 fixed) h w hrect rfl, ?_,
    translate_rect_three (Block.mk s position 3 fixed) h w hrect hh rfl, ?_⟩
  · exact valueGrid_grid h w _ _ _
  · exact valueGrid_grid w h _ _ _

/-- The four quarter turns of the first built-in shape. -/
theorem rotations_are_quarter_turns_witness :
    ∃ s1 s2 s3 proj2 proj3,
      quarterTurn (shapes.getD 0 []) = .ok s1 ∧ quarterTurn s1 = .ok s2
        ∧ quarterTurn s2 = .ok s3 ∧ quarterTurn s3 = .ok (shapes.getD 0 [])
        ∧ (Block.mk (shapes.getD 0 []) (-1, 4) 2 false).translate = .ok proj2
        ∧ valueGrid proj2 = s2
        ∧ (Block.mk (shapes.getD 0 []) (-1, 4) 3 false).translate = .ok proj3
        ∧ valueGrid proj3 = s3 :=
  rotations_are_quarter_turns (shapes.getD 0 []) 2 3 (-1, 4) false (by decide) (by decide)
    (by decide)

/-- C18, as stated, fails: for the shape `[["a", "b"]]` (`H = 1`, `W = 2`) at rotation 1 the
entry `[0][0]` of the projection holds `"b"`, the right-most cell of the row, while
`S[H-1-0][0]` is `"a"`. -/
theorem translate_rotation_one_not_clockwise :
    (Block.mk [[.str "a", .str "b"]] (0, 0) 1 false).translate
        = .ok [[⟨0, 0, .str "b"⟩], [⟨1, 0, .str "a"⟩]]
      ∧ shapeAt [[.str "a", .str "b"]] (1 - 1 - 0) 0 = .str "a"
      ∧ (Block.mk [[.str "a", .str "b"]] (0, 0) 1 false).translate
        ≠ .ok (grid 2 1 fun i j =>
            ⟨(0 : Int) + i, (0 : Int) + j, shapeAt [[.str "a", .str "b"]] (1 - 1 - j) i⟩) := by
  decide

/-- C18 (amended): at rotation 1 `translate` of a rectangular shape `S` of `h ≥ 1` rows and
`w` columns returns an array of `w` rows of `h` entries whose entry `[i][j]` has the
coordinates `(position[0] + i, position[1] + j)` and the value `S[j][w-1-i]`, a quarter turn
counter-clockwise: the right-most cell of the top row of `S` comes first. The value
`S[h-1-j][i]` is the one at rotation 3. -/
theorem translate_rotation_one_entries (b : Block) (h w : Nat) (hrect : IsRect b.shape h w)
    (hh : 0 < h) (hr : b.rotation = 1) :
    b.translate = .ok (grid w h fun i j =>
        ⟨b.position.1 + i, b.position.2 + j, shapeAt b.shape j (w - 1 - i)⟩)
      ∧ ({ b with rotation := 3 } : Block).translate = .ok (grid w h fun i j =>
        ⟨b.position.1 + i, b.position.2 + j, shapeAt b.shape (h - 1 - j) i⟩) := by
  constructor
  · exact translate_rect_one b h w hrect hh (by unfold Block.normRotation; rw [hr]; rfl)
  · exact translate_rect_three { b with rotation := 3 } h w hrect hh rfl

/-- The first built-in shape at position `(2, 3)` and rotation 1. -/
theorem translate_rotation_one_entries_witness :
    (Block.mk (shapes.getD 0 []) (2, 3) 1 false).translate
      = .ok [[⟨2, 3, .null⟩, ⟨2, 4, .str "🟦"⟩], [⟨3, 3, .null⟩, ⟨3, 4, .str "🟦"⟩],
          [⟨4, 3, .str "🟦"⟩, ⟨4, 4, .str "🟦"⟩]] :=
  (translate_rotation_one_entries (Block.mk (shapes.getD 0 []) (2, 3) 1 false) 2 3
    (by decide) (by decide) rfl).1.trans (by decide)

/-! ### Where a block is spawned -/

theorem shapes_dims : ∀ shape ∈ shapes,
    IsRect shape shape.length (shape.headD []).length ∧ 1 ≤ shape.length
      ∧ shape.length ≤ (shape.headD []).length ∧ (shape.headD []).length ≤ 4 := by
  decide

/-! #### Rounding to a double -/

theorem binaryDigits_spec : ∀ (fuel x : Nat), x ≤ fuel → 0 < x →
    2 ^ (binaryDigits fuel x - 1) ≤ x ∧ x < 2 ^ binaryDigits fuel x := by
  intro fuel
  induction fuel with
  | zero => intro x h0 h1; omega
  | succ fuel ih =>
    intro x hle hpos
    have hx : x ≠ 0 := by omega
    simp only [binaryDigits, if_neg hx, Nat.add_sub_cancel]
    by_cases h2 : x / 2 = 0
    · have h1 : x = 1 := by omega
      subst h1
      cases fuel with
      | zero => simp [binaryDigits]
      | succ f => simp [binaryDigits]
    · obtain ⟨ha, hb⟩ := ih (x / 2) (by omega) (by omega)
      have hd : 0 < binaryDigits fuel (x / 2) := by
        by_contra hz
        have : binaryDigits fuel (x / 2) = 0 := by omega
        rw [this] at hb
        simp at hb
        omega
      obtain ⟨d, hd'⟩ : ∃ d, binaryDigits fuel (x / 2) = d + 1 := ⟨_, (Nat.succ_pred_eq_of_pos hd).symm⟩
      rw [hd'] at ha hb ⊢
      simp only [Nat.add_sub_cancel] at ha
      rw [pow_succ] at hb ⊢
      rw [pow_succ]
      constructor <;> omega

/-- The parts of a number of 54 binary digits or more: the shift `s`, the 53 leading digits `q`
and the rest `r`. -/
theorem roundNat_parts (x : Nat) (hx : 2 ^ 53 ≤ x) :
    2 ^ 52 * 2 ^ (binaryDigits x x - 53) ≤ x / 2 ^ (binaryDigits x x - 53) * 2 ^ (binaryDigits x x - 53)
      ∧ x / 2 ^ (binaryDigits x x - 53) < 2 ^ 53
      ∧ 2 ^ 52 ≤ x / 2 ^ (binaryDigits x x - 53)
      ∧ 2 ≤ 2 ^ (binaryDigits x x - 53) := by
  have hpos : 0 < x := lt_of_lt_of_le (by decide) hx
  obtain ⟨ha, hb⟩ := binaryDigits_spec x x (le_refl _) hpos
  have hd : 54 ≤ binaryDigits x x := by
    by_contra hlt
    have h1 : binaryDigits x x ≤ 53 := by omega
    have := Nat.pow_le_pow_right (by decide : 0 < 2) h1
    omega
  obtain ⟨s, hs⟩ : ∃ s, binaryDigits x x = s + 54 := ⟨binaryDigits x x - 54, by omega⟩
  rw [hs] at ha hb ⊢
  have e1 : s + 54 - 53 = s + 1 := by omega
  have e2 : s + 54 - 1 = 52 + (s + 1) := by omega
  have e3 : s + 54 = 53 + (s + 1) := by omega
  rw [e1]
  rw [e2, pow_add] at ha
  rw [e3, pow_add] at hb
  have hP : 0 < 2 ^ (s + 1) := Nat.pow_pos (by decide)
  have hq1 : x / 2 ^ (s + 1) < 2 ^ 53 := by
    rw [Nat.div_lt_iff_lt_mul hP]; exact hb
  have hq0 : 2 ^ 52 ≤ x / 2 ^ (s + 1) := by
    rw [Nat.le_div_iff_mul_le hP]; exact ha
  refine ⟨Nat.mul_le_mul_right _ hq0, hq1, hq0, ?_⟩
  rw [pow_succ]
  have : 0 < 2 ^ s := Nat.pow_pos (by decide)
  omega

theorem roundNat_of_lt (x : Nat) (h : x < 2 ^ 53) : roundNat x = x := by
  unfold roundNat
  rw [if_pos h]

/-- The rounded value is `q * 2 ^ s` or `(q + 1) * 2 ^ s`, `q` being the 53 leading digits;
it is the larger only when the rest is at least half of `2 ^ s`. -/
theorem roundNat_cases (x : Nat) (hx : 2 ^ 53 ≤ x) :
    ∃ P q r : Nat, x = q * P + r ∧ r < P ∧ 2 ≤ P ∧ 2 ^ 52 ≤ q ∧ q < 2 ^ 53
      ∧ 2 ^ 52 * P ≤ q * P ∧ (∃ t, P = 2 ^ t)
      ∧ (roundNat x = q * P ∨ (roundNat x = (q + 1) * P ∧ P ≤ 2 * r)) := by
  obtain ⟨h1, h2, h3, h4⟩ := roundNat_parts x hx
  have hP : 0 < 2 ^ (binaryDigits x x - 53) := Nat.pow_pos (by decide)
  refine ⟨2 ^ (binaryDigits x x - 53), x / 2 ^ (binaryDigits x x - 53),
    x % 2 ^ (binaryDigits x x - 53), ?_, Nat.mod_lt _ hP, h4, h3, h2, h1, ⟨_, rfl⟩, ?_⟩
  · rw [Nat.mul_comm]; exact (Nat.div_add_mod _ _).symm
  · unfold roundNat
    rw [if_neg (by omega)]
    simp only
    split
    · rename_i hup
      right
      refine ⟨rfl, ?_⟩
      rcases hup with h | ⟨h, _⟩ <;> omega
    · left; rfl


theorem roundNat_form (x : Nat) : ∃ k t : Nat, roundNat x = k * 2 ^ t ∧ k ≤ 2 ^ 53 := by
  by_cases hx : x < 2 ^ 53
  · exact ⟨x, 0, by rw [roundNat_of_lt x hx]; simp, le_of_lt hx⟩
  · obtain ⟨P, q, r, _, _, _, _, hq, _, ⟨t, ht⟩, hround⟩ := roundNat_cases x (by omega)
    subst ht
    rcases hround with h | ⟨h, _⟩
    · exact ⟨q, t, h, le_of_lt hq⟩
    · exact ⟨q + 1, t, h, hq⟩

/-- The product of a double below 1 (`m / 2 ^ e`) and a positive integer `n`, once rounded,
is still below `n`. -/
theorem roundNat_mul_lt (m e n : Nat) (hm : m < 2 ^ 53) (hlt : m < 2 ^ e) (hn : 0 < n) :
    roundNat (m * n) < n * 2 ^ e := by
  have hexact : m * n < n * 2 ^ e := by
    rw [Nat.mul_comm m n]
    exact Nat.mul_lt_mul_of_pos_left hlt hn
  have hkey : m * 2 ^ 53 ≤ 2 ^ e * (2 ^ 53 - 1) := by
    by_cases he : e ≤ 53
    · have := Nat.pow_le_pow_right (by decide : 0 < 2) he
      generalize 2 ^ e = E at *
      omega
    · have := Nat.pow_le_pow_right (by decide : 0 < 2) (by omega : 53 ≤ e)
      generalize 2 ^ e = E at *
      omega
  have hkey2 : m * n * 2 ^ 53 ≤ n * 2 ^ e * (2 ^ 53 - 1) := by
    calc m * n * 2 ^ 53 = n * (m * 2 ^ 53) := by ring
      _ ≤ n * (2 ^ e * (2 ^ 53 - 1)) := Nat.mul_le_mul_left _ hkey
      _ = n * 2 ^ e * (2 ^ 53 - 1) := by ring
  by_cases hx : m * n < 2 ^ 53
  · rw [roundNat_of_lt _ hx]; exact hexact
  · obtain ⟨P, q, r, hsplit, hr, hP, hq0, hq1, hqP, _, hround⟩ := roundNat_cases (m * n) (by omega)
    rcases hround with h | ⟨h, hup⟩
    · rw [h]; omega
    · rw [h]
      by_contra hge
      have hqP1 : (q + 1) * P = q * P + P := by ring
      generalize n * 2 ^ e = N at *
      generalize m * n = X at *
      generalize q * P = A at *
      omega

/-- The column drawn for a block: the rounded product of a double below 1 and the rounded
difference `D` is below `D + 1`. -/
theorem roundNat_mul_roundNat_lt (m e D : Nat) (hm : m < 2 ^ 53) (hlt : m < 2 ^ e) :
    roundNat (m * roundNat D) < (D + 1) * 2 ^ e := by
  have hE : 0 < 2 ^ e := Nat.pow_pos (by decide)
  by_cases hD : D < 2 ^ 53
  · rw [roundNat_of_lt D hD]
    by_cases h0 : D = 0
    · subst h0
      rw [Nat.mul_zero, roundNat_of_lt 0 (by decide)]
      omega
    · have := roundNat_mul_lt m e D hm hlt (by omega)
      have : (D + 1) * 2 ^ e = D * 2 ^ e + 2 ^ e := by ring
      omega
  · obtain ⟨P, q, r, hsplit, hr, hP, hq0, hq1, hqP, ⟨s, hs⟩, hround⟩ := roundNat_cases D (by omega)
    have hDE : (D + 1) * 2 ^ e = q * P * 2 ^ e + (r + 1) * 2 ^ e := by rw [hsplit]; ring
    rcases hround with h | ⟨h, hup⟩
    · rw [h]
      have hpos : 0 < q * P := by
        have : 0 < 2 ^ 52 * P := Nat.mul_pos (by decide) (by omega)
        omega
      have := roundNat_mul_lt m e (q * P) hm hlt hpos
      have : 0 < (r + 1) * 2 ^ e := Nat.mul_pos (by omega) hE
      omega
    · rw [h]
      have hlt1 := roundNat_mul_lt m e ((q + 1) * P) hm hlt (Nat.mul_pos (by omega) (by omega))
      obtain ⟨k, t, hk, hk53⟩ := roundNat_form (m * ((q + 1) * P))
      rw [hk] at hlt1 ⊢
      suffices hsuf : k * 2 ^ t ≤ q * P * 2 ^ e by
        have : 0 < (r + 1) * 2 ^ e := Nat.mul_pos (by omega) hE
        omega
      subst hs
      by_cases hts : s + e ≤ t
      · obtain ⟨d, hd⟩ : ∃ d, t = (s + e) + d := ⟨t - (s + e), by omega⟩
        subst hd
        have e1 : k * 2 ^ (s + e + d) = (k * 2 ^ d) * 2 ^ (s + e) := by rw [pow_add]; ring
        have e2 : (q + 1) * 2 ^ s * 2 ^ e = (q + 1) * 2 ^ (s + e) := by rw [pow_add]; ring
        have e3 : q * 2 ^ s * 2 ^ e = q * 2 ^ (s + e) := by rw [pow_add]; ring
        rw [e1, e2] at hlt1
        rw [e1, e3]
        have hlt2 : k * 2 ^ d < q + 1 := Nat.lt_of_mul_lt_mul_right hlt1
        exact Nat.mul_le_mul_right _ (by omega)
      · obtain ⟨d, hd⟩ : ∃ d, s + e = t + 1 + d := ⟨s + e - (t + 1), by omega⟩
        have e3 : q * 2 ^ s * 2 ^ e = q * 2 ^ (s + e) := by rw [pow_add]; ring
        rw [e3, hd]
        calc k * 2 ^ t ≤ 2 ^ 53 * 2 ^ t := Nat.mul_le_mul_right _ hk53
          _ = 2 ^ 52 * 2 ^ (t + 1) := by rw [pow_succ]; ring
          _ ≤ 2 ^ 52 * 2 ^ (t + 1 + d) :=
              Nat.mul_le_mul_left _ (Nat.pow_le_pow_right (by decide) (by omega))
          _ ≤ q * 2 ^ (t + 1 + d) := Nat.mul_le_mul_right _ hq0

theorem roundDouble_natCast (x : Nat) : roundDouble (x : Int) = (roundNat x : Int) := by
  unfold roundDouble
  rw [Int.natAbs_ofNat]
  rcases Nat.eq_zero_or_pos x with h | h
  · subst h
    simp [roundNat_of_lt 0 (by decide)]
  · have : ((x : Nat) : Int).sign = 1 := Int.sign_eq_one_of_pos (by exact_mod_cast h)
    rw [this, one_mul]

theorem roundDouble_of_natAbs_le (x : Int) (h : x.natAbs ≤ 2 ^ 53) : roundDouble x = x := by
  unfold roundDouble
  have hr : roundNat x.natAbs = x.natAbs := by
    rcases Nat.lt_or_ge x.natAbs (2 ^ 53) with hlt | hge
    · exact roundNat_of_lt _ hlt
    · have heq : x.natAbs = 2 ^ 53 := by omega
      rw [heq]
      decide
  rw [hr]
  exact Int.sign_mul_natAbs x

/-- The value `Math.floor(Math.random() * n)` for the rounded difference `n` of `D ≥ 0`: it
lies in `[0, D]`. -/
theorem floorMul_bounds (u : Random) (D : Int) (hD : 0 ≤ D) :
    0 ≤ u.floorMul (roundDouble D) ∧ u.floorMul (roundDouble D) ≤ D := by
  obtain ⟨d, rfl⟩ := Int.eq_ofNat_of_zero_le hD
  have hE : (0 : Int) < 2 ^ u.exponent := by positivity
  unfold Random.floorMul
  rw [roundDouble_natCast d]
  have hcast : (u.mantissa : Int) * (roundNat d : Int) = ((u.mantissa * roundNat d : Nat) : Int) := by
    push_cast; rfl
  rw [hcast, roundDouble_natCast]
  constructor
  · exact Int.ediv_nonneg (by exact_mod_cast Nat.zero_le _) (le_of_lt hE)
  · have h := roundNat_mul_roundNat_lt u.mantissa u.exponent d u.mantissa_lt u.lt_one
    have h1 : (roundNat (u.mantissa * roundNat d) : Int) < ((d : Int) + 1) * 2 ^ u.exponent := by
      exact_mod_cast h
    have := Int.ediv_lt_of_lt_mul hE h1
    omega

/-- The product is rounded before `Math.floor` is taken: for `u = 2573485501354569 / 2 ^ 52`
the exact product `7 * u` is below 4, the double nearest to it is 4, and so is the floor. -/
theorem floorMul_rounds_first :
    2573485501354569 * 7 < 4 * 2 ^ 52
      ∧ (Random.mk 2573485501354569 52 (by decide) (by decide) (by decide)).floorMul 7 = 4 := by
  decide

/-- The value `Math.floor(Math.random() * 4)` is 0, 1, 2 or 3. -/
theorem floorMul_four (u : Random) : 0 ≤ u.floorMul 4 ∧ u.floorMul 4 ≤ 3 := by
  have hE : (0 : Int) < 2 ^ u.exponent := by positivity
  unfold Random.floorMul
  have hcast : (u.mantissa : Int) * 4 = ((u.mantissa * 4 : Nat) : Int) := by
    push_cast; rfl
  rw [hcast, roundDouble_natCast]
  constructor
  · exact Int.ediv_nonneg (by exact_mod_cast Nat.zero_le _) (le_of_lt hE)
  · have h := roundNat_mul_lt u.mantissa u.exponent 4 u.mantissa_lt u.lt_one (by decide)
    have h1 : (roundNat (u.mantissa * 4) : Int) < 4 * 2 ^ u.exponent := by
      exact_mod_cast h
    have := Int.ediv_lt_of_lt_mul hE h1
    omega

theorem grid_head {α : Type} (n m : Nat) (f : Nat → Nat → α) (hn : 0 < n) :
    (grid n m f).head? = some ((List.range m).map fun j => f 0 j) := by
  unfold grid
  cases n with
  | zero => omega
  | succ n =>
    rw [List.range_succ_eq_map]
    rfl

/-- With the built-in shapes `addBlock` returns and appends the chosen shape at row `-1`, at
the column and with the rotation drawn. -/
theorem addBlock_shapes_eq (fuel : Nat) (rand : Nat → Draw) (g : Game) :
    ∃ shape h w, shapes[(rand 0).first % shapes.length]? = some shape
      ∧ IsRect shape h w ∧ 1 ≤ h ∧ h ≤ w ∧ w ≤ 4
      ∧ Game.addBlock (fuel + 1) rand shapes g
        = ⟨none, { g with blocks := g.blocks ++
            [Block.mk shape (-1, (rand 0).forX.floorMul (roundDouble ((g.width : Int) - w)))
              ((rand 0).forRotation.floorMul 4) false] }⟩ := by
  obtain ⟨shape, hpick, hmem⟩ := shapes_pick (rand 0).first
  obtain ⟨hrect, h1, h2, h3⟩ := shapes_dims shape hmem
  have hne : shape ≠ [] := shapes_nonempty shape hmem
  have hcoords := translate_rect_zero (Block.new shape) _ _ hrect rfl
  have hhead := grid_head shape.length (shape.headD []).length
    (fun i j => (⟨(Block.new shape).position.1 + i, (Block.new shape).position.2 + j,
      shapeAt (Block.new shape).shape i j⟩ : Pixel)) h1
  refine ⟨shape, _, _, hpick, hrect, h1, h2, h3, ?_⟩
  obtain ⟨proj, hproj⟩ : ∃ proj,
      (Block.mk shape
        (-1, (rand 0).forX.floorMul (roundDouble ((g.width : Int) - (shape.headD []).length)))
        ((rand 0).forRotation.floorMul 4) false).translate = .ok proj :=
    (translate_ok_iff _).mpr (Or.inl hne)
  have hcheck := checkCollision_no_arguments g _ proj hproj
  simp only [Game.addBlock, hpick, hcoords, hhead, List.length_map, List.length_range]
  simp only [Block.new]
  rw [hcheck]

theorem normRotation_of_range (b : Block) (h0 : 0 ≤ b.rotation) (h3 : b.rotation ≤ 3) :
    (b.normRotation : Int) = b.rotation := by
  unfold Block.normRotation
  omega

/-- The columns of the projection of a block whose shape is no taller than wide, placed
where `addBlock` places it. -/
theorem spawn_columns (b : Block) (h w width : Nat) (hrect : IsRect b.shape h w)
    (h1 : 1 ≤ h) (h2 : h ≤ w) (hx0 : 0 ≤ b.position.2) (hx1 : b.position.2 + w ≤ width)
    (hr0 : 0 ≤ b.rotation) (hr3 : b.rotation ≤ 3) :
    ∃ proj, b.translate = .ok proj ∧ ∀ p ∈ proj.flatten, 0 ≤ p.x ∧ p.x < width := by
  have hn := normRotation_of_range b hr0 hr3
  have hcases : b.normRotation = 0 ∨ b.normRotation = 1 ∨ b.normRotation = 2
      ∨ b.normRotation = 3 := by omega
  rcases hcases with hr | hr | hr | hr
  · refine ⟨_, translate_rect_zero b h w hrect hr, ?_⟩
    intro p hp
    obtain ⟨i, _, j, hj, rfl⟩ := (mem_flatten_grid _ _ _ p).mp hp
    simp only
    omega
  · refine ⟨_, translate_rect_one b h w hrect h1 hr, ?_⟩
    intro p hp
    obtain ⟨i, _, j, hj, rfl⟩ := (mem_flatten_grid _ _ _ p).mp hp
    simp only
    omega
  · refine ⟨_, translate_rect_two b h w hrect hr, ?_⟩
    intro p hp
    obtain ⟨i, _, j, hj, rfl⟩ := (mem_flatten_grid _ _ _ p).mp hp
    simp only
    omega
  · refine ⟨_, translate_rect_three b h w hrect h1 hr, ?_⟩
    intro p hp
    obtain ⟨i, _, j, hj, rfl⟩ := (mem_flatten_grid _ _ _ p).mp hp
    simp only
    omega

/-- C16: on a board at least 4 wide, whatever the random choices (so for each of the seven
shapes and each rotation 0 to 3), `addBlock` returns and appends a block of a built-in shape
at row `-1`, with a rotation from 0 to 3, and every cell of its projection has its column in
`[0, width)`. The column and the rotation are the floors of products of doubles, rounded as
the machine rounds them. -/
theorem addBlock_columns_fit (fuel : Nat) (rand : Nat → Draw) (g : Game)
    (hwidth : 4 ≤ g.width) :
    ∃ b proj, Game.addBlock (fuel + 1) rand shapes g
        = ⟨none, { g with blocks := g.blocks ++ [b] }⟩
      ∧ shapes[(rand 0).first % shapes.length]? = some b.shape
      ∧ b.rotation = (rand 0).forRotation.floorMul 4
      ∧ 0 ≤ b.rotation ∧ b.rotation ≤ 3
      ∧ b.position.1 = -1
      ∧ b.translate = .ok proj
      ∧ ∀ p ∈ proj.flatten, 0 ≤ p.x ∧ p.x < g.width := by
  obtain ⟨shape, h, w, hmem, hrect, h1, h2, h3, hadd⟩ := addBlock_shapes_eq fuel rand g
  obtain ⟨hr0, hr3⟩ := floorMul_four (rand 0).forRotation
  obtain ⟨hx0, hx1⟩ := floorMul_bounds (rand 0).forX ((g.width : Int) - w) (by omega)
  obtain ⟨proj, hproj, hcols⟩ := spawn_columns
    (Block.mk shape (-1, (rand 0).forX.floorMul (roundDouble ((g.width : Int) - w)))
      ((rand 0).forRotation.floorMul 4) false) h w g.width hrect h1 h2 hx0
    (by simp only; omega) hr0 hr3
  exact ⟨_, proj, hadd, hmem, rfl, hr0, hr3, rfl, hproj, hcols⟩

/-- The square spawned on the empty 10 by 18 board. -/
theorem addBlock_columns_fit_witness :
    ∃ b proj, Game.addBlock (0 + 1) squareDraws shapes (emptyBoard 10 18 [])
        = ⟨none, { emptyBoard 10 18 [] with blocks := (emptyBoard 10 18 []).blocks ++ [b] }⟩
      ∧ shapes[(squareDraws 0).first % shapes.length]? = some b.shape
      ∧ b.rotation = (squareDraws 0).forRotation.floorMul 4
      ∧ 0 ≤ b.rotation ∧ b.rotation ≤ 3
      ∧ b.position.1 = -1
      ∧ b.translate = .ok proj
      ∧ ∀ p ∈ proj.flatten, 0 ≤ p.x ∧ p.x < (emptyBoard 10 18 []).width :=
  addBlock_columns_fit 0 squareDraws (emptyBoard 10 18 []) (by decide)

/-! ### Tilting -/

theorem grid_length {α : Type} (n m : Nat) (f : Nat → Nat → α) : (grid n m f).length = n := by
  unfold grid
  simp

theorem grid_headD_length {α : Type} (n m : Nat) (f : Nat → Nat → α) (hn : 0 < n) :
    ((grid n m f).headD []).length = m := by
  have h := grid_head n m f hn
  cases hg : grid n m f with
  | nil => rw [hg] at h; simp at h
  | cons row rest =>
    rw [hg] at h
    simp only [List.head?_cons, Option.some.injEq] at h
    simp [h]

/-- The projection of a rectangular shape of `h ≥ 1` rows and `w` columns is an `n` by `m`
array, `(n, m)` being `(h, w)` or `(w, h)`, whose entry `[i][j]` has the coordinates
`(position[0] + i, position[1] + j)`; `n`, `m` and the values do not depend on the position. -/
theorem translate_rect_any (shape : Shape) (rotation : Int) (h w : Nat)
    (hrect : IsRect shape h w) (hh : 0 < h) :
    ∃ (n m : Nat) (v : Nat → Nat → Cell), ((n = h ∧ m = w) ∨ (n = w ∧ m = h))
      ∧ ∀ (position : Int × Int) (fixed : Bool),
          (Block.mk shape position rotation fixed).translate
            = .ok (grid n m fun i j => ⟨position.1 + i, position.2 + j, v i j⟩) := by
  have hlt : rotation.natAbs % 4 < 4 := Nat.mod_lt _ (by decide)
  have hcases : rotation.natAbs % 4 = 0 ∨ rotation.natAbs % 4 = 1 ∨ rotation.natAbs % 4 = 2
      ∨ rotation.natAbs % 4 = 3 := by omega
  rcases hcases with hr | hr | hr | hr
  · exact ⟨h, w, fun i j => shapeAt shape i j, Or.inl ⟨rfl, rfl⟩, fun position fixed =>
      translate_rect_zero (Block.mk shape position rotation fixed) h w hrect hr⟩
  · exact ⟨w, h, fun i j => shapeAt shape j (w - 1 - i), Or.inr ⟨rfl, rfl⟩,
      fun position fixed =>
        translate_rect_one (Block.mk shape position rotation fixed) h w hrect hh hr⟩
  · exact ⟨h, w, fun i j => shapeAt shape (h - 1 - i) (w - 1 - j), Or.inl ⟨rfl, rfl⟩,
      fun position fixed =>
        translate_rect_two (Block.mk shape position rotation fixed) h w hrect hr⟩
  · exact ⟨w, h, fun i j => shapeAt shape (h - 1 - j) i, Or.inr ⟨rfl, rfl⟩,
      fun position fixed =>
        translate_rect_three (Block.mk shape position rotation fixed) h w hrect hh hr⟩

theorem clampInto_fields (b : Block) (n m width height : Nat) :
    (b.clampInto n m width height).shape = b.shape
      ∧ (b.clampInto n m width height).rotation = b.rotation
      ∧ (b.clampInto n m width height).fixed = b.fixed := by
  unfold Block.clampInto
  simp only
  split <;> split <;> exact ⟨rfl, rfl, rfl⟩

theorem clampInto_position (b : Block) (n m width height : Nat) (h0 : 0 ≤ b.position.1)
    (h1 : 0 ≤ b.position.2) (hn : n ≤ height) (hm : m ≤ width) :
    0 ≤ (b.clampInto n m width height).position.1
      ∧ (b.clampInto n m width height).position.1 + n ≤ height
      ∧ 0 ≤ (b.clampInto n m width height).position.2
      ∧ (b.clampInto n m width height).position.2 + m ≤ width := by
  unfold Block.clampInto
  by_cases c1 : b.position.1 + n ≥ height
  · by_cases c2 : b.position.2 + m ≥ width
    · simp only [c1, c2, if_true]
      omega
    · simp only [c1, c2, if_true, if_false]
      omega
  · by_cases c2 : b.position.2 + m ≥ width
    · simp only [c1, c2, if_true, if_false]
      omega
    · simp only [c1, c2, if_false]
      omega

/-- One turn of the loop of a tilt, on a board of `height` rows of `width` cells, for a block
that is not fixed and has a rectangular shape with at least one row and one column: it
returns, and the block is replaced by its tilted version. -/
theorem tiltBlock_spec (turn : Int) (g : Game) (i : Nat) (b : Block) (h w : Nat)
    (hwf : g.WellFormed) (hb : g.blocks[i]? = some b) (hfixed : b.fixed = false)
    (hrect : IsRect b.shape h w) (hh : 0 < h) (hw : 0 < w) :
    ∃ rows, g.tiltBlock turn i
        = ⟨none, { g with blocks := g.blocks.set i (b.tilted turn g.width g.height),
                          rows := rows }⟩
      ∧ ({ g with blocks := g.blocks.set i (b.tilted turn g.width g.height),
                  rows := rows } : Game).WellFormed := by
  obtain ⟨n0, m0, v0, _, hproj0⟩ := translate_rect_any b.shape b.rotation h w hrect hh
  obtain ⟨n, m, v, hdims, hproj⟩ :=
    translate_rect_any b.shape (roundDouble (b.rotation + turn)) h w hrect hh
  have hn : 0 < n := by rcases hdims with ⟨h1, _⟩ | ⟨h1, _⟩ <;> omega
  obtain ⟨rows1, hclear, hwf1⟩ := clearBlock_spec g b _ hwf (hproj0 b.position b.fixed)
  have hturned := hproj b.position b.fixed
  have htilted : b.tilted turn g.width g.height
      = ({ b with rotation := roundDouble (b.rotation + turn) } : Block).clampInto n m g.width g.height := by
    unfold Block.tilted
    rw [hturned]
    simp only [grid_length, grid_headD_length n m _ hn]
  obtain ⟨hs, hr, hf⟩ := clampInto_fields ({ b with rotation := roundDouble (b.rotation + turn) } : Block)
    n m g.width g.height
  have hdrawn : (b.tilted turn g.width g.height).translate
      = .ok (grid n m fun i j => ⟨(b.tilted turn g.width g.height).position.1 + i,
          (b.tilted turn g.width g.height).position.2 + j, v i j⟩) := by
    have := hproj (b.tilted turn g.width g.height).position (b.tilted turn g.width g.height).fixed
    rw [← this]
    congr 1
    rw [htilted]
    cases hc : ({ b with rotation := roundDouble (b.rotation + turn) } : Block).clampInto n m g.width g.height
    rw [hc] at hs hr
    simp only at hs hr
    simp only [hs, hr]
  have hwf2 : (({ g with rows := rows1 } : Game).setBlock i
      (b.tilted turn g.width g.height)).WellFormed := hwf1
  obtain ⟨rows2, hdraw, hwf3⟩ := drawBlock_spec _ _ _ hwf2 hdrawn
  refine ⟨rows2, ?_, hwf3⟩
  have hnotfixed : ¬ b.fixed = true := by rw [hfixed]; decide
  rw [htilted] at hdraw
  unfold Game.tiltBlock
  rw [hb]
  simp only
  rw [if_neg hnotfixed, hclear, Outcome.andThen_ok]
  simp only
  rw [hturned]
  simp only [grid_head n m _ hn, grid_length, List.length_map, List.length_range]
  rw [htilted]
  exact hdraw

theorem tilted_fields (turn : Int) (width height : Nat) (b : Block) :
    (b.tilted turn width height).shape = b.shape
      ∧ (b.tilted turn width height).rotation = roundDouble (b.rotation + turn)
      ∧ (b.tilted turn width height).fixed = b.fixed := by
  unfold Block.tilted
  split
  · exact ⟨rfl, rfl, rfl⟩
  · exact clampInto_fields _ _ _ _ _

theorem looseRect_of_map (g g1 : Game) (F : Nat → Block → Block)
    (hblocks : ∀ k : Nat, g1.blocks[k]? = (g.blocks[k]?).map (F k))
    (hF : ∀ k b, (F k b).shape = b.shape ∧ (F k b).fixed = b.fixed) (hgood : g.LooseRect) :
    g1.LooseRect := by
  intro k b1 hb1 hfixed
  rw [hblocks k] at hb1
  cases hb : g.blocks[k]? with
  | none => rw [hb] at hb1; exact Option.noConfusion hb1
  | some b =>
    rw [hb] at hb1
    simp only [Option.map_some', Option.some.injEq] at hb1
    subst hb1
    obtain ⟨hs, hf⟩ := hF k b
    rw [hs]
    exact hgood k b hb (by rw [← hf]; exact hfixed)

theorem tiltBlock_step (turn : Int) (g : Game) (i : Nat) (hwf : g.WellFormed)
    (hgood : g.LooseRect) :
    ∃ g1, g.tiltBlock turn i = ⟨none, g1⟩ ∧ g1.WellFormed ∧ g1.LooseRect
      ∧ g1.width = g.width ∧ g1.height = g.height
      ∧ ∀ k : Nat, g1.blocks[k]? = (g.blocks[k]?).map fun b =>
          if k = i ∧ b.fixed = false then b.tilted turn g.width g.height else b := by
  have hF : ∀ (k : Nat) (b : Block),
      (if k = i ∧ b.fixed = false then b.tilted turn g.width g.height else b).shape = b.shape
      ∧ (if k = i ∧ b.fixed = false then b.tilted turn g.width g.height else b).fixed
        = b.fixed := by
    intro k b
    split
    · exact ⟨(tilted_fields turn _ _ b).1, (tilted_fields turn _ _ b).2.2⟩
    · exact ⟨rfl, rfl⟩
  cases hb : g.blocks[i]? with
  | none =>
    have hblocks : ∀ k : Nat, g.blocks[k]? = (g.blocks[k]?).map fun b =>
        if k = i ∧ b.fixed = false then b.tilted turn g.width g.height else b := by
      intro k
      cases hk : g.blocks[k]? with
      | none => rfl
      | some b =>
        have hki : k ≠ i := by
          intro h; rw [h, hb] at hk; exact Option.noConfusion hk
        simp [hki]
    refine ⟨g, ?_, hwf, hgood, rfl, rfl, hblocks⟩
    unfold Game.tiltBlock
    rw [hb]
  | some b =>
    by_cases hfixed : b.fixed = true
    · have hblocks : ∀ k : Nat, g.blocks[k]? = (g.blocks[k]?).map fun b =>
          if k = i ∧ b.fixed = false then b.tilted turn g.width g.height else b := by
        intro k
        cases hk : g.blocks[k]? with
        | none => rfl
        | some c =>
          by_cases hki : k = i
          · rw [hki, hb] at hk
            simp only [Option.some.injEq] at hk
            subst hk
            simp [hfixed]
          · simp [hki]
      refine ⟨g, ?_, hwf, hgood, rfl, rfl, hblocks⟩
      unfold Game.tiltBlock
      rw [hb]
      simp only [hfixed, if_true]
    · have hloose : b.fixed = false := by simpa using hfixed
      obtain ⟨h, w, hrect, hh, hw⟩ := hgood i b hb hloose
      obtain ⟨rows, hrun, hwf1⟩ := tiltBlock_spec turn g i b h w hwf hb hloose hrect hh hw
      have hilt : i < g.blocks.length := by
        by_contra hge
        rw [List.getElem?_eq_none (by omega)] at hb
        exact Option.noConfusion hb
      have hblocks : ∀ k : Nat, (g.blocks.set i (b.tilted turn g.width g.height))[k]?
          = (g.blocks[k]?).map fun b =>
            if k = i ∧ b.fixed = false then b.tilted turn g.width g.height else b := by
        intro k
        by_cases hki : k = i
        · subst hki
          rw [List.getElem?_set, if_pos rfl, if_pos hilt, hb]
          simp [hloose]
        · rw [List.getElem?_set_ne (fun h => hki h.symm)]
          cases hk : g.blocks[k]? with
          | none => rfl
          | some c => simp [hki]
      exact ⟨_, hrun, hwf1, looseRect_of_map g _ _ hblocks hF hgood, rfl, rfl, hblocks⟩

theorem tiltFrom_spec (turn : Int) :
    ∀ (n i : Nat) (g : Game), g.WellFormed → g.LooseRect →
      ∃ g1, Game.tiltFrom turn n i g = ⟨none, g1⟩ ∧ g1.WellFormed ∧ g1.LooseRect
        ∧ g1.width = g.width ∧ g1.height = g.height
        ∧ ∀ k : Nat, g1.blocks[k]? = (g.blocks[k]?).map fun b =>
            if (i ≤ k ∧ k < i + n) ∧ b.fixed = false then b.tilted turn g.width g.height
            else b := by
  intro n
  induction n with
  | zero =>
    intro i g hwf hgood
    refine ⟨g, rfl, hwf, hgood, rfl, rfl, ?_⟩
    intro k
    cases hk : g.blocks[k]? with
    | none => rfl
    | some c =>
      have : ¬ (i ≤ k ∧ k < i) := by omega
      simp [this]
  | succ n ih =>
    intro i g hwf hgood
    obtain ⟨g1, hstep, hwf1, hgood1, hw1, hh1, hb1⟩ := tiltBlock_step turn g i hwf hgood
    obtain ⟨g2, hrest, hwf2, hgood2, hw2, hh2, hb2⟩ := ih (i + 1) g1 hwf1 hgood1
    refine ⟨g2, ?_, hwf2, hgood2, by rw [hw2, hw1], by rw [hh2, hh1], ?_⟩
    · simp only [Game.tiltFrom, hstep, Outcome.andThen_ok, hrest]
    · intro k
      rw [hb2 k, hb1 k, hw1, hh1]
      cases hk : g.blocks[k]? with
      | none => rfl
      | some c =>
        simp only [Option.map_some', Option.some.injEq]
        by_cases hki : k = i
        · subst hki
          have h1 : ¬ (k + 1 ≤ k ∧ k < k + 1 + n) := by omega
          have h2 : k ≤ k ∧ k < k + (n + 1) := by omega
          by_cases hc : c.fixed = false
          · simp [h1, h2, hc]
          · simp [h1, hc]
        · have h1 : (i + 1 ≤ k ∧ k < i + 1 + n) ↔ (i ≤ k ∧ k < i + (n + 1)) := by omega
          simp only [hki, false_and, if_false, h1]

/-- C15, as stated, fails in two ways. The long bar at `(-1, 3)` on the 10 by 18 board is not
fixed and its turned projection, 4 rows of 1 entry, is smaller than the board; after
`tiltLeft()` (and after `tiltRight()`) the rotation has changed by one but the block is still
on row `-1`, and the first entry of its projection lies outside the board. And the bar lying
on row 16 with the rotation `2 ^ 53` has the same rotation after `tiltLeft()` (likewise
`-(2 ^ 53)` after `tiltRight()`): `block.rotation++` is an addition of doubles, and
`2 ^ 53 + 1` is rounded to `2 ^ 53`. -/
theorem tilt_leaves_bar_above_or_unturned :
    barAbove.tiltLeft.thrown = none
      ∧ barAbove.tiltLeft.game.blocks = [Block.mk (shapes.getD 3 []) (-1, 3) 1 false]
      ∧ barAbove.tiltRight.thrown = none
      ∧ barAbove.tiltRight.game.blocks = [Block.mk (shapes.getD 3 []) (-1, 3) (-1) false]
      ∧ (Block.mk (shapes.getD 3 []) (-1, 3) 1 false).translate
        = .ok [[⟨-1, 3, .str "🟧"⟩], [⟨0, 3, .str "🟧"⟩], [⟨1, 3, .str "🟧"⟩],
            [⟨2, 3, .str "🟧"⟩]]
      ∧ (Block.mk (shapes.getD 3 []) (-1, 3) (-1) false).translate
        = .ok [[⟨-1, 3, .str "🟧"⟩], [⟨0, 3, .str "🟧"⟩], [⟨1, 3, .str "🟧"⟩],
            [⟨2, 3, .str "🟧"⟩]]
      ∧ barAbove.withinBounds (-1) 3 = false
      ∧ (barLowSpun 9007199254740992).tiltLeft.thrown = none
      ∧ (barLowSpun 9007199254740992).tiltLeft.game.blocks
        = [Block.mk (shapes.getD 3 []) (16, 6) 9007199254740992 false]
      ∧ (barLowSpun (-9007199254740992)).tiltRight.thrown = none
      ∧ (barLowSpun (-9007199254740992)).tiltRight.game.blocks
        = [Block.mk (shapes.getD 3 []) (16, 6) (-9007199254740992) false]
      ∧ (9007199254740992 : Int) = 2 ^ 53 := by
  decide

theorem tilted_inside (g : Game) (turn : Int) (g1 : Game) (hgood : g.LooseRect)
    (hblocks : ∀ k : Nat, g1.blocks[k]? = (g.blocks[k]?).map fun b =>
      if (0 ≤ k ∧ k < 0 + g.blocks.length) ∧ b.fixed = false then
        b.tilted turn g.width g.height
      else b) :
    TiltedInside g turn g1 := by
  intro k b proj hb hloose hp0 hp1 hround hproj hfit0 hfit1
  have hrd : roundDouble (b.rotation + turn) = b.rotation + turn :=
    roundDouble_of_natAbs_le _ hround
  obtain ⟨h, w, hrect, hh, hw⟩ := hgood k b hb hloose
  obtain ⟨n, m, v, hdims, hgrid⟩ := translate_rect_any b.shape (b.rotation + turn) h w hrect hh
  have hn : 0 < n := by rcases hdims with ⟨h1, _⟩ | ⟨h1, _⟩ <;> omega
  have hturned := hgrid b.position b.fixed
  have hpe : proj = grid n m fun i j => ⟨b.position.1 + i, b.position.2 + j, v i j⟩ := by
    rw [hproj] at hturned
    exact Except.ok.inj hturned
  rw [hpe, grid_length] at hfit0
  rw [hpe, grid_headD_length n m _ hn] at hfit1
  have hklt : k < g.blocks.length := by
    by_contra hge
    rw [List.getElem?_eq_none (by omega)] at hb
    exact Option.noConfusion hb
  have htilted : b.tilted turn g.width g.height
      = ({ b with rotation := b.rotation + turn } : Block).clampInto n m g.width g.height := by
    unfold Block.tilted
    rw [hrd, hturned]
    simp only [grid_length, grid_headD_length n m _ hn]
  obtain ⟨hs, hr, _⟩ := tilted_fields turn g.width g.height b
  rw [hrd] at hr
  obtain ⟨c0, c1, c2, c3⟩ := clampInto_position
    ({ b with rotation := b.rotation + turn } : Block) n m g.width g.height hp0 hp1 hfit0 hfit1
  rw [← htilted] at c0 c1 c2 c3
  have hnew := hgrid (b.tilted turn g.width g.height).position
    (b.tilted turn g.width g.height).fixed
  have hsame : Block.mk b.shape (b.tilted turn g.width g.height).position (b.rotation + turn)
      (b.tilted turn g.width g.height).fixed = b.tilted turn g.width g.height := by
    cases hc : b.tilted turn g.width g.height
    rw [hc] at hs hr
    simp only at hs hr
    simp only [hs, hr]
  rw [hsame] at hnew
  refine ⟨b.tilted turn g.width g.height, _, ?_, hr, hnew, ?_⟩
  · rw [hblocks k, hb]
    simp [hklt, hloose]
  · intro p hp
    obtain ⟨i, hi, j, hj, rfl⟩ := (mem_flatten_grid _ _ _ p).mp hp
    simp only [Game.withinBounds, Bool.and_eq_true, decide_eq_true_eq]
    omega

/-- C15 (amended): on a board of `height` rows of `width` cells where every block that is not
fixed has a rectangular shape with at least one row and one column, `tiltLeft()` and
`tiltRight()` return; for every block that is not fixed, whose row and column are not
negative, whose rotation `r` has `|r + 1| ≤ 2 ^ 53` (`|r - 1| ≤ 2 ^ 53` for `tiltRight`) and
whose turned projection has no more rows than `height` and no more columns than `width`, the
rotation has changed by `+1` (by `-1` for `tiltRight`) and every entry of its projection lies
inside the board. -/
theorem tilt_keeps_inside (g : Game) (hwf : g.WellFormed) (hgood : g.LooseRect) :
    (∃ g1, g.tiltLeft = ⟨none, g1⟩ ∧ TiltedInside g 1 g1)
      ∧ (∃ g1, g.tiltRight = ⟨none, g1⟩ ∧ TiltedInside g (-1) g1) := by
  constructor
  · obtain ⟨g1, hrun, _, _, _, _, hblocks⟩ := tiltFrom_spec 1 g.blocks.length 0 g hwf hgood
    exact ⟨g1, hrun, tilted_inside g 1 g1 hgood hblocks⟩
  · obtain ⟨g1, hrun, _, _, _, _, hblocks⟩ := tiltFrom_spec (-1) g.blocks.length 0 g hwf hgood
    exact ⟨g1, hrun, tilted_inside g (-1) g1 hgood hblocks⟩

theorem barLow_looseRect : barLow.LooseRect := by
  intro k b hb _
  cases k with
  | zero =>
    have hb0 : b = Block.mk (shapes.getD 3 []) (16, 6) 0 false := by
      have h : barLow.blocks[0]? = some (Block.mk (shapes.getD 3 []) (16, 6) 0 false) := by
        decide
      rw [h] at hb
      exact (Option.some.inj hb).symm
    subst hb0
    exact ⟨1, 4, by decide, by decide, by decide⟩
  | succ k =>
    have h : barLow.blocks[k + 1]? = none := by
      have hlen : barLow.blocks.length = 1 := by decide
      exact List.getElem?_eq_none (by omega)
    rw [h] at hb
    exact Option.noConfusion hb

/-- The bar lying on row 16: `tiltLeft()` stands it up on rows 14 to 17 of column 6. -/
theorem tilt_keeps_inside_witness :
    ((∃ g1, barLow.tiltLeft = ⟨none, g1⟩ ∧ TiltedInside barLow 1 g1)
      ∧ (∃ g1, barLow.tiltRight = ⟨none, g1⟩ ∧ TiltedInside barLow (-1) g1))
    ∧ barLow.tiltLeft.game.blocks = [Block.mk (shapes.getD 3 []) (14, 6) 1 false]
    ∧ (Block.mk (shapes.getD 3 []) (14, 6) 1 false).translate
      = .ok [[⟨14, 6, .str "🟧"⟩], [⟨15, 6, .str "🟧"⟩], [⟨16, 6, .str "🟧"⟩],
          [⟨17, 6, .str "🟧"⟩]] :=
  ⟨tilt_keeps_inside barLow (by decide) barLow_looseRect, by decide, by decide⟩

/-! ### The board after a block is drawn -/

theorem writeCell_eq (g : Game) (y x : Int) (v : Cell) (hwf : g.WellFormed)
    (hin : g.withinBounds y x = true) :
    ∃ row, g.rows[y.toNat]? = some row ∧ x.toNat < row.length
      ∧ g.writeCell y x v = ⟨none, { g with rows := g.rows.set y.toNat (row.set x.toNat v) }⟩ := by
  obtain ⟨hlen, hwidth⟩ := hwf
  simp only [Game.withinBounds, Bool.and_eq_true, decide_eq_true_eq] at hin
  obtain ⟨⟨⟨hy0, hx0⟩, hy1⟩, hx1⟩ := hin
  obtain ⟨row, hrow, hrow1⟩ := arrayGet_eq_some_of_lt g.rows y hy0 (by rw [hlen]; exact hy1)
  have hrowlen : row.length = g.width := hwidth row (List.mem_iff_getElem?.mpr ⟨_, hrow1⟩)
  refine ⟨row, hrow1, by omega, ?_⟩
  unfold Game.writeCell
  rw [hrow]
  unfold arraySet
  simp only
  rw [if_neg (by omega), if_pos (by omega)]

theorem readCell_writeCell (g : Game) (y x : Int) (v : Cell) (hwf : g.WellFormed)
    (hin : g.withinBounds y x = true) (y1 x1 : Int) :
    (g.writeCell y x v).game.readCell y1 x1
      = if y1 = y ∧ x1 = x then .ok v else g.readCell y1 x1 := by
  obtain ⟨row, hrow, hxlt, hw⟩ := writeCell_eq g y x v hwf hin
  simp only [Game.withinBounds, Bool.and_eq_true, decide_eq_true_eq] at hin
  obtain ⟨⟨⟨hy0, hx0⟩, _⟩, _⟩ := hin
  have hylt : y.toNat < g.rows.length := by
    by_contra hge
    rw [List.getElem?_eq_none (by omega)] at hrow
    exact Option.noConfusion hrow
  rw [hw]
  unfold Game.readCell arrayGet
  simp only
  by_cases hy1 : 0 ≤ y1
  · rw [if_pos hy1, if_pos hy1]
    by_cases hyy : y1 = y
    · subst hyy
      rw [List.getElem?_set, if_pos rfl, if_pos hylt, hrow]
      simp only
      by_cases hx1 : 0 ≤ x1
      · rw [if_pos hx1, if_pos hx1]
        by_cases hxx : x1 = x
        · subst hxx
          rw [List.getElem?_set, if_pos rfl, if_pos hxlt]
          simp
        · have hne : x.toNat ≠ x1.toNat := by omega
          rw [List.getElem?_set_ne hne]
          simp [hxx]
      · have hxx : x1 ≠ x := by omega
        rw [if_neg hx1, if_neg hx1]
        simp [hxx]
    · have hne : y.toNat ≠ y1.toNat := by omega
      rw [List.getElem?_set_ne hne]
      simp [hyy]
  · have hyy : y1 ≠ y := by omega
    rw [if_neg hy1, if_neg hy1]
    simp [hyy]

theorem writeCells_read (value : Pixel → Cell) :
    ∀ (ps : List Pixel) (g : Game), g.WellFormed →
      (∀ p ∈ ps, g.withinBounds p.y p.x = true) →
      (∀ p ∈ ps, ∀ q ∈ ps, p.y = q.y → p.x = q.x → value p = value q) →
      (∀ p ∈ ps, (Game.writeCells value ps g).game.readCell p.y p.x = .ok (value p))
        ∧ ∀ y x : Int, (∀ p ∈ ps, ¬ (p.y = y ∧ p.x = x)) →
            (Game.writeCells value ps g).game.readCell y x = g.readCell y x := by
  intro ps
  induction ps with
  | nil =>
    intro g _ _ _
    exact ⟨fun p hp => absurd hp (List.not_mem_nil p), fun _ _ _ => rfl⟩
  | cons p ps ih =>
    intro g hwf hin hsame
    have hinp := hin p (List.mem_cons_self p ps)
    obtain ⟨rows1, h1, hwf1⟩ := writeCell_spec g p.y p.x (value p) hwf hinp
    have hread := readCell_writeCell g p.y p.x (value p) hwf hinp
    rw [h1] at hread
    simp only at hread
    obtain ⟨ih1, ih2⟩ := ih { g with rows := rows1 } hwf1
      (fun q hq => hin q (List.mem_cons_of_mem p hq))
      (fun q hq r hr => hsame q (List.mem_cons_of_mem p hq) r (List.mem_cons_of_mem p hr))
    have hrun : Game.writeCells value (p :: ps) g
        = Game.writeCells value ps { g with rows := rows1 } := by
      simp only [Game.writeCells, h1, Outcome.andThen_ok]
    rw [hrun]
    constructor
    · intro q hq
      rcases List.mem_cons.mp hq with rfl | hq
      · by_cases hex : ∃ r ∈ ps, r.y = q.y ∧ r.x = q.x
        · obtain ⟨r, hr, hry, hrx⟩ := hex
          have := ih1 r hr
          rw [hry, hrx] at this
          rw [this, hsame r (List.mem_cons_of_mem q hr) q (List.mem_cons_self q ps) hry hrx]
        · have hno : ∀ r ∈ ps, ¬ (r.y = q.y ∧ r.x = q.x) := fun r hr h => hex ⟨r, hr, h⟩
          rw [ih2 q.y q.x hno, hread q.y q.x, if_pos ⟨rfl, rfl⟩]
      · exact ih1 q hq
    · intro y x hno
      rw [ih2 y x (fun r hr => hno r (List.mem_cons_of_mem p hr)), hread y x,
        if_neg (fun h => hno p (List.mem_cons_self p ps) ⟨h.1.symm, h.2.symm⟩)]

theorem drawBlock_agrees (g : Game) (b : Block) (h w : Nat) (hwf : g.WellFormed)
    (hrect : IsRect b.shape h w) (hh : 0 < h) :
    ∃ rows proj, g.drawBlock b = ⟨none, { g with rows := rows }⟩
      ∧ ({ g with rows := rows } : Game).WellFormed
      ∧ b.translate = .ok proj
      ∧ ({ g with rows := rows } : Game).Agrees proj := by
  obtain ⟨n, m, v, _, hgrid⟩ := translate_rect_any b.shape b.rotation h w hrect hh
  have hproj := hgrid b.position b.fixed
  have hin : ∀ p ∈ (grid n m fun i j =>
      (⟨b.position.1 + i, b.position.2 + j, v i j⟩ : Pixel)).flatten.filter
        (fun p => g.withinBounds p.y p.x && p.cell.truthy), g.withinBounds p.y p.x = true := by
    intro p hp
    have := (List.mem_filter.mp hp).2
    simp only [Bool.and_eq_true] at this
    exact this.1
  have hsame : ∀ p ∈ (grid n m fun i j =>
      (⟨b.position.1 + i, b.position.2 + j, v i j⟩ : Pixel)).flatten.filter
        (fun p => g.withinBounds p.y p.x && p.cell.truthy),
      ∀ q ∈ (grid n m fun i j =>
        (⟨b.position.1 + i, b.position.2 + j, v i j⟩ : Pixel)).flatten.filter
          (fun p => g.withinBounds p.y p.x && p.cell.truthy),
      p.y = q.y → p.x = q.x → p.cell = q.cell := by
    intro p hp q hq hy hx
    obtain ⟨i, _, j, _, rfl⟩ := (mem_flatten_grid _ _ _ p).mp (List.mem_filter.mp hp).1
    obtain ⟨i1, _, j1, _, rfl⟩ := (mem_flatten_grid _ _ _ q).mp (List.mem_filter.mp hq).1
    simp only at hy hx
    have hi : i = i1 := by omega
    have hj : j = j1 := by omega
    rw [hi, hj]
  obtain ⟨rows, hrun, hwf1⟩ := writeCells_spec (fun p => p.cell) _ g hwf hin
  obtain ⟨hread, _⟩ := writeCells_read (fun p => p.cell) _ g hwf hin hsame
  rw [hrun] at hread
  have hdraw : g.drawBlock b = ⟨none, { g with rows := rows }⟩ := by
    unfold Game.drawBlock
    rw [hgrid b.position b.fixed]
    exact hrun
  have hb' : Block.mk b.shape b.position b.rotation b.fixed = b := rfl
  refine ⟨rows, _, hdraw, hwf1, hproj, ?_⟩
  intro p hp htruthy hinside
  exact hread p (List.mem_filter.mpr ⟨hp, by
    rw [Bool.and_eq_true]
    exact ⟨hinside, htruthy⟩⟩)

theorem tiltBlock_draws (turn : Int) (g : Game) (i : Nat) (b : Block) (h w : Nat)
    (hwf : g.WellFormed) (hb : g.blocks[i]? = some b) (hfixed : b.fixed = false)
    (hrect : IsRect b.shape h w) (hh : 0 < h) (hw : 0 < w) :
    ∃ rows1, ({ g with rows := rows1 } : Game).WellFormed
      ∧ g.tiltBlock turn i
        = (({ g with rows := rows1 } : Game).setBlock i
            (b.tilted turn g.width g.height)).drawBlock (b.tilted turn g.width g.height) := by
  have _ := hw
  obtain ⟨n0, m0, v0, _, hproj0⟩ := translate_rect_any b.shape b.rotation h w hrect hh
  obtain ⟨n, m, v, hdims, hproj⟩ :=
    translate_rect_any b.shape (roundDouble (b.rotation + turn)) h w hrect hh
  have hn : 0 < n := by rcases hdims with ⟨h1, _⟩ | ⟨h1, _⟩ <;> omega
  obtain ⟨rows1, hclear, hwf1⟩ := clearBlock_spec g b _ hwf (hproj0 b.position b.fixed)
  have hturned := hproj b.position b.fixed
  have htilted : b.tilted turn g.width g.height
      = ({ b with rotation := roundDouble (b.rotation + turn) } : Block).clampInto n m g.width g.height := by
    unfold Block.tilted
    rw [hturned]
    simp only [grid_length, grid_headD_length n m _ hn]
  refine ⟨rows1, hwf1, ?_⟩
  have hnotfixed : ¬ b.fixed = true := by rw [hfixed]; decide
  unfold Game.tiltBlock
  rw [hb]
  simp only
  rw [if_neg hnotfixed, hclear, Outcome.andThen_ok]
  simp only
  rw [hturned]
  simp only [grid_head n m _ hn, grid_length, List.length_map, List.length_range]
  rw [htilted]
  rfl

/-- C12, as stated, fails in the first state: the game constructed with the square spawned at
`(-1, 4)` is reachable, the entry `(0, 4)` of the projection of its only block is occupied and
inside the board, and the board cell `(0, 4)` is the background, because `addBlock` does not
draw the block. -/
theorem board_differs_after_spawn :
    Reachable (Game.new (0 + 1) squareDraws 10 18 500 false).game
      ∧ (Game.new (0 + 1) squareDraws 10 18 500 false).game = emptyBoard 10 18 [squareSpawned]
      ∧ squareSpawned.translate
        = .ok [[⟨-1, 4, .str "🟨"⟩, ⟨-1, 5, .str "🟨"⟩], [⟨0, 4, .str "🟨"⟩, ⟨0, 5, .str "🟨"⟩]]
      ∧ (emptyBoard 10 18 [squareSpawned]).withinBounds 0 4 = true
      ∧ (emptyBoard 10 18 [squareSpawned]).readCell 0 4 = .ok background
      ∧ background ≠ .str "🟨" :=
  ⟨Reachable.new 0 squareDraws 10 18 500 false, by decide, by decide, by decide, by decide,
    by decide⟩

/-! ### The board agrees with the loose block in every reachable game -/

theorem getElem_lt_of_some {α : Type} (l : List α) (k : Nat) (a : α) (h : l[k]? = some a) :
    k < l.length := by
  by_contra hge
  rw [List.getElem?_eq_none (by omega)] at h
  exact Option.noConfusion h

theorem loose_is_last (g : Game) (hinv : FlagsInv g.flags) (k : Nat) (b : Block)
    (hb : g.blocks[k]? = some b) (hl : b.fixed = false) : k = g.blocks.length - 1 := by
  have hk := getElem_lt_of_some _ _ _ hb
  by_contra hne
  have := hinv k (by simp only [Game.flags, List.length_map]; omega)
  simp only [Game.flags, List.getElem?_map, hb, Option.map_some', Option.some.injEq] at this
  rw [hl] at this
  exact Bool.noConfusion this

theorem sound_of_fixed (g : Game) (hwf : g.WellFormed)
    (hfix : ∀ (k : Nat) (b : Block), g.blocks[k]? = some b → b.fixed = true) : g.Sound := by
  refine ⟨hwf, ?_, ?_, ?_⟩
  · intro k hk
    simp only [Game.flags, List.length_map] at hk
    have hlt : k < g.blocks.length := by omega
    simp only [Game.flags, List.getElem?_map, List.getElem?_eq_getElem hlt, Option.map_some']
    rw [hfix k _ (List.getElem?_eq_getElem hlt)]
  · intro k b hb hl
    rw [hfix k b hb] at hl
    exact Bool.noConfusion hl
  · intro k b hb hl
    rw [hfix k b hb] at hl
    exact Bool.noConfusion hl

theorem set_getElem_cases {α : Type} (l : List α) (i k : Nat) (a c : α)
    (h : (l.set i a)[k]? = some c) : (k = i ∧ c = a) ∨ (k ≠ i ∧ l[k]? = some c) := by
  by_cases hki : k = i
  · subst hki
    left
    rw [List.getElem?_set, if_pos rfl] at h
    split at h
    · exact ⟨rfl, (Option.some.inj h).symm⟩
    · exact Option.noConfusion h
  · right
    rw [List.getElem?_set_ne (fun e => hki e.symm)] at h
    exact ⟨hki, h⟩

theorem drawBlock_wf (g : Game) (b : Block) (hwf : g.WellFormed) :
    (g.drawBlock b).game.WellFormed := by
  cases hproj : b.translate with
  | error e =>
    unfold Game.drawBlock
    rw [hproj]
    exact hwf
  | ok proj =>
    obtain ⟨rows, hdraw, hwf1⟩ := drawBlock_spec g b proj hwf hproj
    rw [hdraw]
    exact hwf1

/-- A block stored at the last index and drawn: what the methods keep true stays true. -/
theorem redraw_sound (g : Game) (i : Nat) (b b1 : Block) (rows1 : List (List Cell))
    (hs : g.Sound) (hb : g.blocks[i]? = some b) (hi : i = g.blocks.length - 1)
    (hshape : b1.shape = b.shape) (hfixed : b1.fixed = b.fixed)
    (hwf1 : ({ g with rows := rows1 } : Game).WellFormed) :
    ((({ g with rows := rows1 } : Game).setBlock i b1).drawBlock b1).game.Sound := by
  obtain ⟨_, hinv, hrect, _⟩ := hs
  have hwf2 : (({ g with rows := rows1 } : Game).setBlock i b1).WellFormed := hwf1
  have hblocks := drawBlock_blocks (({ g with rows := rows1 } : Game).setBlock i b1) b1
  have hflags : ((({ g with rows := rows1 } : Game).setBlock i b1).drawBlock b1).game.flags
      = g.flags := by
    rw [flags_of_blocks _ _ hblocks]
    exact setBlock_flags ({ g with rows := rows1 } : Game) i b b1 hb hfixed
  have hget : ∀ (k : Nat) (c : Block),
      ((({ g with rows := rows1 } : Game).setBlock i b1).drawBlock b1).game.blocks[k]? = some c →
      (k = i ∧ c = b1) ∨ (k ≠ i ∧ g.blocks[k]? = some c) := by
    intro k c hc
    rw [hblocks] at hc
    exact set_getElem_cases g.blocks i k b1 c hc
  have hother : ∀ (k : Nat) (c : Block), k ≠ i → g.blocks[k]? = some c → c.fixed = true := by
    intro k c hki hc
    by_contra hcf
    have hl : c.fixed = false := by simpa using hcf
    have := loose_is_last g hinv k c hc hl
    omega
  by_cases hl : b.fixed = false
  · obtain ⟨h, w, hr, hh, hw⟩ := hrect i b hb hl
    obtain ⟨rows2, proj, hdraw, hwf3, hproj, hagree⟩ :=
      drawBlock_agrees _ b1 h w hwf2 (by rw [hshape]; exact hr) hh
    refine ⟨by rw [hdraw]; exact hwf3, by rw [hflags]; exact hinv, ?_, ?_⟩
    · intro k c hc hcl
      rcases hget k c hc with ⟨_, rfl⟩ | ⟨hki, hc1⟩
      · rw [hshape]
        exact ⟨h, w, hr, hh, hw⟩
      · rw [hother k c hki hc1] at hcl
        exact Bool.noConfusion hcl
    · intro k c hc hcl _
      rcases hget k c hc with ⟨_, rfl⟩ | ⟨hki, hc1⟩
      · refine ⟨proj, hproj, ?_⟩
        rw [hdraw]
        exact hagree
      · rw [hother k c hki hc1] at hcl
        exact Bool.noConfusion hcl
  · have hbf : b.fixed = true := by simpa using hl
    apply sound_of_fixed _ (drawBlock_wf _ _ hwf2)
    intro k c hc
    rcases hget k c hc with ⟨_, rfl⟩ | ⟨hki, hc1⟩
    · rw [hfixed]; exact hbf
    · exact hother k c hki hc1

theorem move_sound (g : Game) (i : Nat) (y x : Int) (hs : g.Sound)
    (hi : i = g.blocks.length - 1) : (g.move i y x).game.Sound := by
  unfold Game.move
  cases hb : g.blocks[i]? with
  | none => exact hs
  | some b =>
    simp only
    rw [checkCollision_eq]
    cases hproj : b.translate with
    | error e => exact hs
    | ok proj =>
      simp only
      by_cases ht : proj.flatten.any (g.touches (some y) (some x)) = true
      · rw [if_pos ht]
        exact hs
      · rw [if_neg ht]
        simp only
        obtain ⟨rows1, hclear, hwf1⟩ := clearBlock_spec g b proj hs.1 hproj
        rw [hclear, Outcome.andThen_ok]
        exact redraw_sound g i b _ rows1 hs hb hi rfl rfl hwf1

theorem tiltBlock_sound (turn : Int) (g : Game) (i : Nat) (hs : g.Sound) :
    (g.tiltBlock turn i).game.Sound := by
  cases hb : g.blocks[i]? with
  | none =>
    unfold Game.tiltBlock
    rw [hb]
    exact hs
  | some b =>
    by_cases hf : b.fixed = true
    · unfold Game.tiltBlock
      rw [hb]
      simp only [hf, if_true]
      exact hs
    · have hl : b.fixed = false := by simpa using hf
      obtain ⟨h, w, hr, hh, hw⟩ := hs.2.2.1 i b hb hl
      obtain ⟨rows1, hwf1, hrun⟩ := tiltBlock_draws turn g i b h w hs.1 hb hl hr hh hw
      rw [hrun]
      obtain ⟨hsh, _, hfx⟩ := tilted_fields turn g.width g.height b
      exact redraw_sound g i b _ rows1 hs hb (loose_is_last g hs.2.1 i b hb hl) hsh hfx hwf1

theorem Outcome.andThen_sound (o : Outcome) (k : Game → Outcome) (h1 : o.game.Sound)
    (h2 : o.game.Sound → (k o.game).game.Sound) : (o.andThen k).game.Sound := by
  unfold Outcome.andThen
  split
  · exact h2 h1
  · exact h1

theorem tiltFrom_sound (turn : Int) :
    ∀ (n i : Nat) (g : Game), g.Sound → (Game.tiltFrom turn n i g).game.Sound := by
  intro n
  induction n with
  | zero => intro i g hs; exact hs
  | succ n ih =>
    intro i g hs
    simp only [Game.tiltFrom]
    exact Outcome.andThen_sound _ _ (tiltBlock_sound turn g i hs) (ih (i + 1) _)

theorem move_length (g : Game) (i : Nat) (y x : Int) :
    (g.move i y x).game.blocks.length = g.blocks.length := by
  have h := congrArg List.length (move_flags g i y x)
  simpa [Game.flags] using h

theorem left_sound (g : Game) (hs : g.Sound) : g.left.game.Sound := by
  unfold Game.left
  split
  · exact hs
  · split
    · exact move_sound g _ _ _ hs rfl
    · exact hs

theorem right_sound (g : Game) (hs : g.Sound) : g.right.game.Sound := by
  unfold Game.right
  split
  · exact hs
  · split
    · exact hs
    · split
      · exact move_sound g _ _ _ hs rfl
      · split
        · exact move_sound g _ _ _ hs rfl
        · exact hs

theorem downLoop_sound (i : Nat) :
    ∀ (n : Nat) (y : Int) (g : Game), g.Sound → i = g.blocks.length - 1 →
      (Game.downLoop i n y g).game.Sound := by
  intro n
  induction n with
  | zero => intro y g hs _; exact hs
  | succ n ih =>
    intro y g hs hi
    simp only [Game.downLoop]
    split
    · exact Outcome.andThen_sound _ _ (move_sound g i 1 0 hs hi)
        (fun h => ih (y + 1) _ h (by rw [move_length]; exact hi))
    · exact hs

theorem down_sound (g : Game) (hs : g.Sound) : g.down.game.Sound := by
  unfold Game.down
  split
  · exact hs
  · split
    · exact hs
    · exact downLoop_sound _ _ _ g hs rfl

theorem act_sound (g : Game) (intent : Intent) (hs : g.Sound) : (g.act intent).game.Sound := by
  cases intent with
  | none => exact hs
  | tiltLeft => exact tiltFrom_sound 1 _ _ g hs
  | left => exact left_sound g hs
  | right => exact right_sound g hs
  | down => exact down_sound g hs

theorem listen_sound (g : Game) (replies : Option (List String)) (hs : g.Sound) :
    (g.listen replies).Sound := by
  cases replies with
  | none => exact hs
  | some texts => exact act_sound g _ hs


theorem setFixed_sound (g : Game) (i : Nat) (b : Block) (hs : g.Sound) :
    (g.setBlock i { b with fixed := true }).Sound := by
  obtain ⟨hwf, hinv, hrect, hdrawn⟩ := hs
  refine ⟨hwf, (setBlock_fixed_mono g i b).inv hinv, ?_, ?_⟩
  · intro k c hc hcl
    rcases set_getElem_cases g.blocks i k _ c hc with ⟨_, rfl⟩ | ⟨_, hc1⟩
    · exact Bool.noConfusion hcl
    · exact hrect k c hc1 hcl
  · intro k c hc hcl hrow
    rcases set_getElem_cases g.blocks i k _ c hc with ⟨_, rfl⟩ | ⟨_, hc1⟩
    · exact Bool.noConfusion hcl
    · exact hdrawn k c hc1 hcl hrow

theorem writeCell_wf (g : Game) (y x : Int) (v : Cell) (hwf : g.WellFormed) (hx0 : 0 ≤ x)
    (hx1 : x < g.width) :
    (g.writeCell y x v).game.WellFormed ∧ (g.writeCell y x v).game.width = g.width := by
  unfold Game.writeCell
  cases hrow : arrayGet g.rows y with
  | none => exact ⟨hwf, rfl⟩
  | some row =>
    obtain ⟨hlen, hwidth⟩ := hwf
    have hmem : row ∈ g.rows := by
      unfold arrayGet at hrow
      split at hrow
      · exact List.mem_iff_getElem?.mpr ⟨_, hrow⟩
      · exact Option.noConfusion hrow
    have hrowlen : row.length = g.width := hwidth row hmem
    refine ⟨⟨?_, ?_⟩, rfl⟩
    · simp [hlen]
    · intro r hr
      rcases List.mem_or_eq_of_mem_set hr with h | h
      · exact hwidth r h
      · rw [h]
        unfold arraySet
        rw [if_neg (by omega), if_pos (by omega)]
        simp [hrowlen]

theorem Outcome.andThen_wf (o : Outcome) (k : Game → Outcome) (w : Nat)
    (h1 : o.game.WellFormed ∧ o.game.width = w)
    (h2 : (k o.game).game.WellFormed ∧ (k o.game).game.width = w) :
    (o.andThen k).game.WellFormed ∧ (o.andThen k).game.width = w := by
  unfold Outcome.andThen
  split
  · exact h2
  · exact h1

theorem copyRow_wf (cur above : Int) :
    ∀ (n i : Nat) (g : Game), g.WellFormed → i + n ≤ g.width →
      (Game.copyRow cur above n i g).game.WellFormed
        ∧ (Game.copyRow cur above n i g).game.width = g.width := by
  intro n
  induction n with
  | zero => intro i g hwf _; exact ⟨hwf, rfl⟩
  | succ n ih =>
    intro i g hwf hle
    simp only [Game.copyRow]
    split
    · exact ⟨hwf, rfl⟩
    · next v _ =>
      have h1 := writeCell_wf g cur i v hwf (by omega) (by omega)
      apply Outcome.andThen_wf _ _ _ h1
      have h2 := ih (i + 1) (g.writeCell cur i v).game h1.1 (by rw [h1.2]; omega)
      exact ⟨h2.1, h2.2.trans h1.2⟩

theorem shiftDown_wf :
    ∀ (n : Nat) (cur above : Int) (g : Game), g.WellFormed →
      (Game.shiftDown n cur above g).game.WellFormed
        ∧ (Game.shiftDown n cur above g).game.width = g.width := by
  intro n
  induction n with
  | zero => intro cur above g hwf; exact ⟨hwf, rfl⟩
  | succ n ih =>
    intro cur above g hwf
    simp only [Game.shiftDown]
    split
    · have h1 := copyRow_wf cur above g.width 0 g hwf (by omega)
      apply Outcome.andThen_wf _ _ _ h1
      have h2 := ih (cur - 1) (above - 1) _ h1.1
      exact ⟨h2.1, h2.2.trans h1.2⟩
    · exact ⟨hwf, rfl⟩

theorem clearRows_wf :
    ∀ (rows : List Int) (g : Game), g.WellFormed →
      (Game.clearRows rows g).game.WellFormed
        ∧ (Game.clearRows rows g).game.width = g.width := by
  intro rows
  induction rows with
  | nil => intro g hwf; exact ⟨hwf, rfl⟩
  | cons row rows ih =>
    intro g hwf
    simp only [Game.clearRows]
    have h1 := shiftDown_wf row.toNat row (row - 1) g hwf
    apply Outcome.andThen_wf _ _ _ h1
    have h2 := ih _ h1.1
    exact ⟨h2.1, h2.2.trans h1.2⟩

theorem addBlock_sound (fuel : Nat) (rand : Nat → Draw) (g : Game) (hs : g.Sound)
    (hfix : ∀ (k : Nat) (b : Block), g.blocks[k]? = some b → b.fixed = true) :
    (Game.addBlock (fuel + 1) rand shapes g).game.Sound := by
  obtain ⟨shape, h, w, _, hrect, h1, h2, _, hadd⟩ := addBlock_shapes_eq fuel rand g
  rw [hadd]
  have hget : ∀ (k : Nat) (c : Block) (b : Block), (g.blocks ++ [b])[k]? = some c →
      c.fixed = true ∨ c = b := by
    intro k c b hc
    by_cases hk : k < g.blocks.length
    · rw [List.getElem?_append_left hk] at hc
      exact Or.inl (hfix k c hc)
    · rw [List.getElem?_append_right (by omega)] at hc
      have hk0 : k - g.blocks.length = 0 := by
        by_contra hne
        rw [List.getElem?_eq_none (by simp; omega)] at hc
        exact Option.noConfusion hc
      rw [hk0] at hc
      simp only [List.getElem?_cons_zero, Option.some.injEq] at hc
      exact Or.inr hc.symm
  refine ⟨hs.1, ?_, ?_, ?_⟩
  · intro k hk
    simp only [Game.flags, List.length_map, List.length_append, List.length_singleton] at hk
    have hlt : k < g.blocks.length := by omega
    simp only [Game.flags, List.getElem?_map, List.getElem?_append_left hlt,
      List.getElem?_eq_getElem hlt, Option.map_some']
    rw [hfix k _ (List.getElem?_eq_getElem hlt)]
  · intro k c hc hcl
    rcases hget k c _ hc with hf | rfl
    · rw [hf] at hcl
      exact Bool.noConfusion hcl
    · exact ⟨h, w, hrect, by omega, by omega⟩
  · intro k c hc hcl hrow
    rcases hget k c _ hc with hf | rfl
    · rw [hf] at hcl
      exact Bool.noConfusion hcl
    · exact absurd rfl hrow

theorem cleared_sound (g : Game) : g.cleared.Sound := by
  apply sound_of_fixed
  · refine ⟨by simp [Game.cleared], ?_⟩
    intro row hrow
    simp only [Game.cleared] at hrow
    rw [(List.mem_replicate.mp hrow).2]
    simp [Game.cleared]
  · intro k b hb
    simp [Game.cleared] at hb

theorem start_sound (fuel : Nat) (rand : Nat → Draw) (g : Game) :
    (Game.start (fuel + 1) rand g).game.Sound := by
  unfold Game.start
  apply addBlock_sound fuel rand g.cleared (cleared_sound g)
  intro k b hb
  simp [Game.cleared] at hb

theorem listen_length (g : Game) (replies : Option (List String)) :
    (g.listen replies).blocks.length = g.blocks.length := by
  have h := congrArg List.length (listen_flags g replies)
  simpa [Game.flags] using h

theorem updateBlock_sound (fuel : Nat) (rand : Nat → Draw) (replies : Option (List String))
    (g : Game) (i : Nat) (hs : g.Sound) :
    (g.updateBlock (fuel + 1) rand replies i).game.Sound := by
  unfold Game.updateBlock
  split
  · exact hs
  · next block hb =>
    split
    · exact hs
    · next hloose =>
      have hl : block.fixed = false := by simpa using hloose
      have hi := loose_is_last g hs.2.1 i block hb hl
      split
      · exact hs
      · next fix hfix =>
        have hs1 : (if fix = true then g.setBlock i { block with fixed := true } else g).Sound := by
          split
          · exact setFixed_sound g i block hs
          · exact hs
        have hlen1 : (if fix = true then g.setBlock i { block with fixed := true } else g).blocks.length
            = g.blocks.length := by
          split
          · simp [Game.setBlock]
          · rfl
        have hs2 := move_sound _ i 1 0 hs1 (by rw [hlen1]; exact hi)
        have hlen2 := move_length
          (if fix = true then g.setBlock i { block with fixed := true } else g) i 1 0
        have hs3 := listen_sound _ replies hs2
        have hlen3 := listen_length
          ((if fix = true then g.setBlock i { block with fixed := true } else g).move i 1 0).game
          replies
        simp only
        split
        · exact hs2
        · split
          · exact hs3
          · next block2 hb2 =>
            split
            · next hfixed2 =>
              split
              · exact start_sound fuel rand _
              · have hallfixed : ∀ (k : Nat) (c : Block),
                    (Game.listen ((if fix = true then g.setBlock i { block with fixed := true }
                      else g).move i 1 0).game replies).blocks[k]? = some c → c.fixed = true := by
                  intro k c hc
                  by_contra hcf
                  have hcl : c.fixed = false := by simpa using hcf
                  have hk := loose_is_last _ hs3.2.1 k c hc hcl
                  rw [hlen3, hlen2, hlen1, ← hi] at hk
                  rw [hk, hb2] at hc
                  rw [← Option.some.inj hc] at hcl
                  rw [hfixed2] at hcl
                  exact Bool.noConfusion hcl
                split
                · exact hs3
                · next rows _ =>
                  have hcl : (Game.clearRows rows (Game.listen ((if fix = true then
                      g.setBlock i { block with fixed := true } else g).move i 1 0).game
                      replies)).game.Sound := by
                    apply sound_of_fixed _ (clearRows_wf rows _ hs3.1).1
                    intro k c hc
                    rw [clearRows_blocks] at hc
                    exact hallfixed k c hc
                  split
                  · exact hcl
                  · exact hcl
            · exact hs3

theorem updateFrom_sound (fuel : Nat) (rand : Nat → Draw) (replies : Option (List String)) :
    ∀ (n i : Nat) (g : Game), g.Sound →
      (Game.updateFrom (fuel + 1) rand replies n i g).game.Sound := by
  intro n
  induction n with
  | zero => intro i g hs; exact hs
  | succ n ih =>
    intro i g hs
    have hstep := updateBlock_sound fuel rand replies g i hs
    simp only [Game.updateFrom]
    split
    · next o ho =>
      rw [ho] at hstep
      exact hstep
    · next g1 hg1 =>
      rw [hg1] at hstep
      exact ih (i + 1) g1 hstep

theorem update_sound (fuel : Nat) (rand : Nat → Draw) (replies : Option (List String))
    (g : Game) (hs : g.Sound) : (Game.update (fuel + 1) rand replies g).game.Sound := by
  have hloop := updateFrom_sound fuel rand replies g.blocks.length 0 g hs
  unfold Game.update
  split
  · next o ho =>
    rw [ho] at hloop
    exact hloop
  · next g1 hg1 =>
    rw [hg1] at hloop
    split
    · next hall =>
      apply addBlock_sound fuel rand g1 hloop
      intro k b hb
      rw [List.all_eq_true] at hall
      exact hall _ (List.mem_map.mpr ⟨b, List.mem_iff_getElem?.mpr ⟨k, hb⟩, rfl⟩)
    · exact hloop

theorem reachable_sound (g : Game) (h : Reachable g) : g.Sound := by
  induction h with
  | new fuel rand width height interval paused => exact start_sound fuel rand _
  | start fuel rand g _ _ => exact start_sound fuel rand g
  | update fuel rand replies g _ ih => exact update_sound fuel rand replies g ih


/-- C12 (amended): in every game reached from a newly constructed one by calls of `start` and
`update` (with any replies and random choices, and also when a call throws), the board agrees
with every block that is not fixed and does not stand on row `-1`: `translate` returns its
projection, and every occupied entry of the projection that lies inside the board is the
value of the board cell at its coordinates. A block on row `-1`, where `addBlock` puts it, may
not have been drawn: `addBlock` and `start` do not draw the block they make. -/
theorem reachable_board_agrees (g : Game) (h : Reachable g) (k : Nat) (b : Block)
    (hb : g.blocks[k]? = some b) (hloose : b.fixed = false) (hrow : b.position.1 ≠ -1) :
    ∃ proj, b.translate = .ok proj
      ∧ ∀ p ∈ proj.flatten, p.cell.truthy = true → g.withinBounds p.y p.x = true →
          g.readCell p.y p.x = .ok p.cell :=
  (reachable_sound g h).2.2.2 k b hb hloose hrow

/-- The bar turned on the board 1 wide: its entry `(0, 0)` is the only one inside the board,
and the board cell `(0, 0)` holds its value. -/
theorem reachable_board_agrees_witness :
    (∃ proj, (Block.mk (shapes.getD 3 []) (0, -3) 2 false).translate = .ok proj
      ∧ ∀ p ∈ proj.flatten, p.cell.truthy = true → barTurned.withinBounds p.y p.x = true →
          barTurned.readCell p.y p.x = .ok p.cell)
    ∧ barTurned.blocks = [Block.mk (shapes.getD 3 []) (0, -3) 2 false]
    ∧ (Block.mk (shapes.getD 3 []) (0, -3) 2 false).translate
      = .ok [[⟨0, -3, .str "🟧"⟩, ⟨0, -2, .str "🟧"⟩, ⟨0, -1, .str "🟧"⟩, ⟨0, 0, .str "🟧"⟩]]
    ∧ barTurned.withinBounds 0 0 = true
    ∧ barTurned.readCell 0 0 = .ok (.str "🟧") :=
  ⟨reachable_board_agrees barTurned
      (Reachable.update 0 barDraws (some ["spin"]) _ (Reachable.new 0 barDraws 1 6 500 false))
      0 (Block.mk (shapes.getD 3 []) (0, -3) 2 false) (by decide) (by decide) (by decide),
    by decide, by decide, by decide, by decide⟩

/-! ### The rows reported by `rowsToClear` are ascending -/

theorem range_map_row_ys (n : Nat) (G : Nat → List Pixel) (c : Int)
    (hG : ∀ i, ∀ p ∈ G i, p.y = c + i) :
    ∀ (i : Nat) (row : List Pixel), ((List.range n).map G)[i]? = some row →
      ∀ p ∈ row, p.y = c + i := by
  intro i row hrow p hp
  rw [List.getElem?_map] at hrow
  by_cases hi : i < n
  · rw [List.getElem?_range hi] at hrow
    simp only [Option.map_some', Option.some.injEq] at hrow
    subst hrow
    exact hG i p hp
  · rw [List.getElem?_eq_none (by simp; omega)] at hrow
    exact Option.noConfusion hrow

/-- In the projection of any block, every entry of row `i` has `y = position[0] + i`. -/
theorem translate_row_ys (b : Block) (proj : BlockLike) (hproj : b.translate = .ok proj) :
    ∀ (i : Nat) (row : List Pixel), proj[i]? = some row →
      ∀ p ∈ row, p.y = b.position.1 + i := by
  have hlt : b.normRotation < 4 := Nat.mod_lt _ (by decide)
  have hcases : b.normRotation = 0 ∨ b.normRotation = 1 ∨ b.normRotation = 2
      ∨ b.normRotation = 3 := by omega
  rcases hcases with hr | hr | hr | hr
  · rw [translate_zero b hr, enum_map_eq b.shape []] at hproj
    rw [← Except.ok.inj hproj]
    apply range_map_row_ys
    intro i p hp
    obtain ⟨q, _, rfl⟩ := List.mem_map.mp hp
    rfl
  · cases hs : b.shape with
    | nil =>
      have : b.translate = .error .typeError := by
        unfold Block.translate
        simp only [hr, hs]
        rfl
      rw [this] at hproj
      exact Except.noConfusion hproj
    | cons row0 rest =>
      rw [translate_one b row0 rest hs hr] at hproj
      rw [← Except.ok.inj hproj]
      apply range_map_row_ys
      intro i p hp
      obtain ⟨q, _, rfl⟩ := List.mem_map.mp hp
      rfl
  · rw [translate_two b hr, enum_map_eq b.shape.reverse []] at hproj
    rw [← Except.ok.inj hproj]
    apply range_map_row_ys
    intro i p hp
    obtain ⟨q, _, rfl⟩ := List.mem_map.mp hp
    rfl
  · cases hs : b.shape with
    | nil =>
      have : b.translate = .error .typeError := by
        unfold Block.translate
        simp only [hr, hs]
        rfl
      rw [this] at hproj
      exact Except.noConfusion hproj
    | cons row0 rest =>
      rw [translate_three b row0 rest hs hr] at hproj
      rw [← Except.ok.inj hproj]
      apply range_map_row_ys
      intro i p hp
      obtain ⟨q, _, rfl⟩ := List.mem_map.mp hp
      rfl

theorem pairwise_le_of_const (l : List Int) (c : Int) (h : ∀ a ∈ l, a = c) :
    l.Pairwise (· ≤ ·) := by
  induction l with
  | nil => exact List.Pairwise.nil
  | cons a as ih =>
    rw [List.pairwise_cons]
    refine ⟨?_, ih (fun x hx => h x (List.mem_cons_of_mem a hx))⟩
    intro x hx
    rw [h a (List.mem_cons_self a as), h x (List.mem_cons_of_mem a hx)]

theorem flatten_ys_sorted :
    ∀ (L : List (List Pixel)) (c : Int),
      (∀ (i : Nat) (row : List Pixel), L[i]? = some row → ∀ p ∈ row, p.y = c + i) →
      (L.flatten.map fun p => p.y).Pairwise (· ≤ ·)
        ∧ ∀ y ∈ L.flatten.map (fun p => p.y), c ≤ y := by
  intro L
  induction L with
  | nil =>
    intro c _
    exact ⟨List.Pairwise.nil, fun y hy => absurd hy (List.not_mem_nil y)⟩
  | cons row rest ih =>
    intro c h
    have hrow : ∀ p ∈ row, p.y = c := by
      intro p hp
      have := h 0 row (by simp) p hp
      simpa using this
    obtain ⟨hsorted, hlow⟩ := ih (c + 1) (by
      intro i r hr p hp
      have := h (i + 1) r (by simpa using hr) p hp
      rw [this]
      push_cast
      ring)
    simp only [List.flatten_cons, List.map_append]
    constructor
    · rw [List.pairwise_append]
      refine ⟨?_, hsorted, ?_⟩
      · apply pairwise_le_of_const _ c
        intro a ha
        obtain ⟨p, hp, rfl⟩ := List.mem_map.mp ha
        exact hrow p hp
      · intro y hy z hz
        obtain ⟨p, hp, rfl⟩ := List.mem_map.mp hy
        have := hlow z hz
        rw [hrow p hp]
        omega
    · intro y hy
      rcases List.mem_append.mp hy with hy | hy
      · obtain ⟨p, hp, rfl⟩ := List.mem_map.mp hy
        rw [hrow p hp]
      · have := hlow y hy
        omega

theorem uniq_foldl_sorted (values : List Int) :
    ∀ seen : List Int, seen.Pairwise (· < ·) → values.Pairwise (· ≤ ·) →
      (∀ s ∈ seen, ∀ v ∈ values, s ≤ v) →
      (values.foldl (fun seen v => if v ∈ seen then seen else seen ++ [v]) seen).Pairwise
        (· < ·) := by
  induction values with
  | nil => intro seen h _ _; exact h
  | cons v vs ih =>
    intro seen hseen hvals hle
    have hvs := (List.pairwise_cons.mp hvals)
    simp only [List.foldl_cons]
    by_cases hv : v ∈ seen
    · rw [if_pos hv]
      exact ih seen hseen hvs.2 (fun s hs u hu => hle s hs u (List.mem_cons_of_mem v hu))
    · rw [if_neg hv]
      apply ih
      · rw [List.pairwise_append]
        refine ⟨hseen, List.pairwise_singleton _ _, ?_⟩
        intro s hs u hu
        rw [List.mem_singleton] at hu
        subst hu
        have h1 := hle s hs u (List.mem_cons_self u vs)
        have h2 : s ≠ u := fun e => hv (e ▸ hs)
        omega
      · exact hvs.2
      · intro s hs u hu
        rcases List.mem_append.mp hs with hs | hs
        · exact hle s hs u (List.mem_cons_of_mem v hu)
        · rw [List.mem_singleton] at hs
          subst hs
          exact hvs.1 u hu

theorem uniq_sorted (values : List Int) (h : values.Pairwise (· ≤ ·)) :
    (uniq values).Pairwise (· < ·) :=
  uniq_foldl_sorted values [] List.Pairwise.nil h (fun s hs => absurd hs (List.not_mem_nil s))

/-! ### Clearing the reported rows deletes them at once -/

theorem rowsToClear_eq (g : Game) (b : Block) (proj : BlockLike)
    (hboard : g.rows.length = g.height) (hproj : b.translate = .ok proj) :
    g.rowsToClear b = .ok
      (((uniq (proj.flatten.map fun p => p.y)).filter
          fun (y : Int) => decide (y > 0) && decide (y < (g.height : Int))).filter
        fun y => match arrayGet g.rows y with
          | none => false
          | some row => row.all Cell.notBackground) := by
  unfold Game.rowsToClear
  rw [hproj]
  apply filterE_eq_filter
  intro y hy
  have hin := (List.mem_filter.mp hy).2
  simp only [Bool.and_eq_true, decide_eq_true_eq, gt_iff_lt] at hin
  obtain ⟨row, hrow, _⟩ :=
    arrayGet_eq_some_of_lt g.rows y (le_of_lt hin.1) (by rw [hboard]; exact hin.2)
  simp only [hrow]

theorem keepFrom_cons (cleared : List Int) (k : Nat) (row : List Cell)
    (rest : List (List Cell)) :
    keepFrom cleared k (row :: rest)
      = if (k : Int) ∈ cleared then keepFrom cleared (k + 1) rest
        else row :: keepFrom cleared (k + 1) rest := rfl

theorem keepFrom_append (cleared : List Int) :
    ∀ (l1 l2 : List (List Cell)) (k : Nat),
      keepFrom cleared k (l1 ++ l2)
        = keepFrom cleared k l1 ++ keepFrom cleared (k + l1.length) l2 := by
  intro l1
  induction l1 with
  | nil => intro l2 k; rfl
  | cons row rest ih =>
    intro l2 k
    have e : k + (row :: rest).length = k + 1 + rest.length := by
      simp only [List.length_cons]; omega
    rw [List.cons_append, keepFrom_cons, keepFrom_cons, ih l2 (k + 1), e]
    split <;> rfl

theorem keepFrom_all (cleared : List Int) :
    ∀ (l : List (List Cell)) (k : Nat),
      (∀ i : Nat, k ≤ i → i < k + l.length → (i : Int) ∉ cleared) →
      keepFrom cleared k l = l := by
  intro l
  induction l with
  | nil => intro k _; rfl
  | cons row rest ih =>
    intro k h
    have hk : (k : Int) ∉ cleared := h k (le_refl k) (by simp)
    rw [keepFrom_cons, if_neg hk,
      ih (k + 1) (fun i h1 h2 => h i (by omega) (by simp only [List.length_cons]; omega))]

theorem keepFrom_cons_of_ne (cleared : List Int) (r : Int) :
    ∀ (l : List (List Cell)) (k : Nat),
      (∀ i : Nat, k ≤ i → i < k + l.length → (i : Int) ≠ r) →
      keepFrom (r :: cleared) k l = keepFrom cleared k l := by
  intro l
  induction l with
  | nil => intro k _; rfl
  | cons row rest ih =>
    intro k h
    have hk : (k : Int) ≠ r := h k (le_refl k) (by simp)
    have hrest := ih (k + 1)
      (fun i h1 h2 => h i (by omega) (by simp only [List.length_cons]; omega))
    rw [keepFrom_cons, keepFrom_cons, hrest]
    simp only [List.mem_cons, hk, false_or]

/-- One run of the middle loop of `clearRows` for a row `n ≥ 1`: the board becomes row 0,
then the rows before `n`, then the rows after `n`. -/
theorem shiftDown_rows (n : Nat) (g : Game) (hwf : g.WellFormed) (h1 : 1 ≤ n)
    (hn : n < g.height) :
    Game.shiftDown n (n : Int) ((n : Int) - 1) g
      = ⟨none, { g with rows := g.rows.headD [] :: (g.rows.take n ++ g.rows.drop (n + 1)) }⟩ := by
  obtain ⟨rows, hrun, hlen, hrows⟩ := shiftDown_spec n g hwf hn
  have hglen : g.rows.length = g.height := hwf.1
  have heq : rows = g.rows.headD [] :: (g.rows.take n ++ g.rows.drop (n + 1)) := by
    apply List.ext_getElem?
    intro k
    rw [hrows k]
    cases k with
    | zero =>
      rw [if_neg (by omega)]
      cases hg : g.rows with
      | nil => rw [hg] at hglen; simp at hglen; omega
      | cons row0 rest => simp
    | succ j =>
      simp only [List.getElem?_cons_succ, Nat.add_sub_cancel]
      by_cases hj : j < n
      · rw [if_pos (by omega), List.getElem?_append_left (by simp; omega),
          List.getElem?_take_of_lt hj]
      · rw [if_neg (by omega), List.getElem?_append_right (by simp; omega),
          List.getElem?_drop]
        congr 1
        simp only [List.length_take]
        omega
  rw [hrun, heq]

theorem deleteRows_step (rows : List (List Cell)) (n : Nat) (rs : List Int) (h1 : 1 ≤ n)
    (hn : n < rows.length) (hrs : ∀ s ∈ rs, (n : Int) < s) :
    deleteRows (rows.headD [] :: (rows.take n ++ rows.drop (n + 1))) rs
      = rows.headD [] :: deleteRows rows ((n : Int) :: rs) := by
  have hsplit : rows = rows.take n ++ rows[n] :: rows.drop (n + 1) := by
    rw [← List.drop_eq_getElem_cons hn, List.take_append_drop]
  have htake : (rows.take n).length = n := by
    rw [List.length_take]; omega
  have h0 : ((0 : Nat) : Int) ∉ rs := by
    intro h
    have := hrs _ h
    omega
  have hleft : deleteRows (rows.headD [] :: (rows.take n ++ rows.drop (n + 1))) rs
      = rows.headD [] :: (rows.take n ++ keepFrom rs (n + 1) (rows.drop (n + 1))) := by
    unfold deleteRows
    rw [keepFrom_cons, if_neg h0, keepFrom_append, htake,
      keepFrom_all rs (rows.take n) (0 + 1) (by
        intro i hi1 hi2 h
        have := hrs _ h
        rw [htake] at hi2
        omega)]
    congr 3
    omega
  have hright : deleteRows rows ((n : Int) :: rs)
      = rows.take n ++ keepFrom rs (n + 1) (rows.drop (n + 1)) := by
    unfold deleteRows
    conv_lhs => rw [hsplit]
    rw [keepFrom_append, htake,
      keepFrom_all ((n : Int) :: rs) (rows.take n) 0 (by
        intro i _ hi2 h
        rw [htake] at hi2
        rcases List.mem_cons.mp h with h | h
        · omega
        · have := hrs _ h
          omega),
      keepFrom_cons, if_pos (by simp),
      keepFrom_cons_of_ne rs (n : Int) (rows.drop (n + 1)) (0 + n + 1) (by
        intro i hi1 _
        omega)]
    congr 2
    omega
  rw [hleft, hright]

/-- On a board of `height` rows of `width` cells, `clearRows` of ascending rows inside
`(0, height)` returns; the board is then as many copies of the old row 0 as rows were
cleared, followed by the old board without the cleared rows; the rows below the cleared ones
are as before. -/
theorem clearRows_ascending :
    ∀ (l : List Int) (g : Game), g.WellFormed → l.Pairwise (· < ·) →
      (∀ r ∈ l, 0 < r ∧ r < (g.height : Int)) →
      ∃ rows, Game.clearRows l g = ⟨none, { g with rows := rows }⟩
        ∧ ({ g with rows := rows } : Game).WellFormed
        ∧ rows = List.replicate l.length (g.rows.headD []) ++ deleteRows g.rows l
        ∧ ∀ k : Nat, (∀ r ∈ l, r < (k : Int)) → rows[k]? = g.rows[k]? := by
  intro l
  induction l with
  | nil =>
    intro g hwf _ _
    refine ⟨g.rows, rfl, hwf, ?_, fun _ _ => rfl⟩
    unfold deleteRows
    rw [keepFrom_all [] g.rows 0 (fun i _ _ h => absurd h (List.not_mem_nil _))]
    rfl
  | cons r rs ih =>
    intro g hwf hsorted hrange
    obtain ⟨hr0, hr1⟩ := hrange r (List.mem_cons_self r rs)
    obtain ⟨hrs, hsorted1⟩ := List.pairwise_cons.mp hsorted
    obtain ⟨n, rfl⟩ : ∃ n : Nat, r = (n : Int) := ⟨r.toNat, by omega⟩
    have h1 : 1 ≤ n := by omega
    have hn : n < g.height := by omega
    obtain ⟨hlen, hwidth⟩ := hwf
    have hnlen : n < g.rows.length := by omega
    have hshift := shiftDown_rows n g ⟨hlen, hwidth⟩ h1 hn
    have hhead : g.rows.headD [] ∈ g.rows := by
      cases hg : g.rows with
      | nil => rw [hg] at hnlen; simp at hnlen
      | cons row0 rest => simp
    have hwf1 : ({ g with rows := g.rows.headD [] :: (g.rows.take n ++ g.rows.drop (n + 1)) }
        : Game).WellFormed := by
      constructor
      · simp only [List.length_cons, List.length_append, List.length_take, List.length_drop]
        omega
      · intro row hrow
        rcases List.mem_cons.mp hrow with h | h
        · rw [h]; exact hwidth _ hhead
        · rcases List.mem_append.mp h with h | h
          · exact hwidth _ (List.mem_of_mem_take h)
          · exact hwidth _ (List.mem_of_mem_drop h)
    obtain ⟨rows2, hrun2, hwf2, heq2, hbelow2⟩ :=
      ih { g with rows := g.rows.headD [] :: (g.rows.take n ++ g.rows.drop (n + 1)) } hwf1
        hsorted1 (fun s hs => hrange s (List.mem_cons_of_mem _ hs))
    refine ⟨rows2, ?_, hwf2, ?_, ?_⟩
    · simp only [Game.clearRows, Int.toNat_ofNat, hshift, Outcome.andThen_ok, hrun2]
    · rw [heq2]
      simp only [List.headD_cons, List.length_cons]
      rw [deleteRows_step g.rows n rs h1 hnlen hrs, List.replicate_succ', List.append_assoc]
      rfl
    · intro k hk
      have hkn : n < k := by
        have := hk (n : Int) (List.mem_cons_self _ rs)
        omega
      rw [hbelow2 k (fun s hs => hk s (List.mem_cons_of_mem _ hs))]
      cases k with
      | zero => omega
      | succ j =>
        simp only [List.getElem?_cons_succ]
        rw [List.getElem?_append_right (by simp; omega), List.getElem?_drop]
        congr 1
        simp only [List.length_take]
        omega

/-- C21: line clearing is a simultaneous deletion. On a board of `height` rows of `width`
cells, for a block whose projection exists, `rowsToClear(block)` returns rows in strictly
increasing order, and `clearRows` of them returns and leaves the board equal to `k` copies of
the old row 0 (`k` the number of rows reported) followed by the old board without the
reported rows, the other rows in order; the board keeps its number of rows, its row 0 is the
old row 0, and the rows below the largest reported row are as before. -/
theorem clearRows_is_simultaneous_deletion (g : Game) (b : Block) (proj : BlockLike)
    (hwf : g.WellFormed) (hproj : b.translate = .ok proj) :
    ∃ l rows, g.rowsToClear b = .ok l
      ∧ l.Pairwise (· < ·)
      ∧ Game.clearRows l g = ⟨none, { g with rows := rows }⟩
      ∧ rows = List.replicate l.length (g.rows.headD []) ++ deleteRows g.rows l
      ∧ rows.length = g.rows.length
      ∧ rows[0]? = g.rows[0]?
      ∧ ∀ k : Nat, (∀ r ∈ l, r < (k : Int)) → rows[k]? = g.rows[k]? := by
  have hrun := rowsToClear_eq g b proj hwf.1 hproj
  have hys := (flatten_ys_sorted proj b.position.1 (translate_row_ys b proj hproj)).1
  have hsorted := ((uniq_sorted _ hys).filter
    (fun (y : Int) => decide (y > 0) && decide (y < (g.height : Int)))).filter
    (fun y => match arrayGet g.rows y with
      | none => false
      | some row => row.all Cell.notBackground)
  have hrange : ∀ r ∈ ((uniq (proj.flatten.map fun p => p.y)).filter
      fun (y : Int) => decide (y > 0) && decide (y < (g.height : Int))).filter
      (fun y => match arrayGet g.rows y with
        | none => false
        | some row => row.all Cell.notBackground), 0 < r ∧ r < (g.height : Int) := by
    intro r hr
    have := (List.mem_filter.mp (List.mem_filter.mp hr).1).2
    simpa using this
  obtain ⟨rows, hclear, hwf1, heq, hbelow⟩ := clearRows_ascending _ g hwf hsorted hrange
  refine ⟨_, rows, hrun, hsorted, hclear, heq, ?_, ?_, hbelow⟩
  · rw [hwf1.1]
    exact hwf.1.symm
  · cases hl : ((uniq (proj.flatten.map fun p => p.y)).filter
        fun (y : Int) => decide (y > 0) && decide (y < (g.height : Int))).filter
        (fun y => match arrayGet g.rows y with
          | none => false
          | some row => row.all Cell.notBackground) with
    | nil =>
      apply hbelow 0
      rw [hl]
      intro r hr
      exact absurd hr (List.not_mem_nil r)
    | cons r rs =>
      have hr := hrange r (by rw [hl]; exact List.mem_cons_self r rs)
      have hlen : 0 < g.rows.length := by rw [hwf.1]; omega
      rw [heq, hl]
      cases hg : g.rows with
      | nil => rw [hg] at hlen; simp at hlen
      | cons row0 rest => simp [List.replicate_succ]

/-- The board with rows 2 and 3 full: both are reported, and clearing them leaves three
copies of row 0 above the old row 1. -/
theorem clearRows_is_simultaneous_deletion_witness :
    (∃ l rows, twoRowsFull.rowsToClear (Block.mk (shapes.getD 2 []) (2, 0) 0 true) = .ok l
      ∧ l.Pairwise (· < ·)
      ∧ Game.clearRows l twoRowsFull = ⟨none, { twoRowsFull with rows := rows }⟩
      ∧ rows = List.replicate l.length (twoRowsFull.rows.headD []) ++ deleteRows twoRowsFull.rows l
      ∧ rows.length = twoRowsFull.rows.length
      ∧ rows[0]? = twoRowsFull.rows[0]?
      ∧ ∀ k : Nat, (∀ r ∈ l, r < (k : Int)) → rows[k]? = twoRowsFull.rows[k]?)
    ∧ twoRowsFull.rowsToClear (Block.mk (shapes.getD 2 []) (2, 0) 0 true) = .ok [2, 3]
    ∧ deleteRows twoRowsFull.rows [2, 3] = [[.str "🟦", background], [background, .str "🟥"]]
    ∧ (Game.clearRows [2, 3] twoRowsFull).game.rows
      = [[.str "🟦", background], [.str "🟦", background], [.str "🟦", background],
          [background, .str "🟥"]] :=
  ⟨clearRows_is_simultaneous_deletion twoRowsFull (Block.mk (shapes.getD 2 []) (2, 0) 0 true)
      [[⟨2, 0, .str "🟨"⟩, ⟨2, 1, .str "🟨"⟩], [⟨3, 0, .str "🟨"⟩, ⟨3, 1, .str "🟨"⟩]]
      (by decide) (by decide),
    by decide, by decide, by decide⟩

end Twitris
